import Mathlib

/-!
Verification development for the `translate-json` repository.

The repository translates JSON documents: it extracts translatable leaf
strings (`JsonProcessor.extractStrings`), deduplicates them
(`JsonProcessor.deduplicateStrings`), drives one translation job per unique
string through a retrying state machine (`TranslationService`), and
reconstructs the translated tree (`JsonProcessor.applyTranslations`) plus a
minimal patch (`JsonProcessor.createPatch`).

This file gives a shallow embedding of those functions and proves or refutes
the specification claims about them.  JavaScript objects are modelled as
association lists preserving insertion order, JS `Map`s as association lists
with `Map.set` update semantics, and array indices as their decimal string
form (JS `index.toString()`).  The string classifier `shouldTranslate` is
kept as an explicit function parameter `st`: none of the claims under
verification concern the classifier's regex internals, and every theorem
quantifies over it (so each theorem in particular applies to the concrete
classifier of the repository).
-/

namespace TranslateJson

/-- Model of a JSON value.  Objects are ordered association lists (JS object
property order); `num`/`boolean`/`null` cover the non-string scalar leaves. -/
inductive Json where
  | str (s : String)
  | num (n : Int)
  | boolean (b : Bool)
  | null
  | arr (items : List Json)
  | obj (fields : List (String × Json))

mutual

/-- Boolean structural equality on `Json` (the derive handler does not
support nested inductives, so the instance is written out). -/
def Json.beq : Json → Json → Bool
  | .str a, .str b => a = b
  | .num a, .num b => a = b
  | .boolean a, .boolean b => a = b
  | .null, .null => true
  | .arr xs, .arr ys => Json.beqList xs ys
  | .obj fs, .obj gs => Json.beqFields fs gs
  | _, _ => false

def Json.beqList : List Json → List Json → Bool
  | [], [] => true
  | x :: xs, y :: ys => Json.beq x y && Json.beqList xs ys
  | _, _ => false

def Json.beqFields : List (String × Json) → List (String × Json) → Bool
  | [], [] => true
  | (k, v) :: fs, (l, w) :: gs => k = l && Json.beq v w && Json.beqFields fs gs
  | _, _ => false

end

mutual

theorem Json.beq_iff : ∀ a b : Json, Json.beq a b = true ↔ a = b
  | .str a, .str b => by simp [Json.beq]
  | .num a, .num b => by simp [Json.beq]
  | .boolean a, .boolean b => by simp [Json.beq]
  | .null, .null => by simp [Json.beq]
  | .arr xs, .arr ys => by simp [Json.beq, Json.beqList_iff xs ys]
  | .obj fs, .obj gs => by simp [Json.beq, Json.beqFields_iff fs gs]
  | .str _, .num _ => by simp [Json.beq]
  | .str _, .boolean _ => by simp [Json.beq]
  | .str _, .null => by simp [Json.beq]
  | .str _, .arr _ => by simp [Json.beq]
  | .str _, .obj _ => by simp [Json.beq]
  | .num _, .str _ => by simp [Json.beq]
  | .num _, .boolean _ => by simp [Json.beq]
  | .num _, .null => by simp [Json.beq]
  | .num _, .arr _ => by simp [Json.beq]
  | .num _, .obj _ => by simp [Json.beq]
  | .boolean _, .str _ => by simp [Json.beq]
  | .boolean _, .num _ => by simp [Json.beq]
  | .boolean _, .null => by simp [Json.beq]
  | .boolean _, .arr _ => by simp [Json.beq]
  | .boolean _, .obj _ => by simp [Json.beq]
  | .null, .str _ => by simp [Json.beq]
  | .null, .num _ => by simp [Json.beq]
  | .null, .boolean _ => by simp [Json.beq]
  | .null, .arr _ => by simp [Json.beq]
  | .null, .obj _ => by simp [Json.beq]
  | .arr _, .str _ => by simp [Json.beq]
  | .arr _, .num _ => by simp [Json.beq]
  | .arr _, .boolean _ => by simp [Json.beq]
  | .arr _, .null => by simp [Json.beq]
  | .arr _, .obj _ => by simp [Json.beq]
  | .obj _, .str _ => by simp [Json.beq]
  | .obj _, .num _ => by simp [Json.beq]
  | .obj _, .boolean _ => by simp [Json.beq]
  | .obj _, .null => by simp [Json.beq]
  | .obj _, .arr _ => by simp [Json.beq]

theorem Json.beqList_iff : ∀ xs ys : List Json, Json.beqList xs ys = true ↔ xs = ys
  | [], [] => by simp [Json.beqList]
  | [], _ :: _ => by simp [Json.beqList]
  | _ :: _, [] => by simp [Json.beqList]
  | x :: xs, y :: ys => by
      simp [Json.beqList, Json.beq_iff x y, Json.beqList_iff xs ys]

theorem Json.beqFields_iff :
    ∀ fs gs : List (String × Json), Json.beqFields fs gs = true ↔ fs = gs
  | [], [] => by simp [Json.beqFields]
  | [], _ :: _ => by simp [Json.beqFields]
  | _ :: _, [] => by simp [Json.beqFields]
  | (k, v) :: fs, (l, w) :: gs => by
      simp [Json.beqFields, Json.beq_iff v w, Json.beqFields_iff fs gs, and_assoc]

end

instance : DecidableEq Json := fun a b =>
  decidable_of_iff (Json.beq a b = true) (Json.beq_iff a b)

/-- Decimal digit character, `digitChar d` for `d < 10`. -/
def digitChar (d : Nat) : Char := Char.ofNat (48 + d)

/-- Fuel-driven decimal rendering of a natural number (most significant digit
first).  The fuel argument only makes the recursion structural; `indexToken`
always supplies enough fuel. -/
def natCharsGo : Nat → Nat → List Char
  | 0, _ => []
  | fuel + 1, n => if n < 10 then [digitChar n] else natCharsGo fuel (n / 10) ++ [digitChar (n % 10)]

/-- Model of JS `index.toString()` for array indices: canonical decimal form. -/
def indexToken (n : Nat) : String := ⟨natCharsGo (n + 1) n⟩

/-- Value of a digit list read in base 10 (inverse of `natCharsGo`). -/
def charsVal (l : List Char) : Nat :=
  l.foldl (fun acc c => acc * 10 + (c.toNat - 48)) 0

/-- Model of JS `path.join('.')`. -/
def joinPath (path : List String) : String := String.intercalate "." path

/-- Model of a JS `Map<string, string>`: insertion-ordered association list. -/
abbrev JsMap := List (String × String)

/-- Model of JS `Map.prototype.get` (first, and only, binding of the key). -/
def mapGet (m : JsMap) (k : String) : Option String :=
  (m.find? (fun p => p.1 = k)).map (fun p => p.2)

/-- Model of JS `Map.prototype.set`: update an existing key in place,
otherwise append the new binding. -/
def mapSet (m : JsMap) (k v : String) : JsMap :=
  if m.any (fun p => p.1 = k) then
    m.map (fun p => if p.1 = k then (k, v) else p)
  else
    m ++ [(k, v)]

end TranslateJson

namespace TranslateJson

/-- A `(path, value)` pair produced by `JsonProcessor.extractStrings`. -/
structure Occ where
  path : List String
  value : String
deriving DecidableEq, Repr

mutual

/-- Model of `JsonProcessor.extractStrings` (src/utils/jsonProcessor.ts,
lines 14-32): depth-first extraction of the string leaves accepted by the
classifier `st`, with their paths.  `extractList`/`extractFields` model the
`forEach` loops over arrays and `Object.entries`. -/
def extractStrings (st : String → Bool) : Json → List String → List Occ
  | .str s, path => if st s then [⟨path, s⟩] else []
  | .num _, _ => []
  | .boolean _, _ => []
  | .null, _ => []
  | .arr items, path => extractList st items 0 path
  | .obj fields, path => extractFields st fields path

/-- Array part of `extractStrings`: `obj.forEach((item, index) => ...)`. -/
def extractList (st : String → Bool) : List Json → Nat → List String → List Occ
  | [], _, _ => []
  | x :: xs, i, path => extractStrings st x (path ++ [indexToken i]) ++ extractList st xs (i + 1) path

/-- Object part of `extractStrings`: `Object.entries(obj).forEach(...)`. -/
def extractFields (st : String → Bool) : List (String × Json) → List String → List Occ
  | [], _ => []
  | (k, v) :: fs, path => extractStrings st v (path ++ [k]) ++ extractFields st fs path

end

mutual

/-- Model of the inner `applyToValue` of `JsonProcessor.applyTranslations`
(src/utils/jsonProcessor.ts, lines 100-122).  A string leaf is looked up by
its dot-joined path; JS `translations.get(pathKey) || obj` keeps the original
value both when the path is absent and when the mapped text is the empty
string (a falsy value). -/
def applyToValue (m : JsMap) : Json → List String → Json
  | .str s, path =>
      match mapGet m (joinPath path) with
      | some t => if t = "" then .str s else .str t
      | none => .str s
  | .arr items, path => .arr (applyToList m items 0 path)
  | .obj fields, path => .obj (applyToFields m fields path)
  | .num n, _ => .num n
  | .boolean b, _ => .boolean b
  | .null, _ => .null

/-- Array part of `applyToValue`: `obj.map((item, index) => ...)`. -/
def applyToList (m : JsMap) : List Json → Nat → List String → List Json
  | [], _, _ => []
  | x :: xs, i, path => applyToValue m x (path ++ [indexToken i]) :: applyToList m xs (i + 1) path

/-- Object part of `applyToValue`: rebuild each entry via `newObj[key] = v`.
A JS assignment to the key `"__proto__"` on a plain object invokes the
inherited `Object.prototype` accessor instead of creating an own property
(it reassigns the prototype for an object value and is ignored for a
primitive), so such a field never appears in the rebuilt object. -/
def applyToFields (m : JsMap) : List (String × Json) → List String → List (String × Json)
  | [], _ => []
  | (k, v) :: fs, path =>
      (if k = "__proto__" then [] else [(k, applyToValue m v (path ++ [k]))]) ++
        applyToFields m fs path

end

/-- Model of `JsonProcessor.applyTranslations`: deep copy (the identity in
this pure embedding) followed by `applyToValue` from the empty path. -/
def applyTranslations (originalObj : Json) (translations : JsMap) : Json :=
  applyToValue translations originalObj []

/-- A unique string produced by `JsonProcessor.deduplicateStrings`:
representative path, value, and the indices of all of its occurrences. -/
structure UniqueString where
  path : List String
  value : String
  originalIndices : List Nat
deriving DecidableEq, Repr

/-- One step of the grouping loop of `deduplicateStrings`: push index `i`
onto the bucket of value `v`, creating the bucket at the end on first
sight (JS `Map` insertion order). -/
def addOcc (vm : List (String × List Nat)) (v : String) (i : Nat) : List (String × List Nat) :=
  if vm.any (fun p => p.1 = v) then
    vm.map (fun p => if p.1 = v then (p.1, p.2 ++ [i]) else p)
  else
    vm ++ [(v, [i])]

/-- The `strings.forEach((item, index) => ...)` grouping loop of
`deduplicateStrings`, with `i` the index of the next occurrence. -/
def buildValueMapFrom : List Occ → Nat → List (String × List Nat) → List (String × List Nat)
  | [], _, vm => vm
  | o :: rest, i, vm => buildValueMapFrom rest (i + 1) (addOcc vm o.value i)

/-- The `valueMap` of `deduplicateStrings`, grouping occurrence indices by
string value in first-occurrence order. -/
def buildValueMap (strings : List Occ) : List (String × List Nat) :=
  buildValueMapFrom strings 0 []

/-- Model of `JsonProcessor.deduplicateStrings` (src/utils/jsonProcessor.ts,
lines 224-253): group occurrences by exact value equality; the representative
path is `strings[indices[0]].path`. -/
def deduplicateStrings (strings : List Occ) : List UniqueString :=
  (buildValueMap strings).map (fun p =>
    { path := ((strings.get? (p.2.headD 0)).map Occ.path).getD []
      value := p.1
      originalIndices := p.2 })

/-- First own property named `k` of an object's field list (JS `obj[key]`). -/
def jsGetField (fs : List (String × Json)) (k : String) : Option Json :=
  (fs.find? (fun p => p.1 = k)).map (fun p => p.2)

/-- Recover `i` from its canonical decimal form: `parseIdx t = some i` iff
`t = indexToken i`.  This is how a path token addresses a JS array slot. -/
def parseIdx (t : String) : Option Nat :=
  if indexToken (charsVal t.data) = t then some (charsVal t.data) else none

mutual

/-- The `(path, translatedValue)` pairs passed to `setValueAtPath` by
`JsonProcessor.createPatch` (src/utils/jsonProcessor.ts, lines 255-278), in
call order.  The recursion follows the source's branches on the translated
value: a leaf is emitted only when both sides are strings and differ; array
pairs recurse on indices also present in the original; `typeof x ===
'object'` pairs (arrays included, as in JS) recurse on the translated keys
that name an own property of the original.  Prototype-chain hits of the JS
`in` operator are not modelled: they can never reach the string/string
emitting branch, so they contribute no entries. -/
def createPatchEntries (orig : Json) : Json → List String → List (List String × String)
  | .str b, path =>
      match orig with
      | .str a => if a = b then [] else [(path, b)]
      | _ => []
  | .arr ts, path =>
      match orig with
      | .arr os => patchArrArr os ts 0 path
      | .obj ofs => patchObjArr ofs ts 0 path
      | _ => []
  | .obj tfs, path =>
      match orig with
      | .arr os => patchArrObj os tfs path
      | .obj ofs => patchObjObj ofs tfs path
      | _ => []
  | .num _, _ => []
  | .boolean _, _ => []
  | .null, _ => []
  termination_by structural t => t

/-- Both sides arrays: `trans.forEach((item, index) => if (index < orig.length) ...)`. -/
def patchArrArr (os : List Json) : List Json → Nat → List String → List (List String × String)
  | [], _, _ => []
  | t :: ts, i, path =>
      (match os.get? i with
       | some o => createPatchEntries o t (path ++ [indexToken i])
       | none => []) ++ patchArrArr os ts (i + 1) path
  termination_by structural ts => ts

/-- Original object, translated array: `Object.keys` of a JS array are its
index strings; `key in orig` keeps the keys owned by the original object. -/
def patchObjArr (ofs : List (String × Json)) : List Json → Nat → List String → List (List String × String)
  | [], _, _ => []
  | t :: ts, i, path =>
      (match jsGetField ofs (indexToken i) with
       | some o => createPatchEntries o t (path ++ [indexToken i])
       | none => []) ++ patchObjArr ofs ts (i + 1) path
  termination_by structural ts => ts

/-- Original array, translated object: a translated key addresses the
original array when it is a canonical index within bounds. -/
def patchArrObj (os : List Json) : List (String × Json) → List String → List (List String × String)
  | [], _ => []
  | (k, tv) :: tfs, path =>
      (match parseIdx k with
       | some i =>
         match os.get? i with
         | some o => createPatchEntries o tv (path ++ [k])
         | none => []
       | none => []) ++ patchArrObj os tfs path
  termination_by structural tfs => tfs

/-- Both sides objects: `Object.keys(trans).forEach(key => if (key in orig) ...)`. -/
def patchObjObj (ofs : List (String × Json)) : List (String × Json) → List String → List (List String × String)
  | [], _ => []
  | (k, tv) :: tfs, path =>
      (match jsGetField ofs k with
       | some o => createPatchEntries o tv (path ++ [k])
       | none => []) ++ patchObjObj ofs tfs path
  termination_by structural tfs => tfs

end

/-- The own property names of `Object.prototype`: the keys the JS `in`
operator finds on every plain object through the prototype chain.  The last,
`__proto__`, is the one inherited accessor that also hijacks assignment. -/
def protoKeys : List String :=
  ["constructor", "hasOwnProperty", "isPrototypeOf", "propertyIsEnumerable",
   "toLocaleString", "toString", "valueOf", "__defineGetter__", "__defineSetter__",
   "__lookupGetter__", "__lookupSetter__", "__proto__"]

/-- Whether a key names an `Object.prototype` property. -/
def protoKey (k : String) : Bool := protoKeys.any (fun s => s = k)

/-- Whether a key is `"__proto__"`, the one key a plain JS assignment cannot
create as an own property. -/
def protoName (k : String) : Bool := k = "__proto__"

mutual

/-- No object key anywhere in the tree satisfies `bad`.  Instantiated with
`protoName` (for the `newObj[key] = v` rebuild of `applyTranslations`) and
with `protoKey` (for the `key in current` walk of `setValueAtPath`). -/
def keysOk (bad : String → Bool) : Json → Bool
  | .str _ => true
  | .num _ => true
  | .boolean _ => true
  | .null => true
  | .arr xs => keysOkList bad xs
  | .obj fs => keysOkFields bad fs

def keysOkList (bad : String → Bool) : List Json → Bool
  | [] => true
  | x :: xs => keysOk bad x && keysOkList bad xs

def keysOkFields (bad : String → Bool) : List (String × Json) → Bool
  | [] => true
  | (k, v) :: fs => !(bad k) && keysOk bad v && keysOkFields bad fs

end

/-- JS object property write `obj[k] = v` on a plain object: update an
existing own key in place, otherwise create the own property — except for
`"__proto__"`, whose inherited `Object.prototype` accessor swallows the
assignment (it reassigns the prototype for object values and is ignored for
primitives), so no own property appears. -/
def setField (fs : List (String × Json)) (k : String) (v : Json) : List (String × Json) :=
  if fs.any (fun p => p.1 = k) then
    fs.map (fun p => if p.1 = k then (k, v) else p)
  else if k = "__proto__" then
    fs
  else
    fs ++ [(k, v)]

/-- Model of `JsonProcessor.setValueAtPath` (src/utils/jsonProcessor.ts,
lines 280-292): walk the path, creating an empty object for a key the JS
`in` operator does not find, then assign the value at the last key.  `in`
consults the prototype chain, so a missing interior key that names an
`Object.prototype` property skips the `current[key] = {}` creation and the
walk descends into the inherited builtin: every later write lands on that
builtin and never reaches the patch object, which is left unchanged.  (The
side effects such lost writes leave on the shared builtins are not
modelled; under the reconstruction theorem below no lost write occurs.)  An
empty path makes the JS source assign `current[undefined]`, i.e. the
literal key `"undefined"`.  Descending into a non-object leaves it
unchanged (the JS write would be lost; `createPatch` never produces such a
path). -/
def setValueAtPath : Json → List String → Json → Json
  | z, [], v =>
      match z with
      | .obj fs => .obj (setField fs "undefined" v)
      | _ => z
  | z, [k], v =>
      match z with
      | .obj fs => .obj (setField fs k v)
      | _ => z
  | z, k :: rest, v =>
      match z with
      | .obj fs =>
        match jsGetField fs k with
        | some cur => .obj (setField fs k (setValueAtPath cur rest v))
        | none =>
          if protoKey k then .obj fs
          else .obj (setField fs k (setValueAtPath (.obj []) rest v))
      | _ => z

/-- Model of `JsonProcessor.createPatch`: fold the emitted entries into an
initially empty patch object via `setValueAtPath`, in call order. -/
def createPatch (original translated : Json) : Json :=
  (createPatchEntries original translated []).foldl
    (fun z e => setValueAtPath z e.1 (.str e.2)) (.obj [])

/-- Structural navigation to the node addressed by a path: a token selects an
array slot when it is a canonical decimal index, an object field by name. -/
def getAtPath : List String → Json → Option Json
  | [], v => some v
  | t :: ps, .arr xs =>
      match parseIdx t with
      | some i =>
        match xs.get? i with
        | some x => getAtPath ps x
        | none => none
      | none => none
  | t :: ps, .obj fs =>
      match jsGetField fs t with
      | some v => getAtPath ps v
      | none => none
  | _ :: _, .str _ => none
  | _ :: _, .num _ => none
  | _ :: _, .boolean _ => none
  | _ :: _, .null => none

mutual

/-- `stringRefine o t` holds when `t` has exactly the structure of `o` with
every non-string leaf equal and a string wherever `o` has a string: `t` is
`o` with some string leaves rewritten.  This is the shape in which the
translated tree relates to the original. -/
def stringRefine : Json → Json → Bool
  | .str _, .str _ => true
  | .num a, .num b => a = b
  | .boolean a, .boolean b => a = b
  | .null, .null => true
  | .arr xs, .arr ys => stringRefineList xs ys
  | .obj fs, .obj gs => stringRefineFields fs gs
  | _, _ => false

def stringRefineList : List Json → List Json → Bool
  | [], [] => true
  | x :: xs, y :: ys => stringRefine x y && stringRefineList xs ys
  | _, _ => false

def stringRefineFields : List (String × Json) → List (String × Json) → Bool
  | [], [] => true
  | (k, v) :: fs, (l, w) :: gs => k = l && stringRefine v w && stringRefineFields fs gs
  | _, _ => false

end

mutual

/-- Applying a patch as overrides onto a tree, following the claim's words:
every leaf path present in the patch overwrites the corresponding node of
the original; all other nodes are left unchanged.  Patch interior nodes are
objects (as built by `setValueAtPath`) whose keys name object fields or,
on an array, canonical decimal indices. -/
def overlay : Json → Json → Json
  | orig, .obj pfs =>
      match orig with
      | .obj ofs => .obj (overlayFields ofs pfs)
      | .arr xs => .arr (overlayItems xs 0 pfs)
      | o => o
  | _, .str s => .str s
  | _, .num n => .num n
  | _, .boolean b => .boolean b
  | _, .null => .null
  | _, .arr ps => .arr ps

def overlayFields : List (String × Json) → List (String × Json) → List (String × Json)
  | [], _ => []
  | (k, v) :: rest, pfs =>
      (k, match jsGetField pfs k with
          | some p => overlay v p
          | none => v) :: overlayFields rest pfs

def overlayItems : List Json → Nat → List (String × Json) → List Json
  | [], _, _ => []
  | x :: xs, i, pfs =>
      (match jsGetField pfs (indexToken i) with
       | some p => overlay x p
       | none => x) :: overlayItems xs (i + 1) pfs

end

mutual

/-- Model of lodash `isEqual` on JSON values: arrays compare pointwise,
objects compare as key-indexed maps (same size, each key of the left found
in the right with a deep-equal value), irrespective of key order. -/
def deepEqual : Json → Json → Bool
  | .str a, .str b => a = b
  | .num a, .num b => a = b
  | .boolean a, .boolean b => a = b
  | .null, .null => true
  | .arr xs, .arr ys => deepEqualList xs ys
  | .obj fs, .obj gs => fs.length = gs.length && deepEqualFields fs gs
  | _, _ => false

def deepEqualList : List Json → List Json → Bool
  | [], [] => true
  | x :: xs, y :: ys => deepEqual x y && deepEqualList xs ys
  | _, _ => false

def deepEqualFields : List (String × Json) → List (String × Json) → Bool
  | [], _ => true
  | (k, v) :: fs, gs =>
      (match jsGetField gs k with
       | some w => deepEqual v w
       | none => false) && deepEqualFields fs gs

end

/-! ## The orchestrator (`TranslationService`, src/unnamed/part_001)

Jobs, batches and sessions as in `@/types/translation`.  Fields that no
claim touches and that a pure embedding cannot carry faithfully are omitted:
`id` (a fresh UUID), the `timestamp`/`startTime`/`endTime` wall-clock fields,
the floating-point `progress` percentage, and the log list.  The cache, rate
limiter and translation backend are abstracted into an oracle giving the
outcome of each processing attempt. -/

inductive JobStatus where
  | pending
  | translating
  | completed
  | error
  | skipped
deriving DecidableEq, Repr

/-- Model of `TranslationJob`. -/
structure Job where
  originalText : String
  sourceLanguage : String
  targetLanguage : String
  status : JobStatus
  translatedText : Option String := none
  errorMessage : Option String := none
  retryCount : Nat := 0
deriving DecidableEq, Repr

inductive BatchStatus where
  | pending
  | processing
  | completed
  | error
deriving DecidableEq, Repr

/-- Model of `TranslationBatch`. -/
structure Batch where
  jobs : List Job
  status : BatchStatus
deriving DecidableEq, Repr

inductive SessionStatus where
  | idle
  | processing
  | completed
  | paused
  | error
deriving DecidableEq, Repr

/-- Model of `TranslationSession`. -/
structure Session where
  sourceLanguage : String
  targetLanguage : String
  originalJson : Json
  translatedJson : Option Json := none
  batches : List Batch
  totalStrings : Nat
  translatedStrings : Nat
  skippedStrings : Nat
  errorStrings : Nat
  status : SessionStatus
deriving DecidableEq

/-- Model of `TranslationConfig` (pattern lists kept for completeness). -/
structure TranslationConfig where
  sourceLanguage : String
  targetLanguage : String
  batchSize : Nat
  maxRetries : Nat
  skipPatterns : List String := []
  preservePatterns : List String := []
  autoDetectSource : Bool := false

/-- JS truthiness of `job.translatedText`: `undefined` and `""` are falsy. -/
def jsTruthyText : Option String → Bool
  | none => false
  | some s => !(s = "")

/-- Chunking loop of `TranslationService.createBatches`:
`for (let i = 0; i < strings.length; i += batchSize)`.  The fuel argument
makes the recursion structural; `createBatches` supplies the list length,
which suffices for any positive `batchSize` (the configuration contract;
a zero `batchSize` would loop forever in the JS source). -/
def chunkListGo (bs : Nat) : Nat → List UniqueString → List (List UniqueString)
  | 0, _ => []
  | _, [] => []
  | fuel + 1, l => l.take bs :: chunkListGo bs fuel (l.drop bs)

/-- Model of `TranslationService.createBatches`: partition the unique strings
into chunks of `batchSize`, one pending job per unique string. -/
def createBatches (sourceLanguage targetLanguage : String) (uniques : List UniqueString)
    (batchSize : Nat) : List Batch :=
  (chunkListGo batchSize uniques.length uniques).map (fun chunk =>
    { jobs := chunk.map (fun u =>
        { originalText := u.value
          sourceLanguage := sourceLanguage
          targetLanguage := targetLanguage
          status := .pending
          retryCount := 0 })
      status := .pending })

/-- Errors thrown by `TranslationService.startTranslation` before any
session state is created. -/
inductive StartError where
  | alreadyRunning
  | noTranslatableContent
deriving DecidableEq, Repr

/-- Model of the synchronous set-up of `TranslationService.startTranslation`
(src/unnamed/part_001, lines 31-77): reject when already processing, extract,
reject when nothing is translatable, otherwise deduplicate, build the session
and its batches and mark it processing.  An error result carries no session:
nothing is created on the failure paths, matching the source where both
`throw`s happen before the session object is built. -/
def startTranslation (isProcessing : Bool) (st : String → Bool) (jsonData : Json)
    (config : TranslationConfig) : Except StartError Session :=
  if isProcessing then
    .error .alreadyRunning
  else
    let strings := extractStrings st jsonData []
    if strings.length = 0 then
      .error .noTranslatableContent
    else
      let uniqueStrings := deduplicateStrings strings
      .ok
        { sourceLanguage := config.sourceLanguage
          targetLanguage := config.targetLanguage
          originalJson := jsonData
          batches := createBatches config.sourceLanguage config.targetLanguage
            uniqueStrings config.batchSize
          totalStrings := strings.length
          translatedStrings := 0
          skippedStrings := 0
          errorStrings := 0
          status := .processing }

/-- Outcome of one processing attempt of a job, abstracting the cache
lookup, language detection and backend call of `processJob`: the cache hits,
or the backend answers, or anything in the `try` block throws. -/
inductive AttemptOutcome where
  | cacheHit (translated : String)
  | translated (translated : String)
  | failure (message : String)
deriving DecidableEq, Repr

/-- Model of `TranslationService.processJob` (src/unnamed/part_001, lines
234-300).  `oracle n` is the outcome of the `n`-th attempt; on failure the
retry count is incremented and, while it stays within `maxRetries`, the job
waits `2^retryCount` seconds (the returned list records each backoff delay
in milliseconds, `Math.pow(2, retryCount) * 1000`) and re-attempts from the
cache lookup; once the retry count exceeds `maxRetries` the job becomes
`error` with the captured message.  The fuel argument only makes the
self-recursion structural; `processJob` supplies enough for the whole retry
budget. -/
def processJobGo (oracle : Nat → AttemptOutcome) (maxRetries : Nat) :
    Nat → Nat → Job → Job × List Nat
  | 0, _, job => (job, [])
  | fuel + 1, attempt, job =>
    let job := { job with status := JobStatus.translating }
    match oracle attempt with
    | .cacheHit t => ({ job with translatedText := some t, status := .completed }, [])
    | .translated t => ({ job with translatedText := some t, status := .completed }, [])
    | .failure msg =>
        let rc := job.retryCount + 1
        if rc ≤ maxRetries then
          let r := processJobGo oracle maxRetries fuel (attempt + 1)
            { job with retryCount := rc }
          (r.1, 2 ^ rc * 1000 :: r.2)
        else
          ({ job with retryCount := rc, status := .error, errorMessage := some msg }, [])

/-- `processJob` with enough fuel for its retry budget. -/
def processJob (oracle : Nat → AttemptOutcome) (maxRetries attempt : Nat) (job : Job) :
    Job × List Nat :=
  processJobGo oracle maxRetries (maxRetries + 1 - job.retryCount + 1) attempt job

/-- Model of `TranslationService.processBatch` (src/unnamed/part_001, lines
209-232) with no pause pending: snapshot the jobs whose status is `pending`
or `error`, run each through the job processor `pj` (the environment-driven
effect of `processJob`, abstracted), leave every other job untouched, and
mark the batch completed.  The second component is the trace of jobs handed
to the processor; the backend can only be invoked from inside `processJob`,
i.e. on traced jobs. -/
def processBatch (pj : Job → Job) (b : Batch) : Batch × List Job :=
  ({ b with
      jobs := b.jobs.map (fun j =>
        if j.status = JobStatus.pending ∨ j.status = JobStatus.error then pj j else j)
      status := .completed },
   b.jobs.filter (fun j => j.status = JobStatus.pending ∨ j.status = JobStatus.error))

/-- Model of the batch loop of `TranslationService.processBatches`
(src/unnamed/part_001, lines 189-207) with no pause pending: iterate the
batches in order, skipping — unchanged — every batch already `completed`
(the resume path), processing the others.  The second component is the trace
of all jobs handed to the job processor.  The finalization call that follows
the loop in the source is modelled separately by `generateFinalResult`. -/
def processBatches (pj : Job → Job) : List Batch → List Batch × List Job
  | [] => ([], [])
  | b :: rest =>
      if b.status = BatchStatus.completed then
        let r := processBatches pj rest
        (b :: r.1, r.2)
      else
        let pb := processBatch pj b
        let r := processBatches pj rest
        (pb.1 :: r.1, pb.2 ++ r.2)

/-- Model of `TranslationService.generateFinalResult` (src/unnamed/part_001,
lines 302-338): re-extract and re-deduplicate the original tree, then walk
all jobs in batch order keeping a cursor `uniqueIndex` into the unique
strings; for a job that is `completed` with a truthy `translatedText`, write
that text at the dot-joined path of every occurrence of
`uniqueStrings[uniqueIndex]`, and — exactly as in the source, where the
increment sits inside the `completed` branch — advance the cursor only then.
Finally apply the accumulated map to the original tree. -/
def generateFinalResult (st : String → Bool) (originalJson : Json) (batches : List Batch) :
    Json :=
  let allStrings := extractStrings st originalJson []
  let uniqueStrings := deduplicateStrings allStrings
  let step := fun (acc : JsMap × Nat) (job : Job) =>
    if job.status = JobStatus.completed ∧ jsTruthyText job.translatedText = true then
      match uniqueStrings.get? acc.2 with
      | some u =>
          (u.originalIndices.foldl (fun m oi =>
              match allStrings.get? oi with
              | some occ => mapSet m (joinPath occ.path) (job.translatedText.getD "")
              | none => m) acc.1,
           acc.2 + 1)
      | none => (acc.1, acc.2 + 1)
    else acc
  let m := (batches.foldl (fun acc b => b.jobs.foldl step acc) (([] : JsMap), 0)).1
  applyTranslations originalJson m

/-! ## The cache key (`CacheService.getCacheKey`, src/services/cacheService.ts)

`btoa(encodeURIComponent(text + "-" + source + "-" + target))`, with both
browser primitives modelled byte-exactly: `encodeURIComponent` keeps the
unreserved characters and percent-escapes the UTF-8 bytes of everything
else; `btoa` base64-encodes the code points of its (latin1) input. -/

/-- The characters `encodeURIComponent` leaves unescaped, as byte values:
letters, digits, and `- _ . ! ~ * ' ( )`. -/
def unreservedByte (b : Nat) : Bool :=
  (65 ≤ b && b ≤ 90) || (97 ≤ b && b ≤ 122) || (48 ≤ b && b ≤ 57) ||
  b = 45 || b = 95 || b = 46 || b = 33 || b = 126 || b = 42 || b = 39 || b = 40 || b = 41

/-- UTF-8 bytes of one character. -/
def utf8Char (c : Char) : List Nat :=
  let n := c.toNat
  if n < 128 then [n]
  else if n < 2048 then [192 + n / 64, 128 + n % 64]
  else if n < 65536 then [224 + n / 4096, 128 + n / 64 % 64, 128 + n % 64]
  else [240 + n / 262144, 128 + n / 4096 % 64, 128 + n / 64 % 64, 128 + n % 64]

/-- UTF-8 bytes of a character list. -/
def utf8Encode : List Char → List Nat
  | [] => []
  | c :: cs => utf8Char c ++ utf8Encode cs

/-- Uppercase hexadecimal digit, as produced by `encodeURIComponent`. -/
def hexDigitChar (d : Nat) : Char :=
  if d < 10 then Char.ofNat (48 + d) else Char.ofNat (55 + d)

/-- Percent-escape a byte sequence, keeping unreserved bytes. -/
def percentEncode : List Nat → List Char
  | [] => []
  | b :: bs =>
      (if unreservedByte b then [Char.ofNat b] else ['%', hexDigitChar (b / 16), hexDigitChar (b % 16)]) ++
      percentEncode bs

/-- Model of the browser `encodeURIComponent`. -/
def encodeURIComponent (s : String) : String :=
  ⟨percentEncode (utf8Encode s.data)⟩

/-- The base64 alphabet. -/
def b64Char (n : Nat) : Char :=
  "ABCDEFGHIJKLMNOPQRSTUVWXYZabcdefghijklmnopqrstuvwxyz0123456789+/".data.getD n 'A'

/-- Base64-encode a byte sequence, with `=` padding. -/
def b64Encode : List Nat → List Char
  | [] => []
  | [a] => [b64Char (a / 4), b64Char (a % 4 * 16), '=', '=']
  | [a, b] => [b64Char (a / 4), b64Char (a % 4 * 16 + b / 16), b64Char (b % 16 * 4), '=']
  | a :: b :: c :: rest =>
      b64Char (a / 4) :: b64Char (a % 4 * 16 + b / 16) :: b64Char (b % 16 * 4 + c / 64) ::
      b64Char (c % 64) :: b64Encode rest

/-- Model of the browser `btoa` on latin1 input. -/
def btoa (s : String) : String :=
  ⟨b64Encode (s.data.map Char.toNat)⟩

/-- Model of `CacheService.getCacheKey` (src/services/cacheService.ts,
lines 30-33). -/
def getCacheKey (text sourceLanguage targetLanguage : String) : String :=
  btoa (encodeURIComponent (text ++ "-" ++ sourceLanguage ++ "-" ++ targetLanguage))

/-! ## Claim C7: `startTranslation` failure modes -/

/-- C7.  `startTranslation` fails with `AlreadyRunning` exactly when a
session is active, and with `NoTranslatableContent` exactly when no session
is active but extraction yields zero translatable strings.  Both checks
precede the construction of the session, its batches and its jobs, so an
error result carries no session state and is surfaced directly to the
caller. -/
theorem startTranslation_failure_modes (isProcessing : Bool) (st : String → Bool)
    (jsonData : Json) (config : TranslationConfig) :
    (startTranslation isProcessing st jsonData config = .error .alreadyRunning ↔
      isProcessing = true) ∧
    (startTranslation isProcessing st jsonData config = .error .noTranslatableContent ↔
      (isProcessing = false ∧ extractStrings st jsonData [] = [])) := by
  unfold startTranslation
  cases isProcessing <;>
    [skip; simp]
  by_cases he : extractStrings st jsonData [] = [] <;>
    simp [he, List.length_eq_zero]

/-! ## Claim C1: `generateFinalResult` misassigns translations after a
failed job

In the source, the cursor `uniqueIndex` pairing jobs with unique strings is
incremented only inside the `status === 'completed'` branch, while jobs were
created one per unique string in discovery order.  As soon as one job ends
in `error` (or `skipped`), every later completed job is paired with the
unique string of an earlier job, and its translation is written to the
occurrence paths of that different unique string. -/

/-- C1 (failing input).  Tree `a: "Hello one", b: "Hello two"`; the job
for `"Hello one"` ended in `error` after exhausting its retries, the job for
`"Hello two"` completed with `"Bonjour"`.  The code writes `"Bonjour"` to
path `a` — the occurrence of `"Hello one"`, a different unique string — and
leaves `b` untranslated, instead of producing `a: "Hello one", b: "Bonjour"`
as the specification requires.  (The classifier is instantiated with a
function accepting both strings, as the repository's `shouldTranslate` does.) -/
theorem generateFinalResult_misassigns_after_error :
    generateFinalResult (fun _ => true)
        (.obj [("a", .str "Hello one"), ("b", .str "Hello two")])
        [{ jobs :=
            [{ originalText := "Hello one", sourceLanguage := "en", targetLanguage := "fr",
               status := .error, errorMessage := some "boom", retryCount := 4 },
             { originalText := "Hello two", sourceLanguage := "en", targetLanguage := "fr",
               status := .completed, translatedText := some "Bonjour" }]
           status := .completed }] =
      Json.obj [("a", .str "Bonjour"), ("b", .str "Hello two")] ∧
    Json.obj [("a", Json.str "Bonjour"), ("b", Json.str "Hello two")] ≠
      Json.obj [("a", .str "Hello one"), ("b", .str "Bonjour")] := by
  exact ⟨by decide, by decide⟩

/-! ## Claim C9: resuming never reprocesses completed work -/

/-- C9.  The batch loop leaves every batch already `completed` untouched at
its position, and the trace of jobs handed to the job processor — the only
place from which the backend translate call can be issued — contains only
jobs whose status was `pending` or `error`; in particular no job already
`completed` is ever handed to it again.  This is exactly the resume path:
`resumeTranslation` re-enters this loop on the existing batches. -/
theorem processBatches_resume_skips_completed (pj : Job → Job) (batches : List Batch) :
    (processBatches pj batches).1.length = batches.length ∧
    (∀ j ∈ (processBatches pj batches).2,
      j.status = JobStatus.pending ∨ j.status = JobStatus.error) ∧
    (∀ j ∈ (processBatches pj batches).2, j.status ≠ JobStatus.completed) ∧
    (∀ i b, batches.get? i = some b → b.status = BatchStatus.completed →
      (processBatches pj batches).1.get? i = some b) := by
  have htrace : ∀ bs, ∀ j ∈ (processBatches pj bs).2,
      j.status = JobStatus.pending ∨ j.status = JobStatus.error := by
    intro bs
    induction bs with
    | nil => simp [processBatches]
    | cons b rest ih =>
      intro j hj
      by_cases hb : b.status = BatchStatus.completed
      · simp only [processBatches, if_pos hb] at hj
        exact ih j hj
      · simp only [processBatches, if_neg hb, processBatch, List.mem_append] at hj
        rcases hj with h | h
        · simpa using (List.mem_filter.mp h).2
        · exact ih j h
  refine ⟨?_, htrace batches, ?_, ?_⟩
  · induction batches with
    | nil => rfl
    | cons b rest ih =>
      by_cases hb : b.status = BatchStatus.completed <;>
        simp [processBatches, hb, ih]
  · intro j hj
    rcases htrace batches j hj with h | h <;> simp [h]
  · induction batches with
    | nil => intro i bb hget; simp at hget
    | cons b rest ih =>
      intro i bb hget hc
      match i with
      | 0 =>
        simp only [List.get?] at hget
        cases hget
        simp [processBatches, hc]
      | Nat.succ n =>
        simp only [List.get?] at hget
        by_cases hb : b.status = BatchStatus.completed <;>
          simpa [processBatches, hb] using ih n bb hget hc

/-- Witness for C9: a batch already completed (its job translated) followed
by a pending batch; the completed batch comes out of the loop untouched. -/
theorem processBatches_resume_skips_completed_witness :
    (processBatches id
        [{ jobs := [{ originalText := "Hi there", sourceLanguage := "en", targetLanguage := "fr", status := JobStatus.completed, translatedText := some "Salut" }], status := BatchStatus.completed },
         { jobs := [{ originalText := "Bye now", sourceLanguage := "en", targetLanguage := "fr", status := JobStatus.pending }], status := BatchStatus.pending }]).1.get? 0 =
      some { jobs := [{ originalText := "Hi there", sourceLanguage := "en", targetLanguage := "fr", status := JobStatus.completed, translatedText := some "Salut" }], status := BatchStatus.completed } := by
  have h := processBatches_resume_skips_completed id
    [{ jobs := [{ originalText := "Hi there", sourceLanguage := "en", targetLanguage := "fr", status := JobStatus.completed, translatedText := some "Salut" }], status := BatchStatus.completed },
     { jobs := [{ originalText := "Bye now", sourceLanguage := "en", targetLanguage := "fr", status := JobStatus.pending }], status := BatchStatus.pending }]
  exact h.2.2.2 0 _ rfl rfl

/-! ## Claim C8: `deduplicateStrings` is an exact, stable partition -/

/-- Invariant of the grouping loop of `deduplicateStrings` after the first
`i` occurrences have been processed: bucket keys are distinct, every bucket
holds exactly the indices below `i` carrying its value (hence is nonempty),
and every processed value owns a bucket. -/
def DedupInv (strings : List Occ) (i : Nat) (vm : List (String × List Nat)) : Prop :=
  (vm.map Prod.fst).Nodup ∧
  (∀ p ∈ vm,
    p.2 = (List.range i).filter (fun j => (strings.get? j).map Occ.value = some p.1) ∧
    p.2 ≠ []) ∧
  (∀ j, j < i → ∀ o, strings.get? j = some o → o.value ∈ vm.map Prod.fst)

theorem addOcc_inv (strings : List Occ) (i : Nat) (vm : List (String × List Nat)) (o : Occ)
    (hget : strings.get? i = some o) (hinv : DedupInv strings i vm) :
    DedupInv strings (i + 1) (addOcc vm o.value i) := by
  obtain ⟨hnd, hbuck, hcov⟩ := hinv
  have hpredT : (decide ((strings.get? i).map Occ.value = some o.value)) = true := by
    rw [hget]
    simp
  have hpredF : ∀ w : String, w ≠ o.value →
      (decide ((strings.get? i).map Occ.value = some w)) = false := by
    intro w hw
    rw [hget]
    simp only [Option.map_some', decide_eq_false_iff_not, Option.some.injEq]
    exact fun h => hw (h.symm)
  by_cases hmem : vm.any (fun p => p.1 = o.value)
  · have hkeys : ((vm.map (fun p => if p.1 = o.value then (p.1, p.2 ++ [i]) else p)).map Prod.fst) = vm.map Prod.fst := by
      rw [List.map_map]
      apply List.map_congr_left
      intro p _
      by_cases h : p.1 = o.value <;> simp [h]
    refine ⟨?_, ?_, ?_⟩
    · simpa [addOcc, hmem, hkeys] using hnd
    · intro p hp
      obtain ⟨p1, p2⟩ := p
      simp only [addOcc, if_pos hmem, List.mem_map] at hp
      obtain ⟨q, hq, hqp⟩ := hp
      by_cases hq1 : q.1 = o.value
      · rw [if_pos hq1] at hqp
        obtain ⟨hqp1, hqp2⟩ := Prod.mk.injEq _ _ _ _ ▸ hqp
        subst hqp1
        subst hqp2
        obtain ⟨hfil, _⟩ := hbuck q hq
        refine ⟨?_, by simp⟩
        rw [List.range_succ, List.filter_append, ← hfil]
        simp only [List.filter_singleton]
        rw [hq1, hpredT]
        rfl
      · rw [if_neg hq1] at hqp
        obtain ⟨hqp1, hqp2⟩ := Prod.mk.injEq _ _ _ _ ▸ hqp
        subst hqp1
        subst hqp2
        obtain ⟨hfil, hne⟩ := hbuck q hq
        refine ⟨?_, hne⟩
        rw [List.range_succ, List.filter_append, ← hfil]
        simp only [List.filter_singleton]
        rw [hpredF q.1 hq1]
        simp
    · intro j hj o' hget'
      rw [addOcc, if_pos hmem, hkeys]
      rcases Nat.lt_succ_iff_lt_or_eq.mp hj with h | h
      · exact hcov j h o' hget'
      · subst h
        rw [hget] at hget'
        cases hget'
        rcases List.any_eq_true.mp hmem with ⟨p, hp, hp1⟩
        have hp1' : p.1 = o.value := by simpa using hp1
        rw [← hp1']
        exact List.mem_map_of_mem Prod.fst hp
  · have hall : ∀ p ∈ vm, p.1 ≠ o.value := by
      intro p hp h
      exact hmem (List.any_eq_true.mpr ⟨p, hp, by simp [h]⟩)
    refine ⟨?_, ?_, ?_⟩
    · rw [addOcc, if_neg hmem]
      simp only [List.map_append]
      rw [List.nodup_append]
      refine ⟨hnd, by simp, ?_⟩
      intro a ha hb
      simp only [List.map_cons, List.map_nil, List.mem_singleton] at hb
      subst hb
      simp only [List.mem_map] at ha
      obtain ⟨p, hp, hpa⟩ := ha
      exact hall p hp hpa
    · intro p hp
      rw [addOcc, if_neg hmem] at hp
      rcases List.mem_append.mp hp with h | h
      · obtain ⟨hfil, hne⟩ := hbuck p h
        refine ⟨?_, hne⟩
        rw [List.range_succ, List.filter_append, ← hfil]
        simp only [List.filter_singleton]
        rw [hpredF p.1 (hall p h)]
        simp
      · simp only [List.mem_singleton] at h
        subst h
        refine ⟨?_, by simp⟩
        have hzero : (List.range i).filter
            (fun j => (strings.get? j).map Occ.value = some (o.value, [i]).1) = [] := by
          apply List.filter_eq_nil.mpr
          intro j hj
          simp only [List.mem_range] at hj
          simp only [decide_eq_true_eq]
          intro hv
          rcases hv2 : strings.get? j with _ | o'
          · rw [hv2] at hv; simp at hv
          · rw [hv2] at hv
            simp only [Option.map_some', Option.some.injEq] at hv
            have hk := hcov j hj o' hv2
            simp only [List.mem_map] at hk
            obtain ⟨p, hp, hp1⟩ := hk
            exact hall p hp (by rw [hp1, hv])
        rw [List.range_succ, List.filter_append, hzero]
        simp only [List.filter_singleton, List.nil_append]
        rw [hpredT]
        rfl
    · intro j hj o' hget'
      rw [addOcc, if_neg hmem]
      simp only [List.map_append, List.mem_append]
      rcases Nat.lt_succ_iff_lt_or_eq.mp hj with h | h
      · exact Or.inl (hcov j h o' hget')
      · subst h
        rw [hget] at hget'
        cases hget'
        simp


theorem buildValueMapFrom_inv (strings : List Occ) :
    ∀ rest i vm, strings.drop i = rest → i ≤ strings.length → DedupInv strings i vm →
      DedupInv strings strings.length (buildValueMapFrom rest i vm) := by
  intro rest
  induction rest with
  | nil =>
    intro i vm hdrop hle hinv
    have hge : strings.length ≤ i := List.drop_eq_nil_iff.mp hdrop
    have : i = strings.length := Nat.le_antisymm hle hge
    subst this
    simpa [buildValueMapFrom] using hinv
  | cons o rest ih =>
    intro i vm hdrop hle hinv
    have hget : strings.get? i = some o := by
      have h0 : (strings.drop i).get? 0 = some o := by rw [hdrop]; rfl
      rw [List.get?_drop] at h0
      simpa using h0
    have hlt : i < strings.length := by
      by_contra hcon
      rw [List.get?_eq_none.mpr (by omega)] at hget
      cases hget
    have hdrop' : strings.drop (i + 1) = rest := by
      have h1 : List.drop 1 (strings.drop i) = rest := by rw [hdrop]; rfl
      rwa [List.drop_drop] at h1
    exact ih (i + 1) (addOcc vm o.value i) hdrop' hlt (addOcc_inv strings i vm o hget hinv)

theorem buildValueMap_inv (strings : List Occ) :
    DedupInv strings strings.length (buildValueMap strings) := by
  refine buildValueMapFrom_inv strings strings 0 [] rfl (Nat.zero_le _) ?_
  unfold DedupInv
  refine ⟨List.nodup_nil, ?_, ?_⟩
  · intro p hp
    simp at hp
  · intro j hj
    omega

/-- C8.  `deduplicateStrings` partitions the occurrence list exactly, by
exact (case-sensitive, unnormalized) value equality: each unique string's
index list is precisely the set of occurrence indices carrying its value (in
traversal order, hence nonempty), the values are pairwise distinct so the
index sets are pairwise disjoint, every occurrence index lands in some
unique string, and each representative path is the path of the value's first
occurrence in traversal order (no earlier index carries the value). -/
theorem deduplicateStrings_exact_partition (strings : List Occ) :
    (∀ u ∈ deduplicateStrings strings,
      u.originalIndices =
        (List.range strings.length).filter
          (fun j => (strings.get? j).map Occ.value = some u.value) ∧
      u.originalIndices ≠ []) ∧
    ((deduplicateStrings strings).map UniqueString.value).Nodup ∧
    List.Pairwise (fun u1 u2 => ∀ x ∈ u1.originalIndices, x ∉ u2.originalIndices)
      (deduplicateStrings strings) ∧
    (∀ j, j < strings.length → ∃ u ∈ deduplicateStrings strings, j ∈ u.originalIndices) ∧
    (∀ u ∈ deduplicateStrings strings, ∃ j, u.originalIndices.head? = some j ∧
      strings.get? j = some ⟨u.path, u.value⟩ ∧
      ∀ k, k < j → (strings.get? k).map Occ.value ≠ some u.value) := by
  obtain ⟨hnd, hbuck, hcov⟩ := buildValueMap_inv strings
  refine ⟨?_, ?_, ?_, ?_, ?_⟩
  · intro u hu
    simp only [deduplicateStrings, List.mem_map] at hu
    obtain ⟨p, hp, rfl⟩ := hu
    exact hbuck p hp
  · have hmm : ((deduplicateStrings strings).map UniqueString.value) =
        (buildValueMap strings).map Prod.fst := by
      simp only [deduplicateStrings, List.map_map]
      apply List.map_congr_left
      intro p _
      rfl
    rw [hmm]
    exact hnd
  · simp only [deduplicateStrings]
    rw [List.pairwise_map]
    have hpw : List.Pairwise (fun p q : String × List Nat => p.1 ≠ q.1)
        (buildValueMap strings) := List.pairwise_map.mp hnd
    refine hpw.imp_of_mem ?_
    intro p q hp hq hne x hxp hxq
    have h1 := (hbuck p hp).1
    have h2 := (hbuck q hq).1
    rw [h1] at hxp
    rw [h2] at hxq
    have e1 := (List.mem_filter.mp hxp).2
    have e2 := (List.mem_filter.mp hxq).2
    simp only [decide_eq_true_eq] at e1 e2
    rw [e1] at e2
    exact hne (by simpa using e2)
  · intro j hj
    rcases ho : strings.get? j with _ | o
    · rw [List.get?_eq_none] at ho
      omega
    · have hk := hcov j hj o ho
      simp only [List.mem_map] at hk
      obtain ⟨p, hp, hp1⟩ := hk
      refine ⟨_, List.mem_map_of_mem _ hp, ?_⟩
      show j ∈ p.2
      rw [(hbuck p hp).1]
      rw [List.mem_filter]
      refine ⟨List.mem_range.mpr hj, ?_⟩
      rw [ho]
      simp only [Option.map_some', Option.some.injEq, decide_eq_true_eq]
      exact hp1.symm
  · intro u hu
    simp only [deduplicateStrings, List.mem_map] at hu
    obtain ⟨p, hp, rfl⟩ := hu
    obtain ⟨hfil, hne⟩ := hbuck p hp
    rcases hp2 : p.2 with _ | ⟨x, t⟩
    · exact absurd hp2 hne
    · have hsort : List.Pairwise (· < ·) p.2 := by
        rw [hfil]
        exact (List.pairwise_lt_range strings.length).sublist (List.filter_sublist _)
      have hxmem : x ∈ p.2 := by rw [hp2]; exact List.mem_cons_self x t
      have hxfil := hxmem
      rw [hfil, List.mem_filter] at hxfil
      obtain ⟨hxr, hxpred⟩ := hxfil
      simp only [decide_eq_true_eq] at hxpred
      rcases hox : strings.get? x with _ | ⟨opath, oval⟩
      · rw [hox] at hxpred; cases hxpred
      · rw [hox] at hxpred
        simp only [Option.map_some', Option.some.injEq] at hxpred
        refine ⟨x, rfl, ?_, ?_⟩
        · rw [hox]
          have hpath : ((strings.get? ((x :: t).headD 0)).map Occ.path).getD [] = opath := by
            have hox2 : strings[x]? = some (⟨opath, oval⟩ : Occ) := by
              rw [← List.get?_eq_getElem?]
              exact hox
            simp [hox2]
          rw [hpath, ← hxpred]
        · intro k hk hkval
          have hkn : k < strings.length := Nat.lt_trans hk (List.mem_range.mp hxr)
          have hkmem : k ∈ p.2 := by
            rw [hfil, List.mem_filter]
            exact ⟨List.mem_range.mpr hkn, by simpa using hkval⟩
          rw [hp2] at hkmem
          rcases List.mem_cons.mp hkmem with h | h
          · omega
          · rw [hp2] at hsort
            have := (List.pairwise_cons.mp hsort).1 k h
            omega

/-- Witness for C8: in `a: "Hello", b0: "World", c: "Hello"` the occurrence
at index 2 is covered by some unique string's index set. -/
theorem deduplicateStrings_exact_partition_witness :
    ∃ u ∈ deduplicateStrings
        [⟨["a"], "Hello"⟩, ⟨["b", "0"], "World"⟩, ⟨["c"], "Hello"⟩],
      2 ∈ u.originalIndices :=
  (deduplicateStrings_exact_partition
    [⟨["a"], "Hello"⟩, ⟨["b", "0"], "World"⟩, ⟨["c"], "Hello"⟩]).2.2.2.1 2 (by decide)

/-! ## Claim C6: retry with exponential backoff, `error` only past the budget -/

/-- Behaviour of the retry loop of `processJob`, by induction on the fuel:
with the retry count within budget and enough fuel, the job ends `completed`
(within budget) or `error` with `retryCount = maxRetries + 1` and a captured
message, the retry count never decreases, and the recorded backoff delays
are exactly `2^k * 1000` for each failed attempt `k` that stayed within the
budget. -/
theorem processJobGo_spec (oracle : Nat → AttemptOutcome) (maxRetries : Nat) :
    ∀ fuel attempt job, job.retryCount ≤ maxRetries →
      maxRetries + 1 - job.retryCount < fuel →
      ((((processJobGo oracle maxRetries fuel attempt job).1.status = JobStatus.completed ∧
          (processJobGo oracle maxRetries fuel attempt job).1.retryCount ≤ maxRetries) ∨
        ((processJobGo oracle maxRetries fuel attempt job).1.status = JobStatus.error ∧
          (processJobGo oracle maxRetries fuel attempt job).1.retryCount = maxRetries + 1 ∧
          (processJobGo oracle maxRetries fuel attempt job).1.errorMessage.isSome = true)) ∧
      job.retryCount ≤ (processJobGo oracle maxRetries fuel attempt job).1.retryCount ∧
      (processJobGo oracle maxRetries fuel attempt job).2 =
        (List.range' (job.retryCount + 1)
          (min (processJobGo oracle maxRetries fuel attempt job).1.retryCount maxRetries
            - job.retryCount)).map (fun k => 2 ^ k * 1000)) := by
  intro fuel
  induction fuel with
  | zero => intro attempt job _ hf; omega
  | succ fuel ih =>
    intro attempt job hrc _
    cases h : oracle attempt with
    | cacheHit t =>
      simp [processJobGo, h, hrc]
    | translated t =>
      simp [processJobGo, h, hrc]
    | failure msg =>
      by_cases hb : job.retryCount + 1 ≤ maxRetries
      · have ihh := ih (attempt + 1) { job with status := JobStatus.translating, retryCount := job.retryCount + 1 } (by simpa using hb) (by simp; omega)
        simp only [processJobGo, h, if_pos hb]
        simp only at ihh
        refine ⟨ihh.1, by omega, ?_⟩
        have hmin : min (processJobGo oracle maxRetries fuel (attempt + 1) { job with status := JobStatus.translating, retryCount := job.retryCount + 1 }).1.retryCount maxRetries - job.retryCount = (min (processJobGo oracle maxRetries fuel (attempt + 1) { job with status := JobStatus.translating, retryCount := job.retryCount + 1 }).1.retryCount maxRetries - (job.retryCount + 1)) + 1 := by
          have := ihh.2.1
          omega
        rw [hmin, List.range'_succ]
        simp [ihh.2.2]
      · have : job.retryCount = maxRetries := by omega
        simp [processJobGo, h, if_neg hb, this]

/-- C6.  For a job entering with `retryCount = 0`: each failed attempt
increments `retryCount`; while the incremented count stays within
`maxRetries` the job waits `2^retryCount` seconds (the recorded delays, in
milliseconds, are exactly `2^k * 1000` for `k = 1, …`) and re-attempts from
the cache lookup; the job ends in terminal `error` — carrying the captured
message — if and only if its `retryCount` exceeds `maxRetries`, so it never
rests in `error` with `retryCount ≤ maxRetries`. -/
theorem processJob_retry_policy (oracle : Nat → AttemptOutcome) (maxRetries attempt : Nat)
    (job : Job) (h0 : job.retryCount = 0) :
    ((processJob oracle maxRetries attempt job).1.status = JobStatus.completed ∨
      (processJob oracle maxRetries attempt job).1.status = JobStatus.error) ∧
    ((processJob oracle maxRetries attempt job).1.status = JobStatus.error ↔
      maxRetries < (processJob oracle maxRetries attempt job).1.retryCount) ∧
    ((processJob oracle maxRetries attempt job).1.status = JobStatus.error →
      (processJob oracle maxRetries attempt job).1.retryCount = maxRetries + 1 ∧
      (processJob oracle maxRetries attempt job).1.errorMessage.isSome = true) ∧
    (processJob oracle maxRetries attempt job).2 =
      (List.range' 1 (min (processJob oracle maxRetries attempt job).1.retryCount maxRetries)).map
        (fun k => 2 ^ k * 1000) := by
  have h := processJobGo_spec oracle maxRetries (maxRetries + 1 - job.retryCount + 1) attempt job
    (by omega) (by omega)
  rcases h with ⟨hdisj, _, hdel⟩
  unfold processJob
  refine ⟨?_, ?_, ?_, ?_⟩
  · rcases hdisj with ⟨hc, _⟩ | ⟨he, _⟩
    · exact Or.inl hc
    · exact Or.inr he
  · constructor
    · intro he
      rcases hdisj with ⟨hc, _⟩ | ⟨_, hrc, _⟩
      · rw [hc] at he; cases he
      · omega
    · intro hgt
      rcases hdisj with ⟨_, hle⟩ | ⟨he, _, _⟩
      · omega
      · exact he
  · intro he
    rcases hdisj with ⟨hc, _⟩ | ⟨_, hrc, hm⟩
    · rw [hc] at he; cases he
    · exact ⟨hrc, hm⟩
  · rw [hdel, h0]
    simp

/-- Witness for C6: with a backend that always fails and `maxRetries = 2`,
the job ends in `error` after retry count 3, having backed off `2^1` and
`2^2` seconds. -/
theorem processJob_retry_policy_witness :
    (processJob (fun _ => AttemptOutcome.failure "down") 2 0
      { originalText := "Hi there", sourceLanguage := "en", targetLanguage := "fr",
        status := JobStatus.pending, retryCount := 0 }).1.status = JobStatus.error ∧
    (processJob (fun _ => AttemptOutcome.failure "down") 2 0
      { originalText := "Hi there", sourceLanguage := "en", targetLanguage := "fr",
        status := JobStatus.pending, retryCount := 0 }).1.retryCount = 3 ∧
    (processJob (fun _ => AttemptOutcome.failure "down") 2 0
      { originalText := "Hi there", sourceLanguage := "en", targetLanguage := "fr",
        status := JobStatus.pending, retryCount := 0 }).2 = [2000, 4000] := by
  have h := processJob_retry_policy (fun _ => AttemptOutcome.failure "down") 2 0
    { originalText := "Hi there", sourceLanguage := "en", targetLanguage := "fr",
      status := JobStatus.pending, retryCount := 0 } rfl
  refine ⟨h.2.1.mpr (by decide), by decide, ?_⟩
  rw [h.2.2.2]
  decide

theorem keysOkFields_cons {bad : String → Bool} {k : String} {v : Json}
    {fs : List (String × Json)} (h : keysOkFields bad ((k, v) :: fs) = true) :
    bad k = false ∧ keysOk bad v = true ∧ keysOkFields bad fs = true := by
  simp only [keysOkFields, Bool.and_eq_true, Bool.not_eq_true'] at h
  exact ⟨h.1.1, h.1.2, h.2⟩

theorem keysOkList_cons {bad : String → Bool} {x : Json} {xs : List Json}
    (h : keysOkList bad (x :: xs) = true) :
    keysOk bad x = true ∧ keysOkList bad xs = true := by
  simp only [keysOkList, Bool.and_eq_true] at h
  exact h

theorem keysOkFields_key {bad : String → Bool} :
    ∀ {fs : List (String × Json)}, keysOkFields bad fs = true →
      ∀ q ∈ fs, bad q.1 = false := by
  intro fs
  induction fs with
  | nil =>
    intro _ q hq
    simp at hq
  | cons f fs ih =>
    obtain ⟨k, v⟩ := f
    intro h q hq
    obtain ⟨h1, _, h3⟩ := keysOkFields_cons h
    rcases List.mem_cons.mp hq with he | he
    · rw [he]
      exact h1
    · exact ih h3 q he

theorem keysOkFields_val {bad : String → Bool} :
    ∀ {fs : List (String × Json)}, keysOkFields bad fs = true →
      ∀ q ∈ fs, keysOk bad q.2 = true := by
  intro fs
  induction fs with
  | nil =>
    intro _ q hq
    simp at hq
  | cons f fs ih =>
    obtain ⟨k, v⟩ := f
    intro h q hq
    obtain ⟨_, h2, h3⟩ := keysOkFields_cons h
    rcases List.mem_cons.mp hq with he | he
    · rw [he]
      exact h2
    · exact ih h3 q he

theorem keysOkList_mem {bad : String → Bool} :
    ∀ {xs : List Json}, keysOkList bad xs = true → ∀ x ∈ xs, keysOk bad x = true := by
  intro xs
  induction xs with
  | nil =>
    intro _ x hx
    simp at hx
  | cons y ys ih =>
    intro h x hx
    obtain ⟨h1, h2⟩ := keysOkList_cons h
    rcases List.mem_cons.mp hx with he | he
    · rw [he]
      exact h1
    · exact ih h2 x he

theorem protoName_false {k : String} (h : protoName k = false) : ¬(k = "__proto__") := by
  simpa [protoName] using h

theorem protoKey_false_name {k : String} (h : protoKey k = false) : ¬(k = "__proto__") := by
  intro he
  rw [he] at h
  exact absurd h (by decide)

/-- A successful `jsGetField` lookup is a binding of the list. -/
theorem jsGetField_mem {fs : List (String × Json)} {k : String} {v : Json}
    (h : jsGetField fs k = some v) : ∃ p ∈ fs, p.1 = k ∧ p.2 = v := by
  unfold jsGetField at h
  rcases hf : fs.find? (fun p => p.1 = k) with _ | p
  · rw [hf] at h
    cases h
  · rw [hf] at h
    simp only [Option.map_some', Option.some.injEq] at h
    refine ⟨p, List.mem_of_find?_eq_some hf, ?_, h⟩
    have := List.find?_some hf
    simpa using this

/-! ## Claim C5: `applyTranslations` as a frame property -/

/-- The string-leaf case of `applyToValue` always yields a string. -/
theorem stringRefine_str_aux (s : String) (o : Option String) :
    stringRefine (.str s)
      (match o with
        | some t => if t = "" then Json.str s else Json.str t
        | none => Json.str s) = true := by
  cases o with
  | none => rfl
  | some t =>
    show stringRefine (Json.str s) (if t = "" then Json.str s else Json.str t) = true
    by_cases h : t = ""
    · rw [if_pos h]
      rfl
    · rw [if_neg h]
      rfl

mutual

/-- On a tree without own `__proto__` keys, `applyToValue` preserves the
tree's structure and its non-string leaves: the result is the input with
only string leaves possibly rewritten. -/
theorem stringRefine_applyToValue (m : JsMap) :
    ∀ (v : Json) (path : List String), keysOk protoName v = true →
      stringRefine v (applyToValue m v path) = true
  | .str s, path, _ => by
      simp only [applyToValue]
      exact stringRefine_str_aux s (mapGet m (joinPath path))
  | .num n, _, _ => by simp [applyToValue, stringRefine]
  | .boolean b, _, _ => by simp [applyToValue, stringRefine]
  | .null, _, _ => by simp [applyToValue, stringRefine]
  | .arr items, path, hok => by
      simp only [applyToValue, stringRefine]
      exact stringRefine_applyToList m items 0 path (by simpa [keysOk] using hok)
  | .obj fields, path, hok => by
      simp only [applyToValue, stringRefine]
      exact stringRefine_applyToFields m fields path (by simpa [keysOk] using hok)

theorem stringRefine_applyToList (m : JsMap) :
    ∀ (items : List Json) (i : Nat) (path : List String),
      keysOkList protoName items = true →
      stringRefineList items (applyToList m items i path) = true
  | [], _, _, _ => by simp [applyToList, stringRefineList]
  | x :: xs, i, path, hok => by
      obtain ⟨h1, h2⟩ := keysOkList_cons hok
      simp only [applyToList, stringRefineList, Bool.and_eq_true]
      exact ⟨stringRefine_applyToValue m x (path ++ [indexToken i]) h1,
        stringRefine_applyToList m xs (i + 1) path h2⟩

theorem stringRefine_applyToFields (m : JsMap) :
    ∀ (fs : List (String × Json)) (path : List String),
      keysOkFields protoName fs = true →
      stringRefineFields fs (applyToFields m fs path) = true
  | [], _, _ => by simp [applyToFields, stringRefineFields]
  | (k, v) :: fs, path, hok => by
      obtain ⟨h1, h2, h3⟩ := keysOkFields_cons hok
      have hk := protoName_false h1
      simp only [applyToFields, if_neg hk, List.singleton_append]
      simp only [stringRefineFields, Bool.and_eq_true]
      exact ⟨⟨by simp, stringRefine_applyToValue m v (path ++ [k]) h2⟩,
        stringRefine_applyToFields m fs path h3⟩

end

theorem parseIdx_eq_some {t : String} {i : Nat} (h : parseIdx t = some i) :
    indexToken i = t := by
  unfold parseIdx at h
  by_cases hc : indexToken (charsVal t.data) = t
  · rw [if_pos hc] at h
    cases h
    exact hc
  · rw [if_neg hc] at h
    cases h

theorem applyToList_get? (m : JsMap) :
    ∀ (xs : List Json) (j i : Nat) (path : List String),
      (applyToList m xs j path).get? i =
        (xs.get? i).map (fun x => applyToValue m x (path ++ [indexToken (j + i)])) := by
  intro xs
  induction xs with
  | nil => intro j i path; simp [applyToList]
  | cons x xs ih =>
    intro j i path
    cases i with
    | zero => simp [applyToList]
    | succ i' =>
      simp only [applyToList, List.get?]
      rw [ih (j + 1) i' path]
      have : j + 1 + i' = j + (i' + 1) := by omega
      rw [this]

theorem applyToFields_jsGetField (m : JsMap) :
    ∀ (fs : List (String × Json)) (k : String) (path : List String),
      (∀ q ∈ fs, ¬(q.1 = "__proto__")) →
      jsGetField (applyToFields m fs path) k =
        (jsGetField fs k).map (fun v => applyToValue m v (path ++ [k])) := by
  intro fs
  induction fs with
  | nil =>
    intro k path _
    simp [applyToFields, jsGetField]
  | cons f fs ih =>
    intro k path hnp
    obtain ⟨k1, v⟩ := f
    have hk1p : ¬(k1 = "__proto__") := hnp (k1, v) (List.mem_cons_self _ _)
    have htail : ∀ q ∈ fs, ¬(q.1 = "__proto__") :=
      fun q hq => hnp q (List.mem_cons_of_mem _ hq)
    by_cases hk : k1 = k
    · subst hk
      simp [applyToFields, if_neg hk1p, jsGetField]
    · simp only [applyToFields, if_neg hk1p, List.singleton_append, jsGetField, List.find?]
      rw [show (decide (k1 = k)) = false by simp [hk]]
      exact ih k path htail

/-- Navigation commutes with `applyToValue`: the node at a string-leaf path
of the input is, in the output, the string selected by the source's
`translations.get(path.join('.')) || obj` rule. -/
theorem getAtPath_applyToValue (m : JsMap) :
    ∀ (p : List String) (v : Json) (pre : List String) (s : String),
      keysOk protoName v = true →
      getAtPath p v = some (.str s) →
      getAtPath p (applyToValue m v pre) =
        some (.str (match mapGet m (joinPath (pre ++ p)) with
          | some x => if x = "" then s else x
          | none => s)) := by
  intro p
  induction p with
  | nil =>
    intro v pre s _ h
    simp only [getAtPath] at h
    injection h with h
    subst h
    simp only [applyToValue, getAtPath, List.append_nil]
    cases hm : mapGet m (joinPath pre) with
    | none => rfl
    | some x => by_cases hx : x = "" <;> simp [hx]
  | cons tok ps ih =>
    intro v pre s hok h
    cases v with
    | str s2 => simp [getAtPath] at h
    | num n => simp [getAtPath] at h
    | boolean b => simp [getAtPath] at h
    | null => simp [getAtPath] at h
    | arr xs =>
      have hokl : keysOkList protoName xs = true := by simpa [keysOk] using hok
      simp only [getAtPath] at h
      rcases hpi : parseIdx tok with _ | i
      · rw [hpi] at h; simp at h
      · rw [hpi] at h
        simp only at h
        rcases hx : xs.get? i with _ | x
        · rw [hx] at h; simp at h
        · rw [hx] at h
          simp only at h
          simp only [applyToValue, getAtPath, hpi]
          rw [applyToList_get? m xs 0 i pre, hx]
          simp only [Option.map_some', Nat.zero_add]
          rw [show tok = indexToken i from (parseIdx_eq_some hpi).symm]
          rw [show pre ++ indexToken i :: ps = (pre ++ [indexToken i]) ++ ps from by simp]
          exact ih x (pre ++ [indexToken i]) s
            (keysOkList_mem hokl x (List.get?_mem hx)) h
    | obj fs =>
      have hokf : keysOkFields protoName fs = true := by simpa [keysOk] using hok
      have hnp : ∀ q ∈ fs, ¬(q.1 = "__proto__") :=
        fun q hq => protoName_false (keysOkFields_key hokf q hq)
      simp only [getAtPath] at h
      rcases hg : jsGetField fs tok with _ | w
      · rw [hg] at h; simp at h
      · rw [hg] at h
        simp only at h
        simp only [applyToValue, getAtPath]
        rw [applyToFields_jsGetField m fs tok pre hnp, hg]
        simp only [Option.map_some']
        rw [show pre ++ tok :: ps = (pre ++ [tok]) ++ ps from by simp]
        have hwok : keysOk protoName w = true := by
          obtain ⟨q, hq, _, hqv⟩ := jsGetField_mem hg
          rw [← hqv]
          exact keysOkFields_val hokf q hq
        exact ih w (pre ++ [tok]) s hwok h

/-- C5 (amended).  On a tree with no own `__proto__` key (a JS assignment
`newObj[key] = v` to that key hits the inherited `Object.prototype`
accessor and drops the field), `applyTranslations` returns a structurally
identical tree (in this pure embedding the input itself is untouched by
construction, as the source deep-copies before rewriting): non-string
leaves and all structure are preserved (`stringRefine`), and the string
leaf at each path `p` carries the text the map assigns to the dot-joined
path — except that, as in the source's `translations.get(pathKey) || obj`,
a mapped empty string is treated like an absent path and the leaf keeps
its original value. -/
theorem applyTranslations_frame (t : Json) (m : JsMap)
    (hok : keysOk protoName t = true) :
    stringRefine t (applyTranslations t m) = true ∧
    (∀ p s, getAtPath p t = some (.str s) →
      getAtPath p (applyTranslations t m) =
        some (.str (match mapGet m (joinPath p) with
          | some x => if x = "" then s else x
          | none => s))) := by
  constructor
  · exact stringRefine_applyToValue m t [] hok
  · intro p s h
    have hh := getAtPath_applyToValue m p t [] s hok h
    simpa using hh

/-- Witness for C5: mapping path `a` to `"Bonjour"` rewrites exactly that
leaf. -/
theorem applyTranslations_frame_witness :
    getAtPath ["a"]
      (applyTranslations (.obj [("a", .str "Hello one"), ("b", .str "Bye now")])
        [("a", "Bonjour")]) = some (.str "Bonjour") := by
  have h := (applyTranslations_frame
    (.obj [("a", .str "Hello one"), ("b", .str "Bye now")]) [("a", "Bonjour")]
    (by decide)).2
    ["a"] "Hello one" (by decide)
  rw [h]
  decide

/-- C5 (counterexample to the claim as stated).  The path `a` is present in
the map, bound to the empty string, yet the returned leaf does not carry the
mapped text: `translations.get(pathKey) || obj` treats the falsy `""` as a
miss and keeps `"Hello one"`. -/
theorem applyTranslations_empty_string_counterexample :
    applyTranslations (.obj [("a", .str "Hello one")]) [("a", "")] =
      .obj [("a", .str "Hello one")] ∧
    Json.obj [("a", Json.str "Hello one")] ≠ Json.obj [("a", Json.str "")] :=
  ⟨by decide, by decide⟩

/-! ## Claim C2: extract-then-apply with the identity map -/

/-- The identity map of the claim: each extracted occurrence's dot-joined
path bound — by successive `Map.set` calls in occurrence order — to its own
original value. -/
def identityMap (occs : List Occ) : JsMap :=
  occs.foldl (fun m o => mapSet m (joinPath o.path) o.value) []

/-- `mapSet` with a binding drawn from `occs` keeps every binding of the map
drawn from `occs`. -/
theorem mapSet_from (occs : List Occ) (m : JsMap) (o : Occ)
    (hm : ∀ q ∈ m, ∃ o2 ∈ occs, joinPath o2.path = q.1 ∧ o2.value = q.2)
    (ho : o ∈ occs) :
    ∀ q ∈ mapSet m (joinPath o.path) o.value,
      ∃ o2 ∈ occs, joinPath o2.path = q.1 ∧ o2.value = q.2 := by
  intro q hq
  unfold mapSet at hq
  by_cases ha : m.any (fun p => p.1 = joinPath o.path)
  · rw [if_pos ha] at hq
    simp only [List.mem_map] at hq
    obtain ⟨p, hp, hpq⟩ := hq
    by_cases hp1 : p.1 = joinPath o.path
    · rw [if_pos hp1] at hpq
      subst hpq
      exact ⟨o, ho, rfl, rfl⟩
    · rw [if_neg hp1] at hpq
      subst hpq
      exact hm p hp
  · rw [if_neg ha] at hq
    rcases List.mem_append.mp hq with h | h
    · exact hm q h
    · simp only [List.mem_singleton] at h
      subst h
      exact ⟨o, ho, rfl, rfl⟩

theorem identityMapAux_from (occs0 : List Occ) :
    ∀ (occs : List Occ) (m : JsMap),
      (∀ o ∈ occs, o ∈ occs0) →
      (∀ q ∈ m, ∃ o2 ∈ occs0, joinPath o2.path = q.1 ∧ o2.value = q.2) →
      ∀ q ∈ occs.foldl (fun acc o => mapSet acc (joinPath o.path) o.value) m,
        ∃ o2 ∈ occs0, joinPath o2.path = q.1 ∧ o2.value = q.2 := by
  intro occs
  induction occs with
  | nil => intro m _ hm q hq; exact hm q hq
  | cons o occs ih =>
    intro m hsub hm q hq
    simp only [List.foldl_cons] at hq
    exact ih (mapSet m (joinPath o.path) o.value)
      (fun o2 ho2 => hsub o2 (List.mem_cons_of_mem _ ho2))
      (mapSet_from occs0 m o hm (hsub o (List.mem_cons_self _ _))) q hq

/-- Every successful lookup in the identity map returns the value of some
occurrence whose dot-joined path is the looked-up key. -/
theorem identityMap_lookup (occs : List Occ) (k x : String)
    (h : mapGet (identityMap occs) k = some x) :
    ∃ o ∈ occs, joinPath o.path = k ∧ o.value = x := by
  unfold mapGet at h
  rcases hf : (identityMap occs).find? (fun p => p.1 = k) with _ | q
  · rw [hf] at h; cases h
  · rw [hf] at h
    simp only [Option.map_some'] at h
    have hqmem := List.mem_of_find?_eq_some hf
    have hqpred := List.find?_some hf
    simp only [decide_eq_true_eq] at hqpred
    obtain ⟨o, ho, h1, h2⟩ := identityMapAux_from occs occs []
      (fun o ho => ho) (by intro q hq; simp at hq) q hqmem
    injection h with h
    exact ⟨o, ho, by rw [h1, hqpred], by rw [h2, h]⟩

mutual

/-- Extraction under a classifier `st` is the filter, by `st` on the value,
of the extraction that takes every string leaf. -/
theorem extractStrings_filter (st : String → Bool) :
    ∀ (v : Json) (path : List String),
      extractStrings st v path =
        (extractStrings (fun _ => true) v path).filter (fun o => st o.value)
  | .str s, path => by
      simp only [extractStrings]
      by_cases h : st s <;> simp [h]
  | .num _, _ => rfl
  | .boolean _, _ => rfl
  | .null, _ => rfl
  | .arr items, path => by
      simp only [extractStrings]
      exact extractList_filter st items 0 path
  | .obj fields, path => by
      simp only [extractStrings]
      exact extractFields_filter st fields path

theorem extractList_filter (st : String → Bool) :
    ∀ (items : List Json) (i : Nat) (path : List String),
      extractList st items i path =
        (extractList (fun _ => true) items i path).filter (fun o => st o.value)
  | [], _, _ => rfl
  | x :: xs, i, path => by
      simp only [extractList, List.filter_append]
      rw [extractStrings_filter st x (path ++ [indexToken i]),
        extractList_filter st xs (i + 1) path]

theorem extractFields_filter (st : String → Bool) :
    ∀ (fs : List (String × Json)) (path : List String),
      extractFields st fs path =
        (extractFields (fun _ => true) fs path).filter (fun o => st o.value)
  | [], _ => rfl
  | (k, v) :: fs, path => by
      simp only [extractFields, List.filter_append]
      rw [extractStrings_filter st v (path ++ [k]),
        extractFields_filter st fs path]

end

mutual

/-- If the tree has no own `__proto__` keys and every lookup the map can
answer at a string-leaf path of `v` returns either that leaf's own value or
the empty string, `applyToValue` is the identity on `v`. -/
theorem applyToValue_id (m : JsMap) :
    ∀ (v : Json) (path : List String), keysOk protoName v = true →
      (∀ o ∈ extractStrings (fun _ => true) v path, ∀ x,
        mapGet m (joinPath o.path) = some x → x = o.value ∨ x = "") →
      applyToValue m v path = v
  | .str s, path, _ => by
      intro hc
      have hmem : (⟨path, s⟩ : Occ) ∈ extractStrings (fun _ => true) (.str s) path := by
        simp [extractStrings]
      simp only [applyToValue]
      cases hm : mapGet m (joinPath path) with
      | none => rfl
      | some x =>
        show (if x = "" then Json.str s else Json.str x) = Json.str s
        rcases hc ⟨path, s⟩ hmem x hm with h | h
        · rw [h]
          by_cases hse : s = ""
          · rw [if_pos hse]
          · rw [if_neg hse]
        · rw [h]
          rw [if_pos rfl]
  | .num _, _, _ => fun _ => rfl
  | .boolean _, _, _ => fun _ => rfl
  | .null, _, _ => fun _ => rfl
  | .arr items, path, hok => by
      intro hc
      simp only [applyToValue]
      exact congrArg Json.arr (applyToList_id m items 0 path
        (by simpa [keysOk] using hok)
        (fun o ho => hc o (by simpa [extractStrings] using ho)))
  | .obj fields, path, hok => by
      intro hc
      simp only [applyToValue]
      exact congrArg Json.obj (applyToFields_id m fields path
        (by simpa [keysOk] using hok)
        (fun o ho => hc o (by simpa [extractStrings] using ho)))

theorem applyToList_id (m : JsMap) :
    ∀ (items : List Json) (i : Nat) (path : List String),
      keysOkList protoName items = true →
      (∀ o ∈ extractList (fun _ => true) items i path, ∀ x,
        mapGet m (joinPath o.path) = some x → x = o.value ∨ x = "") →
      applyToList m items i path = items
  | [], _, _, _ => fun _ => rfl
  | x :: xs, i, path, hok => by
      intro hc
      obtain ⟨h1, h2⟩ := keysOkList_cons hok
      simp only [applyToList]
      rw [applyToValue_id m x (path ++ [indexToken i]) h1
          (fun o ho => hc o (by simp only [extractList, List.mem_append]; exact Or.inl ho)),
        applyToList_id m xs (i + 1) path h2
          (fun o ho => hc o (by simp only [extractList, List.mem_append]; exact Or.inr ho))]

theorem applyToFields_id (m : JsMap) :
    ∀ (fs : List (String × Json)) (path : List String),
      keysOkFields protoName fs = true →
      (∀ o ∈ extractFields (fun _ => true) fs path, ∀ x,
        mapGet m (joinPath o.path) = some x → x = o.value ∨ x = "") →
      applyToFields m fs path = fs
  | [], _, _ => fun _ => rfl
  | (k, v) :: fs, path, hok => by
      intro hc
      obtain ⟨h1, h2, h3⟩ := keysOkFields_cons hok
      have hk := protoName_false h1
      simp only [applyToFields, if_neg hk, List.singleton_append]
      rw [applyToValue_id m v (path ++ [k]) h2
          (fun o ho => hc o (by simp only [extractFields, List.mem_append]; exact Or.inl ho)),
        applyToFields_id m fs path h3
          (fun o ho => hc o (by simp only [extractFields, List.mem_append]; exact Or.inr ho))]

end

/-- C2 (amended).  For every tree whose string leaves have pairwise-distinct
dot-joined paths (in particular any tree without a `.` inside an object
key) and no own `__proto__` key, extraction — under any classifier —
followed by `applyTranslations` with the identity map returns the input
tree itself (hence a deep-equal tree).  The distinctness hypothesis is what
the counterexample forces: the identity map is keyed by `path.join('.')`,
which can collide.  The `__proto__` exclusion reflects the rebuild's JS
assignment `newObj[key] = v`, which for that key hits the inherited
`Object.prototype` accessor and drops the field. -/
theorem extract_applyTranslations_roundtrip (st : String → Bool) (t : Json)
    (hok : keysOk protoName t = true)
    (hnd : ((extractStrings (fun _ => true) t []).map (fun o => joinPath o.path)).Nodup) :
    applyTranslations t (identityMap (extractStrings st t [])) = t := by
  apply applyToValue_id _ _ _ hok
  intro o ho x hget
  obtain ⟨o2, ho2, hk, hv⟩ := identityMap_lookup (extractStrings st t []) (joinPath o.path) x hget
  have ho2T : o2 ∈ extractStrings (fun _ => true) t [] := by
    rw [extractStrings_filter st t []] at ho2
    exact (List.mem_filter.mp ho2).1
  have heq : o2 = o :=
    List.inj_on_of_nodup_map hnd ho2T ho hk
  left
  rw [← hv, heq]

/-- Witness for C2 (amended): a tree with a repeated value and dot-free
keys round-trips to itself. -/
theorem extract_applyTranslations_roundtrip_witness :
    applyTranslations (.obj [("a", .str "Hello one"), ("b", .arr [.str "Hello one"])])
      (identityMap (extractStrings (fun _ => true)
        (.obj [("a", .str "Hello one"), ("b", .arr [.str "Hello one"])]) [])) =
      .obj [("a", .str "Hello one"), ("b", .arr [.str "Hello one"])] :=
  extract_applyTranslations_roundtrip (fun _ => true)
    (.obj [("a", .str "Hello one"), ("b", .arr [.str "Hello one"])]) (by decide) (by decide)

/-- C2 (counterexample to the claim as stated).  The key `"a.b"` and the
nested path `a → b` join to the same string `"a.b"`, so the second
`Map.set` of the identity map overwrites the first and the round trip
rewrites the `"a.b"` leaf to `"Hello two"`.  The repository's classifier
accepts both strings, so the instantiated classifier agrees with it on this
tree; the result is not deep-equal to the input (`deepEqual` models lodash
`isEqual`). -/
theorem extract_applyTranslations_roundtrip_counterexample :
    applyTranslations
        (.obj [("a.b", .str "Hello one"), ("a", .obj [("b", .str "Hello two")])])
        (identityMap (extractStrings (fun _ => true)
          (.obj [("a.b", .str "Hello one"), ("a", .obj [("b", .str "Hello two")])]) [])) =
      Json.obj [("a.b", .str "Hello two"), ("a", .obj [("b", .str "Hello two")])] ∧
    deepEqual
      (applyTranslations
        (.obj [("a.b", .str "Hello one"), ("a", .obj [("b", .str "Hello two")])])
        (identityMap (extractStrings (fun _ => true)
          (.obj [("a.b", .str "Hello one"), ("a", .obj [("b", .str "Hello two")])]) [])))
      (.obj [("a.b", .str "Hello one"), ("a", .obj [("b", .str "Hello two")])]) = false :=
  ⟨by decide, by decide⟩

/-! ## Decimal index tokens: round trip and injectivity -/

theorem natCharsGo_fuel_irrelevant :
    ∀ fuel fuel' n, n < fuel → n < fuel' → natCharsGo fuel n = natCharsGo fuel' n := by
  intro fuel
  induction fuel with
  | zero => intro fuel' n h; omega
  | succ f ih =>
    intro fuel' n h h'
    cases fuel' with
    | zero => omega
    | succ f' =>
      simp only [natCharsGo]
      by_cases h10 : n < 10
      · rw [if_pos h10, if_pos h10]
      · rw [if_neg h10, if_neg h10]
        have hdiv : n / 10 < f := by omega
        have hdiv' : n / 10 < f' := by omega
        rw [ih f' (n / 10) hdiv hdiv']

theorem digitChar_toNat : ∀ d, d < 10 → (digitChar d).toNat = 48 + d := by decide

theorem charsVal_append_digit (l : List Char) (c : Char) :
    charsVal (l ++ [c]) = charsVal l * 10 + (c.toNat - 48) := by
  simp [charsVal, List.foldl_append]

theorem charsVal_natCharsGo : ∀ n, charsVal (natCharsGo (n + 1) n) = n := by
  intro n
  induction n using Nat.strong_induction_on with
  | _ n ih =>
    simp only [natCharsGo]
    by_cases h10 : n < 10
    · rw [if_pos h10]
      simp [charsVal, digitChar_toNat n h10]
    · rw [if_neg h10]
      rw [charsVal_append_digit]
      have hlt : n / 10 < n := Nat.div_lt_self (by omega) (by omega)
      rw [natCharsGo_fuel_irrelevant n (n / 10 + 1) (n / 10) hlt (Nat.lt_succ_self _)]
      rw [ih (n / 10) hlt]
      rw [digitChar_toNat (n % 10) (Nat.mod_lt n (by omega))]
      omega

/-- `parseIdx` inverts `indexToken`: the canonical decimal form of `n`
addresses exactly array slot `n`. -/
theorem parseIdx_indexToken (n : Nat) : parseIdx (indexToken n) = some n := by
  unfold parseIdx
  have hval : charsVal (indexToken n).data = n := charsVal_natCharsGo n
  rw [hval, if_pos rfl]

theorem indexToken_injective {a b : Nat} (h : indexToken a = indexToken b) : a = b := by
  have ha := charsVal_natCharsGo a
  have hb := charsVal_natCharsGo b
  have : (indexToken a).data = (indexToken b).data := by rw [h]
  calc a = charsVal (indexToken a).data := ha.symm
    _ = charsVal (indexToken b).data := by rw [this]
    _ = b := hb

/-! ## Claim C10: the patch emits only differing string/string leaves -/

/-- Boolean key-distinctness of an object's field list. -/
def keysNodup (fs : List (String × Json)) : Bool :=
  decide ((fs.map Prod.fst).Nodup)

mutual

/-- Well-formedness of a tree as the image of a real JS value: every object
along the tree has distinct keys (a JS object cannot carry duplicates). -/
def wfJson : Json → Bool
  | .str _ => true
  | .num _ => true
  | .boolean _ => true
  | .null => true
  | .arr xs => wfList xs
  | .obj fs => keysNodup fs && wfFields fs

def wfList : List Json → Bool
  | [] => true
  | x :: xs => wfJson x && wfList xs

def wfFields : List (String × Json) → Bool
  | [] => true
  | (_, v) :: fs => wfJson v && wfFields fs

end

theorem wfList_get? {ts : List Json} (h : wfList ts = true) :
    ∀ {j t}, ts.get? j = some t → wfJson t = true := by
  induction ts with
  | nil => intro j t hj; simp at hj
  | cons x xs ih =>
    intro j t hj
    simp only [wfList, Bool.and_eq_true] at h
    cases j with
    | zero =>
      simp only [List.get?] at hj
      cases hj
      exact h.1
    | succ j' =>
      simp only [List.get?] at hj
      exact ih h.2 hj

theorem wfFields_mem {tfs : List (String × Json)} (h : wfFields tfs = true) :
    ∀ {k v}, (k, v) ∈ tfs → wfJson v = true := by
  induction tfs with
  | nil => intro k v hm; simp at hm
  | cons f fs ih =>
    intro k v hm
    obtain ⟨k1, v1⟩ := f
    simp only [wfFields, Bool.and_eq_true] at h
    rcases List.mem_cons.mp hm with hh | hh
    · cases hh
      exact h.1
    · exact ih h.2 hh

/-- With distinct keys, membership determines the `jsGetField` lookup. -/
theorem jsGetField_of_mem {tfs : List (String × Json)} {k : String} {v : Json}
    (hnd : keysNodup tfs = true) (hm : (k, v) ∈ tfs) : jsGetField tfs k = some v := by
  induction tfs with
  | nil => simp at hm
  | cons f fs ih =>
    obtain ⟨k1, v1⟩ := f
    simp only [keysNodup, List.map_cons, decide_eq_true_eq, List.nodup_cons] at hnd
    rcases List.mem_cons.mp hm with hh | hh
    · cases hh
      simp [jsGetField]
    · by_cases hk : k1 = k
      · subst hk
        exact absurd (List.mem_map_of_mem Prod.fst hh) hnd.1
      · simp only [jsGetField, List.find?]
        rw [show (decide (k1 = k)) = false by simp [hk]]
        exact ih (by simp [keysNodup, hnd.2]) hh

/-- What qualifies an emitted patch entry, relative to the pair of subtrees
it was emitted from: a path where both sides hold strings that differ, the
entry carrying the translated one. -/
def EmitOk (orig trans : Json) (path : List String) (e : List String × String) : Prop :=
  ∃ q a b, e.1 = path ++ q ∧ e.2 = b ∧
    getAtPath q orig = some (.str a) ∧ getAtPath q trans = some (.str b) ∧ a ≠ b

theorem getAtPath_arr_cons {os : List Json} {j : Nat} {o w : Json} {q : List String}
    (hj : os.get? j = some o) (hq : getAtPath q o = some w) :
    getAtPath (indexToken j :: q) (.arr os) = some w := by
  simp only [getAtPath, parseIdx_indexToken, hj]
  exact hq

theorem getAtPath_arr_cons' {os : List Json} {k : String} {j : Nat} {o w : Json}
    {q : List String} (hp : parseIdx k = some j) (hj : os.get? j = some o)
    (hq : getAtPath q o = some w) :
    getAtPath (k :: q) (.arr os) = some w := by
  simp only [getAtPath, hp, hj]
  exact hq

theorem getAtPath_obj_cons {fs : List (String × Json)} {k : String} {o w : Json}
    {q : List String} (hk : jsGetField fs k = some o) (hq : getAtPath q o = some w) :
    getAtPath (k :: q) (.obj fs) = some w := by
  simp only [getAtPath, hk]
  exact hq

mutual

/-- Every entry emitted by `createPatchEntries` sits at a path where the
original and translated trees both hold strings that differ, and carries the
translated string.  The translated tree is assumed well-formed (distinct
object keys), as every real JS value is. -/
theorem createPatchEntries_spec :
    ∀ (trans orig : Json) (path : List String) (e : List String × String),
      wfJson trans = true → e ∈ createPatchEntries orig trans path →
      EmitOk orig trans path e
  | .str b, orig, path, e => by
      intro hwf he
      cases orig with
      | str a =>
        simp only [createPatchEntries] at he
        by_cases hab : a = b
        · rw [if_pos hab] at he
          simp at he
        · rw [if_neg hab] at he
          simp only [List.mem_singleton] at he
          subst he
          exact ⟨[], a, b, by simp, rfl, rfl, rfl, hab⟩
      | num n => simp [createPatchEntries] at he
      | boolean c => simp [createPatchEntries] at he
      | null => simp [createPatchEntries] at he
      | arr os => simp [createPatchEntries] at he
      | obj ofs => simp [createPatchEntries] at he
  | .arr ts, orig, path, e => by
      intro hwf he
      have hwfts : wfList ts = true := by simpa [wfJson] using hwf
      cases orig with
      | arr os =>
        simp only [createPatchEntries] at he
        obtain ⟨j, o, t, hos, hts, q, a, b, he1, he2, hgo, hgt, hab⟩ :=
          patchArrArr_spec ts os 0 path e hwfts he
        rw [Nat.zero_add] at hos he1
        refine ⟨indexToken j :: q, a, b, by rw [he1, List.append_assoc]; rfl, he2, ?_, ?_, hab⟩
        · exact getAtPath_arr_cons hos hgo
        · exact getAtPath_arr_cons hts hgt
      | obj ofs =>
        simp only [createPatchEntries] at he
        obtain ⟨j, o, t, hko, hts, q, a, b, he1, he2, hgo, hgt, hab⟩ :=
          patchObjArr_spec ts ofs 0 path e hwfts he
        rw [Nat.zero_add] at hko he1
        refine ⟨indexToken j :: q, a, b, by rw [he1, List.append_assoc]; rfl, he2, ?_, ?_, hab⟩
        · exact getAtPath_obj_cons hko hgo
        · exact getAtPath_arr_cons hts hgt
      | str a => simp [createPatchEntries] at he
      | num n => simp [createPatchEntries] at he
      | boolean c => simp [createPatchEntries] at he
      | null => simp [createPatchEntries] at he
  | .obj tfs, orig, path, e => by
      intro hwf he
      have hnd : keysNodup tfs = true := by
        simp only [wfJson, Bool.and_eq_true] at hwf
        exact hwf.1
      have hwff : wfFields tfs = true := by
        simp only [wfJson, Bool.and_eq_true] at hwf
        exact hwf.2
      cases orig with
      | arr os =>
        simp only [createPatchEntries] at he
        obtain ⟨k, tv, idx, o, hmem, hparse, hos, q, a, b, he1, he2, hgo, hgt, hab⟩ :=
          patchArrObj_spec tfs os path e hwff he
        refine ⟨k :: q, a, b, by rw [he1, List.append_assoc]; rfl, he2, ?_, ?_, hab⟩
        · exact getAtPath_arr_cons' hparse hos hgo
        · exact getAtPath_obj_cons (jsGetField_of_mem hnd hmem) hgt
      | obj ofs =>
        simp only [createPatchEntries] at he
        obtain ⟨k, tv, o, hmem, hko, q, a, b, he1, he2, hgo, hgt, hab⟩ :=
          patchObjObj_spec tfs ofs path e hwff he
        refine ⟨k :: q, a, b, by rw [he1, List.append_assoc]; rfl, he2, ?_, ?_, hab⟩
        · exact getAtPath_obj_cons hko hgo
        · exact getAtPath_obj_cons (jsGetField_of_mem hnd hmem) hgt
      | str a => simp [createPatchEntries] at he
      | num n => simp [createPatchEntries] at he
      | boolean c => simp [createPatchEntries] at he
      | null => simp [createPatchEntries] at he
  | .num _, orig, path, e => by
      intro _ he
      simp [createPatchEntries] at he
  | .boolean _, orig, path, e => by
      intro _ he
      simp [createPatchEntries] at he
  | .null, orig, path, e => by
      intro _ he
      simp [createPatchEntries] at he

theorem patchArrArr_spec :
    ∀ (ts os : List Json) (i : Nat) (path : List String) (e : List String × String),
      wfList ts = true → e ∈ patchArrArr os ts i path →
      ∃ j o t, os.get? (i + j) = some o ∧ ts.get? j = some t ∧
        EmitOk o t (path ++ [indexToken (i + j)]) e
  | [], os, i, path, e => by
      intro _ he
      simp [patchArrArr] at he
  | t :: ts, os, i, path, e => by
      intro hwf he
      simp only [wfList, Bool.and_eq_true] at hwf
      simp only [patchArrArr, List.mem_append] at he
      rcases he with h | h
      · rcases hos : os.get? i with _ | o
        · rw [hos] at h
          simp at h
        · rw [hos] at h
          refine ⟨0, o, t, ?_, rfl, ?_⟩
          · rw [Nat.add_zero]
            exact hos
          · rw [Nat.add_zero]
            exact createPatchEntries_spec t o (path ++ [indexToken i]) e hwf.1 h
      · obtain ⟨j, o, t2, hos, hts, hE⟩ := patchArrArr_spec ts os (i + 1) path e hwf.2 h
        refine ⟨j + 1, o, t2, ?_, hts, ?_⟩
        · rw [show i + (j + 1) = i + 1 + j from by omega]
          exact hos
        · rw [show i + (j + 1) = i + 1 + j from by omega]
          exact hE

theorem patchObjArr_spec :
    ∀ (ts : List Json) (ofs : List (String × Json)) (i : Nat) (path : List String)
      (e : List String × String),
      wfList ts = true → e ∈ patchObjArr ofs ts i path →
      ∃ j o t, jsGetField ofs (indexToken (i + j)) = some o ∧ ts.get? j = some t ∧
        EmitOk o t (path ++ [indexToken (i + j)]) e
  | [], ofs, i, path, e => by
      intro _ he
      simp [patchObjArr] at he
  | t :: ts, ofs, i, path, e => by
      intro hwf he
      simp only [wfList, Bool.and_eq_true] at hwf
      simp only [patchObjArr, List.mem_append] at he
      rcases he with h | h
      · rcases hko : jsGetField ofs (indexToken i) with _ | o
        · rw [hko] at h
          simp at h
        · rw [hko] at h
          refine ⟨0, o, t, ?_, rfl, ?_⟩
          · rw [Nat.add_zero]
            exact hko
          · rw [Nat.add_zero]
            exact createPatchEntries_spec t o (path ++ [indexToken i]) e hwf.1 h
      · obtain ⟨j, o, t2, hko, hts, hE⟩ := patchObjArr_spec ts ofs (i + 1) path e hwf.2 h
        refine ⟨j + 1, o, t2, ?_, hts, ?_⟩
        · rw [show i + (j + 1) = i + 1 + j from by omega]
          exact hko
        · rw [show i + (j + 1) = i + 1 + j from by omega]
          exact hE

theorem patchArrObj_spec :
    ∀ (tfs : List (String × Json)) (os : List Json) (path : List String)
      (e : List String × String),
      wfFields tfs = true → e ∈ patchArrObj os tfs path →
      ∃ k tv idx o, (k, tv) ∈ tfs ∧ parseIdx k = some idx ∧ os.get? idx = some o ∧
        EmitOk o tv (path ++ [k]) e
  | [], os, path, e => by
      intro _ he
      simp [patchArrObj] at he
  | (k, tv) :: tfs, os, path, e => by
      intro hwf he
      simp only [wfFields, Bool.and_eq_true] at hwf
      simp only [patchArrObj, List.mem_append] at he
      rcases he with h | h
      · rcases hparse : parseIdx k with _ | idx
        · rw [hparse] at h
          simp at h
        · rw [hparse] at h
          have h2 : e ∈ (match os.get? idx with
              | some o => createPatchEntries o tv (path ++ [k])
              | none => ([] : List (List String × String))) := h
          rcases hos : os.get? idx with _ | o
          · rw [hos] at h2
            simp at h2
          · rw [hos] at h2
            exact ⟨k, tv, idx, o, List.mem_cons_self _ _, hparse, hos,
              createPatchEntries_spec tv o (path ++ [k]) e hwf.1 h2⟩
      · obtain ⟨k2, tv2, idx, o, hm, hp, ho, hE⟩ := patchArrObj_spec tfs os path e hwf.2 h
        exact ⟨k2, tv2, idx, o, List.mem_cons_of_mem _ hm, hp, ho, hE⟩

theorem patchObjObj_spec :
    ∀ (tfs ofs : List (String × Json)) (path : List String) (e : List String × String),
      wfFields tfs = true → e ∈ patchObjObj ofs tfs path →
      ∃ k tv o, (k, tv) ∈ tfs ∧ jsGetField ofs k = some o ∧
        EmitOk o tv (path ++ [k]) e
  | [], ofs, path, e => by
      intro _ he
      simp [patchObjObj] at he
  | (k, tv) :: tfs, ofs, path, e => by
      intro hwf he
      simp only [wfFields, Bool.and_eq_true] at hwf
      simp only [patchObjObj, List.mem_append] at he
      rcases he with h | h
      · rcases hko : jsGetField ofs k with _ | o
        · rw [hko] at h
          simp at h
        · rw [hko] at h
          exact ⟨k, tv, o, List.mem_cons_self _ _, hko,
            createPatchEntries_spec tv o (path ++ [k]) e hwf.1 h⟩
      · obtain ⟨k2, tv2, o, hm, hko, hE⟩ := patchObjObj_spec tfs ofs path e hwf.2 h
        exact ⟨k2, tv2, o, List.mem_cons_of_mem _ hm, hko, hE⟩

end

/-- C10.  Every leaf `createPatch` emits (the `(path, value)` pairs handed
to `setValueAtPath`, of which the patch object is the fold) sits at a path
where the original and the translated tree both hold string values that
differ, and carries the translated string; value differences at non-string
leaves, or between a string and a non-string, are never emitted.  The
translated tree is assumed well-formed (distinct object keys), as every
actual JS value is. -/
theorem createPatch_entries_strings_only (original translated : Json)
    (hwf : wfJson translated = true) :
    ∀ e ∈ createPatchEntries original translated [],
      ∃ a b, getAtPath e.1 original = some (.str a) ∧
        getAtPath e.1 translated = some (.str b) ∧ a ≠ b ∧ e.2 = b := by
  intro e he
  obtain ⟨q, a, b, he1, he2, hgo, hgt, hab⟩ :=
    createPatchEntries_spec translated original [] e hwf he
  rw [he1]
  simp only [List.nil_append]
  exact ⟨a, b, hgo, hgt, hab, he2⟩

/-- Witness for C10: for `a: "Hello one", n: 1` against `a: "Bonjour",
n: 2`, the entry at path `a` is a differing string pair (and the changed
number at `n` produces no entry). -/
theorem createPatch_entries_strings_only_witness :
    ∃ a b,
      getAtPath ["a"] (Json.obj [("a", .str "Hello one"), ("n", .num 1)]) =
        some (.str a) ∧
      getAtPath ["a"] (Json.obj [("a", .str "Bonjour"), ("n", .num 2)]) =
        some (.str b) ∧
      a ≠ b ∧ ("Bonjour" : String) = b :=
  createPatch_entries_strings_only
    (Json.obj [("a", .str "Hello one"), ("n", .num 1)])
    (Json.obj [("a", .str "Bonjour"), ("n", .num 2)]) (by decide)
    (["a"], "Bonjour") (by decide)

/-! ## Claim C3: applying the patch as overrides reconstructs `translated`

The plan: under `stringRefine original translated` (and well-formedness of
`original`), the entry stream of `createPatch` coincides with a
shape-aligned diff (`diffEntries`); folding `setValueAtPath` over that
stream builds exactly the recursive patch object `patchTree`; and `overlay`
of `patchTree` onto the original rebuilds the translated tree. -/

mutual

/-- The differing-string positions of two shape-aligned trees, with the
translated values, in DFS order — the stream `createPatch` emits on aligned
input. -/
def diffEntries : Json → Json → List String → List (List String × String)
  | .str a, .str b, path => if a = b then [] else [(path, b)]
  | .arr os, .arr ts, path => diffList os ts 0 path
  | .obj ofs, .obj tfs, path => diffFields ofs tfs path
  | _, _, _ => []
  termination_by structural o => o

def diffList : List Json → List Json → Nat → List String → List (List String × String)
  | o :: os, t :: ts, i, path =>
      diffEntries o t (path ++ [indexToken i]) ++ diffList os ts (i + 1) path
  | _, _, _, _ => []
  termination_by structural os => os

def diffFields : List (String × Json) → List (String × Json) → List String →
    List (List String × String)
  | (k, v) :: ofs, (_, w) :: tfs, path =>
      diffEntries v w (path ++ [k]) ++ diffFields ofs tfs path
  | _, _, _ => []
  termination_by structural ofs => ofs

end

mutual

/-- The patch object of two shape-aligned trees, built recursively: one
field per child with a nonempty diff, keyed by the child's token. -/
def patchTree : Json → Json → Json
  | .str _, .str b => .str b
  | .arr os, .arr ts => .obj (patchItems os ts 0)
  | .obj ofs, .obj tfs => .obj (patchFields ofs tfs)
  | _, _ => .obj []
  termination_by structural o => o

def patchItems : List Json → List Json → Nat → List (String × Json)
  | o :: os, t :: ts, i =>
      (if diffEntries o t [] = [] then [] else [(indexToken i, patchTree o t)]) ++
      patchItems os ts (i + 1)
  | _, _, _ => []
  termination_by structural os => os

def patchFields : List (String × Json) → List (String × Json) → List (String × Json)
  | (k, v) :: ofs, (_, w) :: tfs =>
      (if diffEntries v w [] = [] then [] else [(k, patchTree v w)]) ++
      patchFields ofs tfs
  | _, _ => []
  termination_by structural ofs => ofs

end

mutual

/-- Diff entries relocate by prefixing the path: the diff at `path` is the
diff at the root, shifted. -/
theorem diffEntries_shift :
    ∀ (o t : Json) (path : List String),
      diffEntries o t path = (diffEntries o t []).map (fun e => (path ++ e.1, e.2))
  | .str a, .str b, path => by
      by_cases h : a = b <;> simp [diffEntries, h]
  | .str _, .num _, _ => rfl
  | .str _, .boolean _, _ => rfl
  | .str _, .null, _ => rfl
  | .str _, .arr _, _ => rfl
  | .str _, .obj _, _ => rfl
  | .num _, _, _ => rfl
  | .boolean _, _, _ => rfl
  | .null, _, _ => rfl
  | .arr os, .str _, _ => rfl
  | .arr os, .num _, _ => rfl
  | .arr os, .boolean _, _ => rfl
  | .arr os, .null, _ => rfl
  | .arr os, .arr ts, path => by
      simp only [diffEntries]
      exact diffList_shift os ts 0 path
  | .arr os, .obj _, _ => rfl
  | .obj ofs, .str _, _ => rfl
  | .obj ofs, .num _, _ => rfl
  | .obj ofs, .boolean _, _ => rfl
  | .obj ofs, .null, _ => rfl
  | .obj ofs, .arr _, _ => rfl
  | .obj ofs, .obj tfs, path => by
      simp only [diffEntries]
      exact diffFields_shift ofs tfs path

theorem diffList_shift :
    ∀ (os ts : List Json) (i : Nat) (path : List String),
      diffList os ts i path = (diffList os ts i []).map (fun e => (path ++ e.1, e.2))
  | [], _, _, _ => by simp [diffList]
  | _ :: _, [], _, _ => by simp [diffList]
  | o :: os, t :: ts, i, path => by
      simp only [diffList, List.map_append]
      rw [diffEntries_shift o t (path ++ [indexToken i]),
        diffEntries_shift o t ([] ++ [indexToken i]),
        diffList_shift os ts (i + 1) path]
      simp [List.map_map, Function.comp, List.append_assoc]
  termination_by structural os => os

theorem diffFields_shift :
    ∀ (ofs tfs : List (String × Json)) (path : List String),
      diffFields ofs tfs path = (diffFields ofs tfs []).map (fun e => (path ++ e.1, e.2))
  | [], _, _ => by simp [diffFields]
  | _ :: _, [], _ => by simp [diffFields]
  | (k, v) :: ofs, (l, w) :: tfs, path => by
      simp only [diffFields, List.map_append]
      rw [diffEntries_shift v w (path ++ [k]), diffEntries_shift v w ([] ++ [k]),
        diffFields_shift ofs tfs path]
      simp [List.map_map, Function.comp, List.append_assoc]
  termination_by structural ofs => ofs

end

mutual

/-- An empty diff between shape-aligned trees means the trees are equal. -/
theorem diffEntries_nil :
    ∀ (o t : Json), stringRefine o t = true → diffEntries o t [] = [] → o = t
  | .str a, .str b => by
      intro _ hd
      by_cases h : a = b
      · rw [h]
      · rw [diffEntries, if_neg h] at hd
        cases hd
  | .num a, .num b => by
      intro hsr _
      simp only [stringRefine, decide_eq_true_eq] at hsr
      rw [hsr]
  | .boolean a, .boolean b => by
      intro hsr _
      simp only [stringRefine, decide_eq_true_eq] at hsr
      rw [hsr]
  | .null, .null => fun _ _ => rfl
  | .arr os, .arr ts => by
      intro hsr hd
      simp only [stringRefine] at hsr
      simp only [diffEntries] at hd
      rw [diffList_nil os ts 0 hsr hd]
  | .obj ofs, .obj tfs => by
      intro hsr hd
      simp only [stringRefine] at hsr
      simp only [diffEntries] at hd
      rw [diffFields_nil ofs tfs hsr hd]
  | .str _, .num _ => by intro hsr _; simp [stringRefine] at hsr
  | .str _, .boolean _ => by intro hsr _; simp [stringRefine] at hsr
  | .str _, .null => by intro hsr _; simp [stringRefine] at hsr
  | .str _, .arr _ => by intro hsr _; simp [stringRefine] at hsr
  | .str _, .obj _ => by intro hsr _; simp [stringRefine] at hsr
  | .num _, .str _ => by intro hsr _; simp [stringRefine] at hsr
  | .num _, .boolean _ => by intro hsr _; simp [stringRefine] at hsr
  | .num _, .null => by intro hsr _; simp [stringRefine] at hsr
  | .num _, .arr _ => by intro hsr _; simp [stringRefine] at hsr
  | .num _, .obj _ => by intro hsr _; simp [stringRefine] at hsr
  | .boolean _, .str _ => by intro hsr _; simp [stringRefine] at hsr
  | .boolean _, .num _ => by intro hsr _; simp [stringRefine] at hsr
  | .boolean _, .null => by intro hsr _; simp [stringRefine] at hsr
  | .boolean _, .arr _ => by intro hsr _; simp [stringRefine] at hsr
  | .boolean _, .obj _ => by intro hsr _; simp [stringRefine] at hsr
  | .null, .str _ => by intro hsr _; simp [stringRefine] at hsr
  | .null, .num _ => by intro hsr _; simp [stringRefine] at hsr
  | .null, .boolean _ => by intro hsr _; simp [stringRefine] at hsr
  | .null, .arr _ => by intro hsr _; simp [stringRefine] at hsr
  | .null, .obj _ => by intro hsr _; simp [stringRefine] at hsr
  | .arr _, .str _ => by intro hsr _; simp [stringRefine] at hsr
  | .arr _, .num _ => by intro hsr _; simp [stringRefine] at hsr
  | .arr _, .boolean _ => by intro hsr _; simp [stringRefine] at hsr
  | .arr _, .null => by intro hsr _; simp [stringRefine] at hsr
  | .arr _, .obj _ => by intro hsr _; simp [stringRefine] at hsr
  | .obj _, .str _ => by intro hsr _; simp [stringRefine] at hsr
  | .obj _, .num _ => by intro hsr _; simp [stringRefine] at hsr
  | .obj _, .boolean _ => by intro hsr _; simp [stringRefine] at hsr
  | .obj _, .null => by intro hsr _; simp [stringRefine] at hsr
  | .obj _, .arr _ => by intro hsr _; simp [stringRefine] at hsr

theorem diffList_nil :
    ∀ (os ts : List Json) (i : Nat), stringRefineList os ts = true →
      diffList os ts i [] = [] → os = ts
  | [], [], _ => fun _ _ => rfl
  | [], _ :: _, _ => by intro hsr _; simp [stringRefineList] at hsr
  | _ :: _, [], _ => by intro hsr _; simp [stringRefineList] at hsr
  | o :: os, t :: ts, i => by
      intro hsr hd
      simp only [stringRefineList, Bool.and_eq_true] at hsr
      simp only [diffList, List.append_eq_nil] at hd
      have h1 : diffEntries o t [] = [] := by
        have h2 := hd.1
        rw [diffEntries_shift o t ([] ++ [indexToken i])] at h2
        exact List.map_eq_nil.mp h2
      rw [diffEntries_nil o t hsr.1 h1, diffList_nil os ts (i + 1) hsr.2 hd.2]
  termination_by structural os => os

theorem diffFields_nil :
    ∀ (ofs tfs : List (String × Json)), stringRefineFields ofs tfs = true →
      diffFields ofs tfs [] = [] → ofs = tfs
  | [], [] => fun _ _ => rfl
  | [], _ :: _ => by intro hsr _; simp [stringRefineFields] at hsr
  | _ :: _, [] => by intro hsr _; simp [stringRefineFields] at hsr
  | (k, v) :: ofs, (l, w) :: tfs => by
      intro hsr hd
      simp only [stringRefineFields, Bool.and_eq_true, decide_eq_true_eq] at hsr
      simp only [diffFields, List.append_eq_nil] at hd
      have h1 : diffEntries v w [] = [] := by
        have h2 := hd.1
        rw [diffEntries_shift v w ([] ++ [k])] at h2
        exact List.map_eq_nil.mp h2
      rw [hsr.1.1, diffEntries_nil v w hsr.1.2 h1, diffFields_nil ofs tfs hsr.2 hd.2]
  termination_by structural ofs => ofs

end

mutual

/-- The diff of a tree against itself is empty. -/
theorem diffEntries_self : ∀ (o : Json) (path : List String), diffEntries o o path = []
  | .str a, path => by simp [diffEntries]
  | .num _, _ => rfl
  | .boolean _, _ => rfl
  | .null, _ => rfl
  | .arr os, path => by
      simp only [diffEntries]
      exact diffList_self os 0 path
  | .obj ofs, path => by
      simp only [diffEntries]
      exact diffFields_self ofs path

theorem diffList_self : ∀ (os : List Json) (i : Nat) (path : List String),
    diffList os os i path = []
  | [], _, _ => rfl
  | o :: os, i, path => by
      simp [diffList, diffEntries_self o (path ++ [indexToken i]),
        diffList_self os (i + 1) path]
  termination_by structural os => os

theorem diffFields_self : ∀ (ofs : List (String × Json)) (path : List String),
    diffFields ofs ofs path = []
  | [], _ => rfl
  | (k, v) :: ofs, path => by
      simp [diffFields, diffEntries_self v (path ++ [k]), diffFields_self ofs path]
  termination_by structural ofs => ofs

end

theorem jsGetField_cons (a : String) (b : Json) (fs : List (String × Json)) (k' : String) :
    jsGetField ((a, b) :: fs) k' = if a = k' then some b else jsGetField fs k' := by
  unfold jsGetField
  by_cases h : a = k'
  · rw [List.find?_cons_of_pos _ (by simp [h]), if_pos h]
    rfl
  · rw [List.find?_cons_of_neg _ (by simp [h]), if_neg h]

theorem jsGetField_map_ne (fs : List (String × Json)) (k k' : String) (v : Json)
    (hne : k' ≠ k) :
    jsGetField (fs.map (fun p => if p.1 = k then (k, v) else p)) k' = jsGetField fs k' := by
  induction fs with
  | nil => rfl
  | cons a fs ih =>
    obtain ⟨a1, a2⟩ := a
    simp only [List.map_cons]
    by_cases ha : a1 = k
    · rw [if_pos ha, jsGetField_cons, jsGetField_cons,
        if_neg (fun h => hne h.symm), if_neg (fun h : a1 = k' => hne (h.symm.trans ha))]
      exact ih
    · rw [if_neg ha, jsGetField_cons, jsGetField_cons]
      by_cases hk : a1 = k'
      · rw [if_pos hk, if_pos hk]
      · rw [if_neg hk, if_neg hk]
        exact ih

theorem jsGetField_map_hit (fs : List (String × Json)) (k : String) (v : Json)
    (hany : fs.any (fun p => p.1 = k) = true) :
    jsGetField (fs.map (fun p => if p.1 = k then (k, v) else p)) k = some v := by
  induction fs with
  | nil => simp at hany
  | cons a fs ih =>
    obtain ⟨a1, a2⟩ := a
    by_cases ha : a1 = k
    · simp only [List.map_cons, if_pos ha]
      rw [jsGetField_cons, if_pos rfl]
    · simp only [List.any_cons, Bool.or_eq_true, decide_eq_true_eq] at hany
      rcases hany with h | h
      · exact absurd h ha
      · simp only [List.map_cons, if_neg ha]
        rw [jsGetField_cons, if_neg ha]
        exact ih h

theorem jsGetField_append_fresh (fs : List (String × Json)) (k k' : String) (v : Json)
    (hany : fs.any (fun p => p.1 = k) = false) :
    jsGetField (fs ++ [(k, v)]) k' = if k' = k then some v else jsGetField fs k' := by
  induction fs with
  | nil =>
    simp only [List.nil_append]
    rw [jsGetField_cons]
    by_cases hk : k' = k
    · rw [if_pos hk.symm, if_pos hk]
    · rw [if_neg (fun h => hk h.symm), if_neg hk]
  | cons a fs ih =>
    obtain ⟨a1, a2⟩ := a
    simp only [List.any_cons, Bool.or_eq_false_iff, decide_eq_false_iff_not] at hany
    have ha1 : a1 ≠ k := hany.1
    have hfs : fs.any (fun p => p.1 = k) = false := hany.2
    simp only [List.cons_append]
    rw [jsGetField_cons, jsGetField_cons]
    by_cases hk : a1 = k'
    · rw [if_pos hk, if_pos hk, if_neg (fun h => ha1 (hk.trans h))]
    · rw [if_neg hk, if_neg hk]
      exact ih hfs

/-- Lookup after `setField`, for a key the write does not drop (either it
already exists, or it is not `"__proto__"`): the written key reads back the
value, others are untouched. -/
theorem jsGetField_setField (fs : List (String × Json)) (k k' : String) (v : Json)
    (hw : ¬(k = "__proto__") ∨ fs.any (fun p => p.1 = k) = true) :
    jsGetField (setField fs k v) k' = if k' = k then some v else jsGetField fs k' := by
  unfold setField
  by_cases hany : fs.any (fun p => p.1 = k) = true
  · rw [if_pos hany]
    by_cases hk : k' = k
    · subst hk
      rw [if_pos rfl]
      exact jsGetField_map_hit fs k' v hany
    · rw [if_neg hk]
      exact jsGetField_map_ne fs k k' v hk
  · have hkp : ¬(k = "__proto__") := by
      rcases hw with h | h
      · exact h
      · exact absurd h hany
    rw [if_neg hany, if_neg hkp]
    exact jsGetField_append_fresh fs k k' v (Bool.eq_false_iff.mpr hany)

theorem jsGetField_any {fs : List (String × Json)} {k : String} {c : Json}
    (h : jsGetField fs k = some c) : fs.any (fun p => p.1 = k) = true := by
  induction fs with
  | nil => simp [jsGetField] at h
  | cons a fs ih =>
    obtain ⟨a1, a2⟩ := a
    rw [jsGetField_cons] at h
    by_cases ha : a1 = k
    · simp [ha]
    · rw [if_neg ha] at h
      simp only [List.any_cons, Bool.or_eq_true, decide_eq_true_eq]
      exact Or.inr (ih h)

theorem jsGetField_none_all {fs : List (String × Json)} {k : String} :
    jsGetField fs k = none → ∀ p ∈ fs, p.1 ≠ k := by
  induction fs with
  | nil =>
    intro _ p hp
    simp at hp
  | cons a fs ih =>
    obtain ⟨a1, a2⟩ := a
    intro h p hp
    rw [jsGetField_cons] at h
    by_cases ha : a1 = k
    · rw [if_pos ha] at h
      cases h
    · rw [if_neg ha] at h
      rcases List.mem_cons.mp hp with hh | hh
      · subst hh
        exact ha
      · exact ih h p hh

theorem map_upd_eq_self :
    ∀ (fs : List (String × Json)) (k : String) (c : Json), keysNodup fs = true →
      jsGetField fs k = some c →
      fs.map (fun p => if p.1 = k then (k, c) else p) = fs
  | [], _, _ => by
      intro _ h
      simp [jsGetField] at h
  | (a1, a2) :: fs, k, c => by
      intro hnd h
      rw [jsGetField_cons] at h
      simp only [keysNodup, List.map_cons, decide_eq_true_eq, List.nodup_cons] at hnd
      by_cases ha : a1 = k
      · subst ha
        rw [if_pos rfl] at h
        injection h with h
        subst h
        simp only [List.map_cons, List.cons.injEq]
        refine ⟨by simp, ?_⟩
        calc fs.map (fun p => if p.1 = a1 then (a1, a2) else p)
            = fs.map id := List.map_congr_left (fun p hp => by
                rw [if_neg (fun hpk : p.1 = a1 =>
                  hnd.1 (by rw [← hpk]; exact List.mem_map_of_mem Prod.fst hp))]
                rfl)
          _ = fs := List.map_id fs
      · rw [if_neg ha] at h
        simp only [List.map_cons, List.cons.injEq]
        exact ⟨by rw [if_neg ha], map_upd_eq_self fs k c (by simp [keysNodup, hnd.2]) h⟩

/-- Writing the value a unique key already holds changes nothing. -/
theorem setField_id {fs : List (String × Json)} {k : String} {c : Json}
    (hnd : keysNodup fs = true) (h : jsGetField fs k = some c) : setField fs k c = fs := by
  unfold setField
  rw [if_pos (jsGetField_any h)]
  exact map_upd_eq_self fs k c hnd h

/-- A second write to the same key overwrites the first (or, for a fresh
`"__proto__"`, both are dropped). -/
theorem setField_setField (fs : List (String × Json)) (k : String) (w x : Json) :
    setField (setField fs k w) k x = setField fs k x := by
  by_cases hany : fs.any (fun p => p.1 = k) = true
  · have h1 : setField fs k w = fs.map (fun p => if p.1 = k then (k, w) else p) := by
      unfold setField
      rw [if_pos hany]
    have h2 : setField fs k x = fs.map (fun p => if p.1 = k then (k, x) else p) := by
      unfold setField
      rw [if_pos hany]
    have hany2 : (fs.map (fun p => if p.1 = k then (k, w) else p)).any
        (fun p => p.1 = k) = true := by
      rcases List.any_eq_true.mp hany with ⟨p, hp, hpk⟩
      have hpk2 : p.1 = k := by simpa using hpk
      refine List.any_eq_true.mpr ⟨(k, w), ?_, by simp⟩
      have hm := List.mem_map_of_mem (fun q => if q.1 = k then ((k, w) : String × Json) else q) hp
      have hm2 : (if p.1 = k then ((k, w) : String × Json) else p) ∈
          fs.map (fun q => if q.1 = k then ((k, w) : String × Json) else q) := hm
      rw [if_pos hpk2] at hm2
      exact hm2
    rw [h1, h2]
    unfold setField
    rw [if_pos hany2, List.map_map]
    apply List.map_congr_left
    intro p _
    by_cases hp : p.1 = k <;> simp [Function.comp, hp]
  · by_cases hkp : k = "__proto__"
    · have h1 : setField fs k w = fs := by
        unfold setField
        rw [if_neg hany, if_pos hkp]
      have h2 : setField fs k x = fs := by
        unfold setField
        rw [if_neg hany, if_pos hkp]
      rw [h1, h2]
    · have h1 : setField fs k w = fs ++ [(k, w)] := by
        unfold setField
        rw [if_neg hany, if_neg hkp]
      have h2 : setField fs k x = fs ++ [(k, x)] := by
        unfold setField
        rw [if_neg hany, if_neg hkp]
      have hall : ∀ p ∈ fs, ¬ p.1 = k := by
        intro p hp hpk
        exact hany (List.any_eq_true.mpr ⟨p, hp, by simp [hpk]⟩)
      have hany2 : (fs ++ [(k, w)]).any (fun p => p.1 = k) = true :=
        List.any_eq_true.mpr ⟨(k, w), by simp, by simp⟩
      rw [h1, h2]
      unfold setField
      rw [if_pos hany2, List.map_append]
      congr 1
      · calc fs.map (fun p => if p.1 = k then (k, x) else p)
            = fs.map id := List.map_congr_left (fun p hp => by rw [if_neg (hall p hp)]; rfl)
          _ = fs := List.map_id fs
      · simp

/-- Keys are unchanged by writing to an existing key. -/
theorem setField_keys_existing (fs : List (String × Json)) (k : String) (v : Json)
    (hany : fs.any (fun p => p.1 = k) = true) :
    (setField fs k v).map Prod.fst = fs.map Prod.fst := by
  unfold setField
  rw [if_pos hany, List.map_map]
  apply List.map_congr_left
  intro p _
  by_cases hp : p.1 = k <;> simp [Function.comp, hp]

/-- The fold `createPatch` performs over its emitted entries. -/
def patchFold (z : Json) (es : List (List String × String)) : Json :=
  es.foldl (fun z e => setValueAtPath z e.1 (.str e.2)) z

theorem setValueAtPath_obj_single (fs : List (String × Json)) (k : String) (v : Json) :
    setValueAtPath (Json.obj fs) [k] v = Json.obj (setField fs k v) := rfl

theorem setValueAtPath_obj_cons₂ (fs : List (String × Json)) (k k2 : String)
    (rest : List String) (v c : Json) (hget : jsGetField fs k = some c) :
    setValueAtPath (Json.obj fs) (k :: k2 :: rest) v =
      Json.obj (setField fs k (setValueAtPath c (k2 :: rest) v)) := by
  simp only [setValueAtPath, hget]

theorem setValueAtPath_obj_cons₂_none (fs : List (String × Json)) (k k2 : String)
    (rest : List String) (v : Json) (hget : jsGetField fs k = none)
    (hkp : protoKey k = false) :
    setValueAtPath (Json.obj fs) (k :: k2 :: rest) v =
      Json.obj (setField fs k (setValueAtPath (Json.obj []) (k2 :: rest) v)) := by
  simp only [setValueAtPath, hget, hkp, Bool.false_eq_true, if_false]

/-- When the JS `in` operator finds a missing interior key on the prototype
chain, the walk descends into the inherited builtin and the patch object is
left unchanged. -/
theorem setValueAtPath_obj_cons₂_lost (fs : List (String × Json)) (k k2 : String)
    (rest : List String) (v : Json) (hget : jsGetField fs k = none)
    (hkp : protoKey k = true) :
    setValueAtPath (Json.obj fs) (k :: k2 :: rest) v = Json.obj fs := by
  simp only [setValueAtPath, hget, hkp, if_true]

theorem keysNodup_setField_existing (fs : List (String × Json)) (k : String) (v : Json)
    (hany : fs.any (fun p => p.1 = k) = true) (hnd : keysNodup fs = true) :
    keysNodup (setField fs k v) = true := by
  simp only [keysNodup, decide_eq_true_eq] at hnd ⊢
  rw [setField_keys_existing fs k v hany]
  exact hnd

/-- Folding a block of entries, all shifted under the key `k` that already
holds child `c`, is a single `setField` of the child fold. -/
theorem patchFold_shift_existing :
    ∀ (es : List (List String × String)) (fs : List (String × Json)) (k : String) (c : Json),
      keysNodup fs = true → jsGetField fs k = some c → (∀ e ∈ es, e.1 ≠ []) →
      patchFold (.obj fs) (es.map (fun e => (k :: e.1, e.2))) =
        .obj (setField fs k (patchFold c es)) := by
  intro es
  induction es with
  | nil =>
    intro fs k c hnd hget _
    simp only [patchFold, List.map_nil, List.foldl_nil]
    rw [setField_id hnd hget]
  | cons e es ih =>
    intro fs k c hnd hget hne
    have he1 : e.1 ≠ [] := hne e (List.mem_cons_self _ _)
    rcases hp : e.1 with _ | ⟨k2, rest⟩
    · exact absurd hp he1
    · simp only [patchFold, List.map_cons, List.foldl_cons, hp]
      rw [setValueAtPath_obj_cons₂ fs k k2 rest (Json.str e.2) c hget]
      have hany : fs.any (fun p => p.1 = k) = true := jsGetField_any hget
      have ihh := ih (setField fs k (setValueAtPath c (k2 :: rest) (Json.str e.2))) k
        (setValueAtPath c (k2 :: rest) (Json.str e.2))
        (keysNodup_setField_existing fs k _ hany hnd)
        (by rw [jsGetField_setField fs k k _ (Or.inr hany), if_pos rfl])
        (fun e2 h2 => hne e2 (List.mem_cons_of_mem _ h2))
      simp only [patchFold] at ihh
      rw [ihh, setField_setField]

/-- The same, when the key is fresh: the block creates the child from an
empty object. -/
theorem patchFold_shift_fresh (es : List (List String × String))
    (fs : List (String × Json)) (k : String) (e0 : List String × String)
    (hget : jsGetField fs k = none) (hkp : protoKey k = false)
    (hnd : keysNodup fs = true)
    (hne : ∀ e ∈ e0 :: es, e.1 ≠ []) :
    patchFold (.obj fs) ((e0 :: es).map (fun e => (k :: e.1, e.2))) =
      .obj (setField fs k (patchFold (.obj []) (e0 :: es))) := by
  have he1 : e0.1 ≠ [] := hne e0 (List.mem_cons_self _ _)
  have hkne : ¬(k = "__proto__") := protoKey_false_name hkp
  rcases hp : e0.1 with _ | ⟨k2, rest⟩
  · exact absurd hp he1
  · simp only [patchFold, List.map_cons, List.foldl_cons, hp]
    rw [setValueAtPath_obj_cons₂_none fs k k2 rest (Json.str e0.2) hget hkp]
    have hanyf : fs.any (fun p => p.1 = k) = false := by
      rcases Bool.eq_false_or_eq_true (fs.any (fun p => p.1 = k)) with h | h
      · exfalso
        rcases List.any_eq_true.mp h with ⟨q, hq, hqk⟩
        exact jsGetField_none_all hget q hq (by simpa using hqk)
      · exact h
    have hnd2 : keysNodup (setField fs k (setValueAtPath (Json.obj [])
        (k2 :: rest) (Json.str e0.2))) = true := by
      unfold setField
      rw [if_neg (by rw [hanyf]; exact fun h => Bool.noConfusion h), if_neg hkne]
      simp only [keysNodup, List.map_append, decide_eq_true_eq] at hnd ⊢
      rw [List.nodup_append]
      refine ⟨by simpa using hnd, by simp, ?_⟩
      intro a ha hb
      simp only [List.map_cons, List.map_nil, List.mem_singleton] at hb
      subst hb
      simp only [List.mem_map] at ha
      obtain ⟨q, hq, hqa⟩ := ha
      exact jsGetField_none_all hget q hq hqa
    have ihh := patchFold_shift_existing es
      (setField fs k (setValueAtPath (Json.obj []) (k2 :: rest) (Json.str e0.2))) k
      (setValueAtPath (Json.obj []) (k2 :: rest) (Json.str e0.2))
      hnd2 (by rw [jsGetField_setField _ _ _ _ (Or.inl hkne), if_pos rfl])
      (fun e2 h2 => hne e2 (List.mem_cons_of_mem _ h2))
    simp only [patchFold] at ihh
    rw [ihh, setField_setField]

theorem jsGetField_none_any {fs : List (String × Json)} {k : String}
    (h : jsGetField fs k = none) : fs.any (fun p => p.1 = k) = false := by
  rcases Bool.eq_false_or_eq_true (fs.any (fun p => p.1 = k)) with hb | hb
  · exfalso
    rcases List.any_eq_true.mp hb with ⟨q, hq, hqk⟩
    exact jsGetField_none_all h q hq (by simpa using hqk)
  · exact hb

theorem setField_fresh (fs : List (String × Json)) (k : String) (v : Json)
    (hany : fs.any (fun p => p.1 = k) = false) (hkp : ¬(k = "__proto__")) :
    setField fs k v = fs ++ [(k, v)] := by
  unfold setField
  rw [if_neg (by simp [hany]), if_neg hkp]

theorem keysNodup_append_fresh (fs : List (String × Json)) (k : String) (v : Json)
    (h : jsGetField fs k = none) (hnd : keysNodup fs = true) :
    keysNodup (fs ++ [(k, v)]) = true := by
  simp only [keysNodup, List.map_append, decide_eq_true_eq] at hnd ⊢
  rw [List.nodup_append]
  refine ⟨hnd, by simp, ?_⟩
  intro a ha hb
  simp only [List.map_cons, List.map_nil, List.mem_singleton] at hb
  subst hb
  simp only [List.mem_map] at ha
  obtain ⟨q, hq, hqa⟩ := ha
  exact jsGetField_none_all h q hq hqa

theorem patchFold_append (z : Json) (l1 l2 : List (List String × String)) :
    patchFold z (l1 ++ l2) = patchFold (patchFold z l1) l2 := by
  simp [patchFold, List.foldl_append]

/-- Every diff entry emitted for an array carries a nonempty path. -/
theorem diffList_paths :
    ∀ (os ts : List Json) (i : Nat) (e : List String × String),
      e ∈ diffList os ts i [] → e.1 ≠ []
  | [], _, _, _ => by simp [diffList]
  | _ :: _, [], _, _ => by simp [diffList]
  | o :: os, t :: ts, i, e => by
      intro he
      simp only [diffList, List.mem_append] at he
      rcases he with he | he
      · rw [diffEntries_shift o t ([] ++ [indexToken i])] at he
        rcases List.mem_map.mp he with ⟨q, _, hq⟩
        rw [← hq]
        simp
      · exact diffList_paths os ts (i + 1) e he
  termination_by structural os => os

/-- Every diff entry emitted for an object carries a nonempty path. -/
theorem diffFields_paths :
    ∀ (ofs tfs : List (String × Json)) (e : List String × String),
      e ∈ diffFields ofs tfs [] → e.1 ≠ []
  | [], _, _ => by simp [diffFields]
  | _ :: _, [], _ => by simp [diffFields]
  | (k, v) :: ofs, (l, w) :: tfs, e => by
      intro he
      simp only [diffFields, List.mem_append] at he
      rcases he with he | he
      · rw [diffEntries_shift v w ([] ++ [k])] at he
        rcases List.mem_map.mp he with ⟨q, _, hq⟩
        rw [← hq]
        simp
      · exact diffFields_paths ofs tfs e he
  termination_by structural ofs => ofs

theorem stringRefine_str_inv {a : String} {t : Json}
    (h : stringRefine (.str a) t = true) : ∃ b, t = .str b := by
  cases t with
  | str b => exact ⟨b, rfl⟩
  | num n => exact absurd h (by simp [stringRefine])
  | boolean b => exact absurd h (by simp [stringRefine])
  | null => exact absurd h (by simp [stringRefine])
  | arr xs => exact absurd h (by simp [stringRefine])
  | obj fs => exact absurd h (by simp [stringRefine])

theorem stringRefine_num_inv {n : Int} {t : Json}
    (h : stringRefine (.num n) t = true) : t = .num n := by
  cases t with
  | num m =>
    simp only [stringRefine, decide_eq_true_eq] at h
    rw [h]
  | str b => exact absurd h (by simp [stringRefine])
  | boolean b => exact absurd h (by simp [stringRefine])
  | null => exact absurd h (by simp [stringRefine])
  | arr xs => exact absurd h (by simp [stringRefine])
  | obj fs => exact absurd h (by simp [stringRefine])

theorem stringRefine_boolean_inv {b : Bool} {t : Json}
    (h : stringRefine (.boolean b) t = true) : t = .boolean b := by
  cases t with
  | boolean c =>
    simp only [stringRefine, decide_eq_true_eq] at h
    rw [h]
  | str c => exact absurd h (by simp [stringRefine])
  | num n => exact absurd h (by simp [stringRefine])
  | null => exact absurd h (by simp [stringRefine])
  | arr xs => exact absurd h (by simp [stringRefine])
  | obj fs => exact absurd h (by simp [stringRefine])

theorem stringRefine_null_inv {t : Json}
    (h : stringRefine .null t = true) : t = .null := by
  cases t with
  | null => rfl
  | str c => exact absurd h (by simp [stringRefine])
  | num n => exact absurd h (by simp [stringRefine])
  | boolean c => exact absurd h (by simp [stringRefine])
  | arr xs => exact absurd h (by simp [stringRefine])
  | obj fs => exact absurd h (by simp [stringRefine])

theorem stringRefine_arr_inv {xs : List Json} {t : Json}
    (h : stringRefine (.arr xs) t = true) :
    ∃ ts, t = .arr ts ∧ stringRefineList xs ts = true := by
  cases t with
  | arr ts => exact ⟨ts, rfl, h⟩
  | str c => exact absurd h (by simp [stringRefine])
  | num n => exact absurd h (by simp [stringRefine])
  | boolean c => exact absurd h (by simp [stringRefine])
  | null => exact absurd h (by simp [stringRefine])
  | obj fs => exact absurd h (by simp [stringRefine])

theorem stringRefine_obj_inv {fs : List (String × Json)} {t : Json}
    (h : stringRefine (.obj fs) t = true) :
    ∃ tfs, t = .obj tfs ∧ stringRefineFields fs tfs = true := by
  cases t with
  | obj tfs => exact ⟨tfs, rfl, h⟩
  | str c => exact absurd h (by simp [stringRefine])
  | num n => exact absurd h (by simp [stringRefine])
  | boolean c => exact absurd h (by simp [stringRefine])
  | null => exact absurd h (by simp [stringRefine])
  | arr xs => exact absurd h (by simp [stringRefine])

theorem patchFold_nil (z : Json) : patchFold z [] = z := rfl

theorem ne_indexToken_of_parseIdx_none {s : String} (h : parseIdx s = none) (i : Nat) :
    ¬(s = indexToken i) := by
  intro he
  rw [he, parseIdx_indexToken] at h
  exact Option.noConfusion h

/-- Canonical decimal index tokens never name an `Object.prototype`
property. -/
theorem indexToken_not_proto (i : Nat) : protoKey (indexToken i) = false := by
  have hne : ∀ s ∈ protoKeys, ¬(s = indexToken i) := by
    intro s hs
    simp only [protoKeys, List.mem_cons, List.not_mem_nil, or_false] at hs
    rcases hs with rfl | rfl | rfl | rfl | rfl | rfl | rfl | rfl | rfl | rfl | rfl | rfl <;>
      exact ne_indexToken_of_parseIdx_none (by decide) i
  rcases Bool.eq_false_or_eq_true (protoKey (indexToken i)) with h | h
  · exfalso
    simp only [protoKey] at h
    rcases List.any_eq_true.mp h with ⟨q, hq, hqp⟩
    exact hne q hq (by simpa using hqp)
  · exact h

theorem indexToken_ne_protoStr (i : Nat) : ¬(indexToken i = "__proto__") := by
  intro he
  have h := indexToken_not_proto i
  rw [he] at h
  exact absurd h (by decide)

mutual

/-- Folding the diff entries of a container pair into an empty object
rebuilds exactly the recursive patch object. -/
theorem patchFold_diff :
    ∀ (o t : Json), stringRefine o t = true → keysOk protoKey o = true → wfJson o = true →
      (∃ gs, o = .obj gs) ∨ (∃ xs, o = .arr xs) →
      patchFold (.obj []) (diffEntries o t []) = patchTree o t
  | .arr xs, t, hsr, hok, hwf, _ => by
      obtain ⟨ts, rfl, hsrl⟩ := stringRefine_arr_inv hsr
      simp only [diffEntries, patchTree]
      have h := patchFold_diffList xs ts 0 [] hsrl (by simpa [keysOk] using hok)
        (by simpa [wfJson] using hwf) (by simp [keysNodup]) (fun j => rfl)
      simpa using h
  | .obj gs, t, hsr, hok, hwf, _ => by
      obtain ⟨tfs, rfl, hsrf⟩ := stringRefine_obj_inv hsr
      simp only [diffEntries, patchTree]
      simp only [wfJson, Bool.and_eq_true] at hwf
      have h := patchFold_diffFields gs tfs [] hsrf (by simpa [keysOk] using hok)
        hwf.2 hwf.1 (by simp [keysNodup]) (fun q _ => rfl)
      simpa using h
  | .str _, _, _, _, _, hc => by rcases hc with ⟨_, h⟩ | ⟨_, h⟩ <;> cases h
  | .num _, _, _, _, _, hc => by rcases hc with ⟨_, h⟩ | ⟨_, h⟩ <;> cases h
  | .boolean _, _, _, _, _, hc => by rcases hc with ⟨_, h⟩ | ⟨_, h⟩ <;> cases h
  | .null, _, _, _, _, hc => by rcases hc with ⟨_, h⟩ | ⟨_, h⟩ <;> cases h

theorem patchFold_diffList :
    ∀ (os ts : List Json) (i : Nat) (fs : List (String × Json)),
      stringRefineList os ts = true → keysOkList protoKey os = true →
      wfList os = true → keysNodup fs = true →
      (∀ j, jsGetField fs (indexToken (i + j)) = none) →
      patchFold (.obj fs) (diffList os ts i []) = .obj (fs ++ patchItems os ts i)
  | [], [], _, fs, _, _, _, _, _ => by simp [diffList, patchItems, patchFold]
  | [], _ :: _, _, _, hsr, _, _, _, _ => by simp [stringRefineList] at hsr
  | _ :: _, [], _, _, hsr, _, _, _, _ => by simp [stringRefineList] at hsr
  | o :: os, t :: ts, i, fs, hsr, hok, hwf, hnd, hfresh => by
      simp only [stringRefineList, Bool.and_eq_true] at hsr
      obtain ⟨hok1, hok2⟩ := keysOkList_cons hok
      simp only [wfList, Bool.and_eq_true] at hwf
      simp only [diffList, patchItems]
      rw [patchFold_append]
      have hf0 : jsGetField fs (indexToken i) = none := by
        have h := hfresh 0
        rwa [Nat.add_zero] at h
      by_cases hd : diffEntries o t [] = []
      · rw [diffEntries_shift o t ([] ++ [indexToken i]), hd]
        simp only [List.map_nil, if_pos hd, List.nil_append]
        rw [patchFold_nil]
        exact patchFold_diffList os ts (i + 1) fs hsr.2 hok2 hwf.2 hnd
          (fun j => by rw [Nat.add_assoc]; exact hfresh (1 + j))
      · rw [if_neg hd]
        cases o with
        | num n =>
          exfalso
          apply hd
          rw [stringRefine_num_inv hsr.1]
          exact diffEntries_self (.num n) []
        | boolean b =>
          exfalso
          apply hd
          rw [stringRefine_boolean_inv hsr.1]
          exact diffEntries_self (.boolean b) []
        | null =>
          exfalso
          apply hd
          rw [stringRefine_null_inv hsr.1]
          exact diffEntries_self .null []
        | str a =>
          obtain ⟨b, rfl⟩ := stringRefine_str_inv hsr.1
          have hab : a ≠ b := fun h => hd (by simp [diffEntries, h])
          have hblock : diffEntries (.str a) (.str b) ([] ++ [indexToken i]) =
              [([indexToken i], b)] := by
            simp [diffEntries, hab]
          rw [hblock]
          have h1 : patchFold (Json.obj fs) [([indexToken i], b)] =
              Json.obj (fs ++ [(indexToken i, Json.str b)]) := by
            show setValueAtPath (Json.obj fs) [indexToken i] (Json.str b) = _
            rw [setValueAtPath_obj_single,
              setField_fresh fs _ _ (jsGetField_none_any hf0) (indexToken_ne_protoStr i)]
          rw [h1]
          rw [patchFold_diffList os ts (i + 1) (fs ++ [(indexToken i, Json.str b)])
            hsr.2 hok2 hwf.2 (keysNodup_append_fresh fs _ _ hf0 hnd)
            (fun j => by
              rw [jsGetField_append_fresh fs (indexToken i) (indexToken (i + 1 + j))
                  (Json.str b) (jsGetField_none_any hf0),
                if_neg (fun h => by have := indexToken_injective h; omega)]
              rw [Nat.add_assoc]
              exact hfresh (1 + j))]
          simp [patchTree, List.append_assoc]
        | arr xs =>
          obtain ⟨tsx, rfl, hsrx⟩ := stringRefine_arr_inv hsr.1
          have hchild : diffEntries (.arr xs) (.arr tsx) [] = diffList xs tsx 0 [] := by
            simp [diffEntries]
          rw [diffEntries_shift (.arr xs) (.arr tsx) ([] ++ [indexToken i]), hchild]
          rcases hce : diffList xs tsx 0 [] with _ | ⟨e0, es2⟩
          · exact absurd (hchild.trans hce) hd
          · have hmapeq : (e0 :: es2).map
                (fun e => (([] ++ [indexToken i]) ++ e.1, e.2)) =
                (e0 :: es2).map (fun e => (indexToken i :: e.1, e.2)) := by simp
            rw [hmapeq,
              patchFold_shift_fresh es2 fs (indexToken i) e0 hf0 (indexToken_not_proto i) hnd
                (fun e he => diffList_paths xs tsx 0 e (by rw [hce]; exact he)),
              ← hce, ← hchild,
              patchFold_diff (.arr xs) (.arr tsx) hsr.1 hok1 hwf.1 (Or.inr ⟨xs, rfl⟩),
              setField_fresh fs _ _ (jsGetField_none_any hf0) (indexToken_ne_protoStr i),
              patchFold_diffList os ts (i + 1)
                (fs ++ [(indexToken i, patchTree (.arr xs) (.arr tsx))])
                hsr.2 hok2 hwf.2 (keysNodup_append_fresh fs _ _ hf0 hnd)
                (fun j => by
                  rw [jsGetField_append_fresh fs (indexToken i) (indexToken (i + 1 + j))
                      _ (jsGetField_none_any hf0),
                    if_neg (fun h => by have := indexToken_injective h; omega)]
                  rw [Nat.add_assoc]
                  exact hfresh (1 + j))]
            simp [List.append_assoc]
        | obj gs =>
          obtain ⟨tfsx, rfl, hsrx⟩ := stringRefine_obj_inv hsr.1
          have hchild : diffEntries (.obj gs) (.obj tfsx) [] = diffFields gs tfsx [] := by
            simp [diffEntries]
          rw [diffEntries_shift (.obj gs) (.obj tfsx) ([] ++ [indexToken i]), hchild]
          rcases hce : diffFields gs tfsx [] with _ | ⟨e0, es2⟩
          · exact absurd (hchild.trans hce) hd
          · have hmapeq : (e0 :: es2).map
                (fun e => (([] ++ [indexToken i]) ++ e.1, e.2)) =
                (e0 :: es2).map (fun e => (indexToken i :: e.1, e.2)) := by simp
            rw [hmapeq,
              patchFold_shift_fresh es2 fs (indexToken i) e0 hf0 (indexToken_not_proto i) hnd
                (fun e he => diffFields_paths gs tfsx e (by rw [hce]; exact he)),
              ← hce, ← hchild,
              patchFold_diff (.obj gs) (.obj tfsx) hsr.1 hok1 hwf.1 (Or.inl ⟨gs, rfl⟩),
              setField_fresh fs _ _ (jsGetField_none_any hf0) (indexToken_ne_protoStr i),
              patchFold_diffList os ts (i + 1)
                (fs ++ [(indexToken i, patchTree (.obj gs) (.obj tfsx))])
                hsr.2 hok2 hwf.2 (keysNodup_append_fresh fs _ _ hf0 hnd)
                (fun j => by
                  rw [jsGetField_append_fresh fs (indexToken i) (indexToken (i + 1 + j))
                      _ (jsGetField_none_any hf0),
                    if_neg (fun h => by have := indexToken_injective h; omega)]
                  rw [Nat.add_assoc]
                  exact hfresh (1 + j))]
            simp [List.append_assoc]
  termination_by structural os => os

theorem patchFold_diffFields :
    ∀ (ofs tfs fs : List (String × Json)),
      stringRefineFields ofs tfs = true → keysOkFields protoKey ofs = true →
      wfFields ofs = true → keysNodup ofs = true →
      keysNodup fs = true →
      (∀ q ∈ ofs, jsGetField fs q.1 = none) →
      patchFold (.obj fs) (diffFields ofs tfs []) = .obj (fs ++ patchFields ofs tfs)
  | [], [], fs, _, _, _, _, _, _ => by simp [diffFields, patchFields, patchFold]
  | [], _ :: _, _, hsr, _, _, _, _, _ => by simp [stringRefineFields] at hsr
  | _ :: _, [], _, hsr, _, _, _, _, _ => by simp [stringRefineFields] at hsr
  | (k, v) :: ofs, (l, w) :: tfs, fs, hsr, hok, hwf, hndo, hnd, hfresh => by
      simp only [stringRefineFields, Bool.and_eq_true, decide_eq_true_eq] at hsr
      obtain ⟨⟨hkl, hsrv⟩, hsrr⟩ := hsr
      subst hkl
      obtain ⟨hokk, hokv, hokt⟩ := keysOkFields_cons hok
      have hkne : ¬(k = "__proto__") := protoKey_false_name hokk
      simp only [wfFields, Bool.and_eq_true] at hwf
      have hndo2 : keysNodup ofs = true := by
        simp only [keysNodup, List.map_cons, decide_eq_true_eq, List.nodup_cons] at hndo
        simp [keysNodup, hndo.2]
      have hknotin : ∀ q ∈ ofs, ¬(q.1 = k) := by
        simp only [keysNodup, List.map_cons, decide_eq_true_eq, List.nodup_cons] at hndo
        intro q hq hqk
        exact hndo.1 (hqk ▸ List.mem_map_of_mem Prod.fst hq)
      simp only [diffFields, patchFields]
      rw [patchFold_append]
      have hf0 : jsGetField fs k = none := hfresh (k, v) (List.mem_cons_self _ _)
      by_cases hd : diffEntries v w [] = []
      · rw [diffEntries_shift v w ([] ++ [k]), hd]
        simp only [List.map_nil, if_pos hd, List.nil_append]
        rw [patchFold_nil]
        exact patchFold_diffFields ofs tfs fs hsrr hokt hwf.2 hndo2 hnd
          (fun q hq => hfresh q (List.mem_cons_of_mem _ hq))
      · rw [if_neg hd]
        cases v with
        | num n =>
          exfalso
          apply hd
          rw [stringRefine_num_inv hsrv]
          exact diffEntries_self (.num n) []
        | boolean b =>
          exfalso
          apply hd
          rw [stringRefine_boolean_inv hsrv]
          exact diffEntries_self (.boolean b) []
        | null =>
          exfalso
          apply hd
          rw [stringRefine_null_inv hsrv]
          exact diffEntries_self .null []
        | str a =>
          obtain ⟨b, rfl⟩ := stringRefine_str_inv hsrv
          have hab : a ≠ b := fun h => hd (by simp [diffEntries, h])
          have hblock : diffEntries (.str a) (.str b) ([] ++ [k]) = [([k], b)] := by
            simp [diffEntries, hab]
          rw [hblock]
          have h1 : patchFold (Json.obj fs) [([k], b)] =
              Json.obj (fs ++ [(k, Json.str b)]) := by
            show setValueAtPath (Json.obj fs) [k] (Json.str b) = _
            rw [setValueAtPath_obj_single,
              setField_fresh fs _ _ (jsGetField_none_any hf0) hkne]
          rw [h1]
          rw [patchFold_diffFields ofs tfs (fs ++ [(k, Json.str b)]) hsrr hokt hwf.2 hndo2
            (keysNodup_append_fresh fs _ _ hf0 hnd)
            (fun q hq => by
              rw [jsGetField_append_fresh fs k q.1 _ (jsGetField_none_any hf0),
                if_neg (hknotin q hq)]
              exact hfresh q (List.mem_cons_of_mem _ hq))]
          simp [patchTree, List.append_assoc]
        | arr xs =>
          obtain ⟨tsx, rfl, hsrx⟩ := stringRefine_arr_inv hsrv
          have hchild : diffEntries (.arr xs) (.arr tsx) [] = diffList xs tsx 0 [] := by
            simp [diffEntries]
          rw [diffEntries_shift (.arr xs) (.arr tsx) ([] ++ [k]), hchild]
          rcases hce : diffList xs tsx 0 [] with _ | ⟨e0, es2⟩
          · exact absurd (hchild.trans hce) hd
          · have hmapeq : (e0 :: es2).map (fun e => (([] ++ [k]) ++ e.1, e.2)) =
                (e0 :: es2).map (fun e => (k :: e.1, e.2)) := by simp
            rw [hmapeq,
              patchFold_shift_fresh es2 fs k e0 hf0 hokk hnd
                (fun e he => diffList_paths xs tsx 0 e (by rw [hce]; exact he)),
              ← hce, ← hchild,
              patchFold_diff (.arr xs) (.arr tsx) hsrv hokv hwf.1 (Or.inr ⟨xs, rfl⟩),
              setField_fresh fs _ _ (jsGetField_none_any hf0) hkne,
              patchFold_diffFields ofs tfs (fs ++ [(k, patchTree (.arr xs) (.arr tsx))])
                hsrr hokt hwf.2 hndo2 (keysNodup_append_fresh fs _ _ hf0 hnd)
                (fun q hq => by
                  rw [jsGetField_append_fresh fs k q.1 _ (jsGetField_none_any hf0),
                    if_neg (hknotin q hq)]
                  exact hfresh q (List.mem_cons_of_mem _ hq))]
            simp [List.append_assoc]
        | obj gs =>
          obtain ⟨tfsx, rfl, hsrx⟩ := stringRefine_obj_inv hsrv
          have hchild : diffEntries (.obj gs) (.obj tfsx) [] = diffFields gs tfsx [] := by
            simp [diffEntries]
          rw [diffEntries_shift (.obj gs) (.obj tfsx) ([] ++ [k]), hchild]
          rcases hce : diffFields gs tfsx [] with _ | ⟨e0, es2⟩
          · exact absurd (hchild.trans hce) hd
          · have hmapeq : (e0 :: es2).map (fun e => (([] ++ [k]) ++ e.1, e.2)) =
                (e0 :: es2).map (fun e => (k :: e.1, e.2)) := by simp
            rw [hmapeq,
              patchFold_shift_fresh es2 fs k e0 hf0 hokk hnd
                (fun e he => diffFields_paths gs tfsx e (by rw [hce]; exact he)),
              ← hce, ← hchild,
              patchFold_diff (.obj gs) (.obj tfsx) hsrv hokv hwf.1 (Or.inl ⟨gs, rfl⟩),
              setField_fresh fs _ _ (jsGetField_none_any hf0) hkne,
              patchFold_diffFields ofs tfs (fs ++ [(k, patchTree (.obj gs) (.obj tfsx))])
                hsrr hokt hwf.2 hndo2 (keysNodup_append_fresh fs _ _ hf0 hnd)
                (fun q hq => by
                  rw [jsGetField_append_fresh fs k q.1 _ (jsGetField_none_any hf0),
                    if_neg (hknotin q hq)]
                  exact hfresh q (List.mem_cons_of_mem _ hq))]
            simp [List.append_assoc]
  termination_by structural ofs => ofs

end

theorem jsGetField_eq_none (fs : List (String × Json)) (k : String)
    (h : ∀ p ∈ fs, ¬(p.1 = k)) : jsGetField fs k = none := by
  induction fs with
  | nil => rfl
  | cons a fs ih =>
    obtain ⟨a1, a2⟩ := a
    rw [jsGetField_cons, if_neg (h (a1, a2) (List.mem_cons_self _ _))]
    exact ih (fun p hp => h p (List.mem_cons_of_mem _ hp))

theorem keysNodup_cons {k : String} {v : Json} {fs : List (String × Json)} :
    keysNodup ((k, v) :: fs) = true ↔ (∀ q ∈ fs, ¬(q.1 = k)) ∧ keysNodup fs = true := by
  simp only [keysNodup, List.map_cons, decide_eq_true_eq, List.nodup_cons]
  constructor
  · rintro ⟨h1, h2⟩
    exact ⟨fun q hq hqk => h1 (hqk ▸ List.mem_map_of_mem Prod.fst hq), by simpa using h2⟩
  · rintro ⟨h1, h2⟩
    refine ⟨?_, by simpa using h2⟩
    intro hm
    rcases List.mem_map.mp hm with ⟨q, hq, hqk⟩
    exact h1 q hq hqk

/-- Keys of the array patch object are index tokens at or past the start. -/
theorem patchItems_keys :
    ∀ (os ts : List Json) (i : Nat) (p : String × Json), p ∈ patchItems os ts i →
      ∃ j, p.1 = indexToken (i + j)
  | [], _, _, _ => by simp [patchItems]
  | _ :: _, [], _, _ => by simp [patchItems]
  | o :: os, t :: ts, i, p => by
      intro hp
      simp only [patchItems, List.mem_append] at hp
      rcases hp with hp | hp
      · by_cases hd : diffEntries o t [] = []
        · rw [if_pos hd] at hp
          simp at hp
        · rw [if_neg hd] at hp
          simp only [List.mem_singleton] at hp
          subst hp
          exact ⟨0, by rw [Nat.add_zero]⟩
      · obtain ⟨j, hj⟩ := patchItems_keys os ts (i + 1) p hp
        exact ⟨j + 1, by rw [hj]; congr 1; omega⟩
  termination_by structural os => os

/-- Keys of the object patch are keys of the original field list. -/
theorem patchFields_keys :
    ∀ (ofs tfs : List (String × Json)) (p : String × Json), p ∈ patchFields ofs tfs →
      ∃ q ∈ ofs, p.1 = q.1
  | [], _, _ => by simp [patchFields]
  | _ :: _, [], _ => by simp [patchFields]
  | (k, v) :: ofs, (l, w) :: tfs, p => by
      intro hp
      simp only [patchFields, List.mem_append] at hp
      rcases hp with hp | hp
      · by_cases hd : diffEntries v w [] = []
        · rw [if_pos hd] at hp
          simp at hp
        · rw [if_neg hd] at hp
          simp only [List.mem_singleton] at hp
          subst hp
          exact ⟨(k, v), List.mem_cons_self _ _, rfl⟩
      · obtain ⟨q, hq, hqp⟩ := patchFields_keys ofs tfs p hp
        exact ⟨q, List.mem_cons_of_mem _ hq, hqp⟩
  termination_by structural ofs => ofs

/-- Looking up a slot token in the array patch finds exactly the nonempty
child patch of that slot. -/
theorem patchItems_lookup :
    ∀ (os ts : List Json) (i j : Nat) (o t : Json),
      os.get? j = some o → ts.get? j = some t →
      jsGetField (patchItems os ts i) (indexToken (i + j)) =
        if diffEntries o t [] = [] then none else some (patchTree o t)
  | [], _, _, _, _, _ => by intro h _; simp at h
  | _ :: _, [], _, _, _, _ => by intro _ h; simp at h
  | o0 :: os, t0 :: ts, i, j, o, t => by
      intro ho ht
      cases j with
      | zero =>
        simp only [List.get?] at ho ht
        cases ho
        cases ht
        simp only [patchItems]
        by_cases hd : diffEntries o0 t0 [] = []
        · rw [if_pos hd, if_pos hd]
          simp only [List.nil_append]
          rw [Nat.add_zero]
          apply jsGetField_eq_none
          intro p hp hpk
          obtain ⟨j2, hj2⟩ := patchItems_keys os ts (i + 1) p hp
          rw [hpk] at hj2
          have := indexToken_injective hj2
          omega
        · rw [if_neg hd, if_neg hd]
          simp only [List.singleton_append, Nat.add_zero]
          rw [jsGetField_cons, if_pos rfl]
      | succ j2 =>
        simp only [List.get?] at ho ht
        simp only [patchItems]
        by_cases hd : diffEntries o0 t0 [] = []
        · rw [if_pos hd]
          simp only [List.nil_append]
          rw [show i + (j2 + 1) = i + 1 + j2 from by omega]
          exact patchItems_lookup os ts (i + 1) j2 o t ho ht
        · rw [if_neg hd]
          simp only [List.singleton_append]
          rw [jsGetField_cons, if_neg (fun h => by have := indexToken_injective h; omega)]
          rw [show i + (j2 + 1) = i + 1 + j2 from by omega]
          exact patchItems_lookup os ts (i + 1) j2 o t ho ht
  termination_by structural os => os

/-- Looking up an original key in the object patch finds exactly the
nonempty child patch of that field. -/
theorem patchFields_lookup :
    ∀ (ofs tfs : List (String × Json)) (j : Nat) (k : String) (v : Json)
      (l : String) (w : Json),
      keysNodup ofs = true →
      ofs.get? j = some (k, v) → tfs.get? j = some (l, w) →
      jsGetField (patchFields ofs tfs) k =
        if diffEntries v w [] = [] then none else some (patchTree v w)
  | [], _, _, _, _, _, _ => by intro _ h _; simp at h
  | _ :: _, [], _, _, _, _, _ => by intro _ _ h; simp at h
  | (k0, v0) :: ofs, (l0, w0) :: tfs, j, k, v, l, w => by
      intro hnd ho ht
      obtain ⟨hfresh, hnd2⟩ := keysNodup_cons.mp hnd
      cases j with
      | zero =>
        simp only [List.get?] at ho ht
        cases ho
        cases ht
        simp only [patchFields]
        by_cases hd : diffEntries v0 w0 [] = []
        · rw [if_pos hd, if_pos hd]
          simp only [List.nil_append]
          apply jsGetField_eq_none
          intro p hp hpk
          obtain ⟨q, hq, hqp⟩ := patchFields_keys ofs tfs p hp
          exact hfresh q hq (hqp ▸ hpk)
        · rw [if_neg hd, if_neg hd]
          simp only [List.singleton_append]
          rw [jsGetField_cons, if_pos rfl]
      | succ j2 =>
        simp only [List.get?] at ho ht
        have hkmem : k ∈ ofs.map Prod.fst := by
          have hm := List.get?_mem ho
          exact List.mem_map_of_mem Prod.fst hm
        have hkk0 : ¬(k0 = k) := by
          intro h
          rcases List.mem_map.mp hkmem with ⟨q, hq, hqk⟩
          exact hfresh q hq (hqk.trans h.symm)
        simp only [patchFields]
        by_cases hd : diffEntries v0 w0 [] = []
        · rw [if_pos hd]
          simp only [List.nil_append]
          exact patchFields_lookup ofs tfs j2 k v l w hnd2 ho ht
        · rw [if_neg hd]
          simp only [List.singleton_append]
          rw [jsGetField_cons, if_neg hkk0]
          exact patchFields_lookup ofs tfs j2 k v l w hnd2 ho ht
  termination_by structural ofs => ofs

theorem overlayFields_emptyPatch : ∀ (ofs : List (String × Json)),
    overlayFields ofs [] = ofs
  | [] => rfl
  | (k, v) :: ofs => by
      simp only [overlayFields]
      rw [overlayFields_emptyPatch ofs]
      rfl
  termination_by structural ofs => ofs

theorem overlayItems_emptyPatch : ∀ (xs : List Json) (i : Nat),
    overlayItems xs i [] = xs
  | [], _ => rfl
  | x :: xs, i => by
      simp only [overlayItems]
      rw [overlayItems_emptyPatch xs (i + 1)]
      rfl
  termination_by structural xs => xs

/-- Overlaying the empty patch changes nothing. -/
theorem overlay_emptyPatch (o : Json) : overlay o (.obj []) = o := by
  cases o with
  | obj ofs =>
    simp only [overlay]
    rw [overlayFields_emptyPatch ofs]
  | arr xs =>
    simp only [overlay]
    rw [overlayItems_emptyPatch xs 0]
  | str a => rfl
  | num n => rfl
  | boolean b => rfl
  | null => rfl

mutual

/-- Overlaying the recursive patch object onto the original reconstructs the
translated tree. -/
theorem overlay_patchTree :
    ∀ (o t : Json), stringRefine o t = true → wfJson o = true →
      overlay o (patchTree o t) = t
  | .str a, t, hsr, _ => by
      obtain ⟨b, rfl⟩ := stringRefine_str_inv hsr
      rfl
  | .num n, t, hsr, _ => by
      have h := stringRefine_num_inv hsr
      subst h
      rfl
  | .boolean b, t, hsr, _ => by
      have h := stringRefine_boolean_inv hsr
      subst h
      rfl
  | .null, t, hsr, _ => by
      have h := stringRefine_null_inv hsr
      subst h
      rfl
  | .arr xs, t, hsr, hwf => by
      obtain ⟨ts, rfl, hsrl⟩ := stringRefine_arr_inv hsr
      simp only [patchTree, overlay]
      rw [overlayItems_patch xs ts 0 (patchItems xs ts 0) hsrl
        (by simpa [wfJson] using hwf)
        (fun j o2 t2 ho ht => patchItems_lookup xs ts 0 j o2 t2 ho ht)]
  | .obj ofs, t, hsr, hwf => by
      obtain ⟨tfs, rfl, hsrf⟩ := stringRefine_obj_inv hsr
      simp only [patchTree, overlay]
      simp only [wfJson, Bool.and_eq_true] at hwf
      rw [overlayFields_patch ofs tfs (patchFields ofs tfs) hsrf hwf.2
        (fun j k v l w ho ht => patchFields_lookup ofs tfs j k v l w hwf.1 ho ht)]

theorem overlayItems_patch :
    ∀ (os ts : List Json) (i : Nat) (pfs : List (String × Json)),
      stringRefineList os ts = true → wfList os = true →
      (∀ (j : Nat) (o t : Json), os.get? j = some o → ts.get? j = some t →
        jsGetField pfs (indexToken (i + j)) =
          if diffEntries o t [] = [] then none else some (patchTree o t)) →
      overlayItems os i pfs = ts
  | [], [], _, _, _, _, _ => rfl
  | [], _ :: _, _, _, hsr, _, _ => by simp [stringRefineList] at hsr
  | _ :: _, [], _, _, hsr, _, _ => by simp [stringRefineList] at hsr
  | o :: os, t :: ts, i, pfs, hsr, hwf, hspec => by
      simp only [stringRefineList, Bool.and_eq_true] at hsr
      simp only [wfList, Bool.and_eq_true] at hwf
      have h0 := hspec 0 o t rfl rfl
      rw [Nat.add_zero] at h0
      have htail : overlayItems os (i + 1) pfs = ts :=
        overlayItems_patch os ts (i + 1) pfs hsr.2 hwf.2
          (fun j o2 t2 ho ht => by
            have h := hspec (j + 1) o2 t2 ho ht
            rwa [show i + (j + 1) = i + 1 + j from by omega] at h)
      by_cases hd : diffEntries o t [] = []
      · rw [if_pos hd] at h0
        simp only [overlayItems, h0, htail]
        rw [diffEntries_nil o t hsr.1 hd]
      · rw [if_neg hd] at h0
        simp only [overlayItems, h0, htail]
        rw [overlay_patchTree o t hsr.1 hwf.1]
  termination_by structural os => os

theorem overlayFields_patch :
    ∀ (ofs tfs pfs : List (String × Json)),
      stringRefineFields ofs tfs = true → wfFields ofs = true →
      (∀ (j : Nat) (k : String) (v : Json) (l : String) (w : Json),
        ofs.get? j = some (k, v) → tfs.get? j = some (l, w) →
        jsGetField pfs k =
          if diffEntries v w [] = [] then none else some (patchTree v w)) →
      overlayFields ofs pfs = tfs
  | [], [], _, _, _, _ => rfl
  | [], _ :: _, _, hsr, _, _ => by simp [stringRefineFields] at hsr
  | _ :: _, [], _, hsr, _, _ => by simp [stringRefineFields] at hsr
  | (k, v) :: ofs, (l, w) :: tfs, pfs, hsr, hwf, hspec => by
      simp only [stringRefineFields, Bool.and_eq_true, decide_eq_true_eq] at hsr
      obtain ⟨⟨hkl, hsrv⟩, hsrr⟩ := hsr
      subst hkl
      simp only [wfFields, Bool.and_eq_true] at hwf
      have h0 := hspec 0 k v k w rfl rfl
      have htail : overlayFields ofs pfs = tfs :=
        overlayFields_patch ofs tfs pfs hsrr hwf.2
          (fun j k2 v2 l2 w2 ho ht => hspec (j + 1) k2 v2 l2 w2 ho ht)
      by_cases hd : diffEntries v w [] = []
      · rw [if_pos hd] at h0
        simp only [overlayFields, h0, htail]
        rw [diffEntries_nil v w hsrv hd]
      · rw [if_neg hd] at h0
        simp only [overlayFields, h0, htail]
        rw [overlay_patchTree v w hsrv hwf.1]
  termination_by structural ofs => ofs

end

mutual

/-- On a pair (original, string-refined translated) with well-formed
original, the entries `createPatch` emits are exactly the recursive
string-leaf diff. -/
theorem createPatchEntries_eq :
    ∀ (t o : Json) (path : List String), stringRefine o t = true → wfJson o = true →
      createPatchEntries o t path = diffEntries o t path
  | .str b, o, path, hsr, _ => by
      cases o with
      | str a => simp [createPatchEntries, diffEntries]
      | num n => exact absurd hsr (by simp [stringRefine])
      | boolean c => exact absurd hsr (by simp [stringRefine])
      | null => exact absurd hsr (by simp [stringRefine])
      | arr xs => exact absurd hsr (by simp [stringRefine])
      | obj fs => exact absurd hsr (by simp [stringRefine])
  | .num m, o, path, hsr, _ => by
      cases o with
      | num n => simp [createPatchEntries, diffEntries]
      | str a => exact absurd hsr (by simp [stringRefine])
      | boolean c => exact absurd hsr (by simp [stringRefine])
      | null => exact absurd hsr (by simp [stringRefine])
      | arr xs => exact absurd hsr (by simp [stringRefine])
      | obj fs => exact absurd hsr (by simp [stringRefine])
  | .boolean c, o, path, hsr, _ => by
      cases o with
      | boolean b => simp [createPatchEntries, diffEntries]
      | str a => exact absurd hsr (by simp [stringRefine])
      | num n => exact absurd hsr (by simp [stringRefine])
      | null => exact absurd hsr (by simp [stringRefine])
      | arr xs => exact absurd hsr (by simp [stringRefine])
      | obj fs => exact absurd hsr (by simp [stringRefine])
  | .null, o, path, hsr, _ => by
      cases o with
      | null => simp [createPatchEntries, diffEntries]
      | str a => exact absurd hsr (by simp [stringRefine])
      | num n => exact absurd hsr (by simp [stringRefine])
      | boolean c => exact absurd hsr (by simp [stringRefine])
      | arr xs => exact absurd hsr (by simp [stringRefine])
      | obj fs => exact absurd hsr (by simp [stringRefine])
  | .arr ts, o, path, hsr, hwf => by
      cases o with
      | arr os =>
        simp only [createPatchEntries, diffEntries]
        simp only [stringRefine] at hsr
        exact patchArrArr_eq ts os 0 path os rfl hsr (by simpa [wfJson] using hwf)
      | str a => exact absurd hsr (by simp [stringRefine])
      | num n => exact absurd hsr (by simp [stringRefine])
      | boolean c => exact absurd hsr (by simp [stringRefine])
      | null => exact absurd hsr (by simp [stringRefine])
      | obj fs => exact absurd hsr (by simp [stringRefine])
  | .obj tfs, o, path, hsr, hwf => by
      cases o with
      | obj ofs =>
        simp only [createPatchEntries, diffEntries]
        simp only [stringRefine] at hsr
        simp only [wfJson, Bool.and_eq_true] at hwf
        exact patchObjObj_eq tfs ofs ofs path (fun q hq => hq) hwf.1 hsr hwf.2
      | str a => exact absurd hsr (by simp [stringRefine])
      | num n => exact absurd hsr (by simp [stringRefine])
      | boolean c => exact absurd hsr (by simp [stringRefine])
      | null => exact absurd hsr (by simp [stringRefine])
      | arr xs => exact absurd hsr (by simp [stringRefine])

theorem patchArrArr_eq :
    ∀ (ts os : List Json) (i : Nat) (path : List String) (os2 : List Json),
      os.drop i = os2 → stringRefineList os2 ts = true → wfList os2 = true →
      patchArrArr os ts i path = diffList os2 ts i path
  | [], os, i, path, os2, _, _, _ => by
      cases os2 <;> simp [patchArrArr, diffList]
  | t :: ts, os, i, path, os2, hdrop, hsr, hwf => by
      cases os2 with
      | nil => simp [stringRefineList] at hsr
      | cons o os2 =>
        simp only [stringRefineList, Bool.and_eq_true] at hsr
        simp only [wfList, Bool.and_eq_true] at hwf
        have hget : os.get? i = some o := by
          have h := List.get?_drop os i 0
          rw [hdrop] at h
          simpa using h.symm
        have hdrop2 : os.drop (i + 1) = os2 := by
          have h := List.drop_drop 1 i os
          rw [hdrop] at h
          simpa using h.symm
        simp only [patchArrArr, diffList, hget]
        rw [createPatchEntries_eq t o (path ++ [indexToken i]) hsr.1 hwf.1,
          patchArrArr_eq ts os (i + 1) path os2 hdrop2 hsr.2 hwf.2]
  termination_by structural ts => ts

theorem patchObjObj_eq :
    ∀ (tfs ofs ofs2 : List (String × Json)) (path : List String),
      (∀ q ∈ ofs2, q ∈ ofs) → keysNodup ofs = true →
      stringRefineFields ofs2 tfs = true → wfFields ofs2 = true →
      patchObjObj ofs tfs path = diffFields ofs2 tfs path
  | [], ofs, ofs2, path, _, _, hsr, _ => by
      cases ofs2 with
      | nil => simp [patchObjObj, diffFields]
      | cons q ofs2 => simp [stringRefineFields] at hsr
  | (l, w) :: tfs, ofs, ofs2, path, hsub, hnd, hsr, hwf => by
      cases ofs2 with
      | nil => simp [stringRefineFields] at hsr
      | cons q ofs2 =>
        obtain ⟨k, v⟩ := q
        simp only [stringRefineFields, Bool.and_eq_true, decide_eq_true_eq] at hsr
        obtain ⟨⟨hkl, hsrv⟩, hsrr⟩ := hsr
        subst hkl
        simp only [wfFields, Bool.and_eq_true] at hwf
        have hget : jsGetField ofs k = some v :=
          jsGetField_of_mem hnd (hsub (k, v) (List.mem_cons_self _ _))
        simp only [patchObjObj, diffFields, hget]
        rw [createPatchEntries_eq w v (path ++ [k]) hsrv hwf.1,
          patchObjObj_eq tfs ofs ofs2 path (fun q hq => hsub q (List.mem_cons_of_mem _ hq))
            hnd hsrr hwf.2]
  termination_by structural tfs => tfs

end

/-- C3.  Corrected statement: the claim as written fails (see the
counterexample: differing non-string leaves are silently dropped from the
patch, so overlaying it does not reconstruct `translated`).  It holds under
the conditions in which `createPatch` is actually used: `translated` is the
original with only string leaves rewritten (`stringRefine`), the original is
a well-formed JS value (distinct object keys), no object key of the
original names an `Object.prototype` property (otherwise the JS `in` check
or the `__proto__` setter inside `setValueAtPath` silently loses writes),
and the root is a container (or nothing changed at all).  Then folding the
emitted entries through `setValueAtPath` and applying the resulting patch
object as overrides onto `original` — overwriting exactly the leaf paths
present in the patch — reconstructs `translated`. -/
theorem createPatch_overlay_reconstructs (original translated : Json)
    (hsr : stringRefine original translated = true)
    (hwf : wfJson original = true)
    (hok : keysOk protoKey original = true)
    (hroot : (∃ fs, original = Json.obj fs) ∨ (∃ xs, original = Json.arr xs) ∨
      original = translated) :
    overlay original (createPatch original translated) = translated := by
  have hcp : createPatch original translated =
      patchFold (.obj []) (diffEntries original translated []) := by
    unfold createPatch patchFold
    rw [createPatchEntries_eq translated original [] hsr hwf]
  rcases hroot with hc | hc | heq
  · rw [hcp, patchFold_diff original translated hsr hok hwf (Or.inl hc),
      overlay_patchTree original translated hsr hwf]
  · rw [hcp, patchFold_diff original translated hsr hok hwf (Or.inr hc),
      overlay_patchTree original translated hsr hwf]
  · subst heq
    rw [hcp, diffEntries_self original [], patchFold_nil, overlay_emptyPatch]

/-- Witness for C3: on `{a: "Hello one", b: {c: "Hello two"}}` translated to
`{a: "Bonjour", b: {c: "Salut"}}` the overlaid patch reconstructs the
translated tree. -/
theorem createPatch_overlay_reconstructs_witness :
    overlay (Json.obj [("a", .str "Hello one"), ("b", .obj [("c", .str "Hello two")])])
        (createPatch
          (Json.obj [("a", .str "Hello one"), ("b", .obj [("c", .str "Hello two")])])
          (Json.obj [("a", .str "Bonjour"), ("b", .obj [("c", .str "Salut")])])) =
      Json.obj [("a", .str "Bonjour"), ("b", .obj [("c", .str "Salut")])] :=
  createPatch_overlay_reconstructs
    (Json.obj [("a", .str "Hello one"), ("b", .obj [("c", .str "Hello two")])])
    (Json.obj [("a", .str "Bonjour"), ("b", .obj [("c", .str "Salut")])])
    (by decide) (by decide) (by decide)
    (Or.inl ⟨[("a", .str "Hello one"), ("b", .obj [("c", .str "Hello two")])], rfl⟩)

/-- Counterexample to C3 as stated: `{a: 1}` versus `{a: 2}` — the
translated tree has no keys or indices absent from the original, yet the
patch omits the differing number leaf (only string/string differences are
emitted), so applying the patch as overrides onto the original yields
`{a: 1}`, not a tree deep-equal to `{a: 2}`. -/
theorem createPatch_overlay_counterexample :
    overlay (Json.obj [("a", Json.num 1)])
        (createPatch (Json.obj [("a", Json.num 1)]) (Json.obj [("a", Json.num 2)])) ≠
      Json.obj [("a", Json.num 2)] := by decide

theorem char_toNat_lt (c : Char) : c.toNat < 1114112 := by
  have h := c.valid
  unfold UInt32.isValidChar Nat.isValidChar at h
  unfold Char.toNat
  omega

theorem char_toNat_injective : Function.Injective Char.toNat := by
  intro c1 c2 h
  rw [← Char.ofNat_toNat c1, ← Char.ofNat_toNat c2, h]

theorem char_toNat_ofNat {n : Nat} (h : n < 55296) : (Char.ofNat n).toNat = n := by
  unfold Char.ofNat Char.ofNatAux
  rw [dif_pos (by unfold Nat.isValidChar; omega)]
  rfl

theorem char_ofNat_inj {m n : Nat} (hm : m < 55296) (hn : n < 55296)
    (h : Char.ofNat m = Char.ofNat n) : m = n := by
  rw [← char_toNat_ofNat hm, ← char_toNat_ofNat hn, h]

/-- Index of a character in the base64 alphabet: a left inverse of `b64Char`. -/
def b64Val (c : Char) : Nat :=
  "ABCDEFGHIJKLMNOPQRSTUVWXYZabcdefghijklmnopqrstuvwxyz0123456789+/".data.indexOf c

theorem b64Val_b64Char : ∀ n < 64, b64Val (b64Char n) = n := by decide

theorem b64Char_inj {m n : Nat} (hm : m < 64) (hn : n < 64)
    (h : b64Char m = b64Char n) : m = n := by
  rw [← b64Val_b64Char m hm, ← b64Val_b64Char n hn, h]

theorem b64Char_ne_pad : ∀ n < 64, b64Char n ≠ '=' := by decide

theorem hexDigitChar_inj : ∀ m < 16, ∀ n < 16, hexDigitChar m = hexDigitChar n → m = n := by
  decide

theorem unreservedByte_le {b : Nat} (h : unreservedByte b = true) : b ≤ 126 := by
  simp only [unreservedByte, Bool.or_eq_true, Bool.and_eq_true, decide_eq_true_eq] at h
  omega

/-- Base64 encoding is injective on byte sequences. -/
theorem b64Encode_inj :
    ∀ (bs1 bs2 : List Nat), (∀ b ∈ bs1, b < 256) → (∀ b ∈ bs2, b < 256) →
      b64Encode bs1 = b64Encode bs2 → bs1 = bs2
  | [], [], _, _, _ => rfl
  | [], [_], _, _, h => by simp [b64Encode] at h
  | [], [_, _], _, _, h => by simp [b64Encode] at h
  | [], _ :: _ :: _ :: _, _, _, h => by simp [b64Encode] at h
  | [_], [], _, _, h => by simp [b64Encode] at h
  | [_, _], [], _, _, h => by simp [b64Encode] at h
  | _ :: _ :: _ :: _, [], _, _, h => by simp [b64Encode] at h
  | [a1], [a2], h1, h2, h => by
      simp only [b64Encode, List.cons.injEq, and_true, eq_self_iff_true] at h
      have ha1 : a1 < 256 := h1 a1 (by simp)
      have ha2 : a2 < 256 := h2 a2 (by simp)
      have e1 := b64Char_inj (by omega) (by omega) h.1
      have e2 := b64Char_inj (by omega) (by omega) h.2
      have : a1 = a2 := by omega
      rw [this]
  | [a1], [a2, b2], _, _, h => by
      simp only [b64Encode, List.cons.injEq, and_true, eq_self_iff_true] at h
      exact absurd h.2.2.symm (b64Char_ne_pad _ (by omega))
  | [a1], a2 :: b2 :: c2 :: rest2, _, h2, h => by
      simp only [b64Encode, List.cons.injEq] at h
      have hc2 : c2 < 256 := h2 c2 (by simp)
      exact absurd h.2.2.1.symm (b64Char_ne_pad _ (by omega))
  | [a1, b1], [a2], _, _, h => by
      simp only [b64Encode, List.cons.injEq, and_true, eq_self_iff_true] at h
      exact absurd h.2.2 (b64Char_ne_pad _ (by omega))
  | [a1, b1], [a2, b2], h1, h2, h => by
      simp only [b64Encode, List.cons.injEq, and_true, eq_self_iff_true] at h
      have ha1 : a1 < 256 := h1 a1 (by simp)
      have hb1 : b1 < 256 := h1 b1 (by simp)
      have ha2 : a2 < 256 := h2 a2 (by simp)
      have hb2 : b2 < 256 := h2 b2 (by simp)
      have e1 := b64Char_inj (by omega) (by omega) h.1
      have e2 := b64Char_inj (by omega) (by omega) h.2.1
      have e3 := b64Char_inj (by omega) (by omega) h.2.2
      have ea : a1 = a2 := by omega
      have eb : b1 = b2 := by omega
      rw [ea, eb]
  | [a1, b1], a2 :: b2 :: c2 :: rest2, _, h2, h => by
      simp only [b64Encode, List.cons.injEq] at h
      exact absurd h.2.2.2.1.symm (b64Char_ne_pad _ (by omega))
  | a1 :: b1 :: c1 :: rest1, [a2], h1, _, h => by
      simp only [b64Encode, List.cons.injEq] at h
      have hc1 : c1 < 256 := h1 c1 (by simp)
      exact absurd h.2.2.1 (b64Char_ne_pad _ (by omega))
  | a1 :: b1 :: c1 :: rest1, [a2, b2], h1, _, h => by
      simp only [b64Encode, List.cons.injEq] at h
      exact absurd h.2.2.2.1 (b64Char_ne_pad _ (by omega))
  | a1 :: b1 :: c1 :: rest1, a2 :: b2 :: c2 :: rest2, h1, h2, h => by
      simp only [b64Encode, List.cons.injEq] at h
      have ha1 : a1 < 256 := h1 a1 (by simp)
      have hb1 : b1 < 256 := h1 b1 (by simp)
      have hc1 : c1 < 256 := h1 c1 (by simp)
      have ha2 : a2 < 256 := h2 a2 (by simp)
      have hb2 : b2 < 256 := h2 b2 (by simp)
      have hc2 : c2 < 256 := h2 c2 (by simp)
      have e1 := b64Char_inj (by omega) (by omega) h.1
      have e2 := b64Char_inj (by omega) (by omega) h.2.1
      have e3 := b64Char_inj (by omega) (by omega) h.2.2.1
      have e4 := b64Char_inj (by omega) (by omega) h.2.2.2.1
      have ea : a1 = a2 := by omega
      have eb : b1 = b2 := by omega
      have ec : c1 = c2 := by omega
      have hrest := b64Encode_inj rest1 rest2
        (fun b hb => h1 b (by simp [hb]))
        (fun b hb => h2 b (by simp [hb]))
        h.2.2.2.2
      rw [ea, eb, ec, hrest]

/-- Percent-escaping is injective on byte sequences. -/
theorem percentEncode_inj :
    ∀ (bs1 bs2 : List Nat), (∀ b ∈ bs1, b < 256) → (∀ b ∈ bs2, b < 256) →
      percentEncode bs1 = percentEncode bs2 → bs1 = bs2
  | [], [], _, _, _ => rfl
  | [], b :: bs, _, _, h => by
      rcases hb : unreservedByte b <;> simp [percentEncode, hb] at h
  | b :: bs, [], _, _, h => by
      rcases hb : unreservedByte b <;> simp [percentEncode, hb] at h
  | b1 :: bs1, b2 :: bs2, h1, h2, h => by
      have hb1m : b1 < 256 := h1 b1 (by simp)
      have hb2m : b2 < 256 := h2 b2 (by simp)
      rcases hu1 : unreservedByte b1 <;> rcases hu2 : unreservedByte b2
      · simp only [percentEncode, hu1, hu2, Bool.false_eq_true, if_false,
          List.cons_append, List.nil_append, List.cons.injEq] at h
        have e1 := hexDigitChar_inj (b1 / 16) (by omega) (b2 / 16) (by omega) h.2.1
        have e2 := hexDigitChar_inj (b1 % 16) (by omega) (b2 % 16) (by omega) h.2.2.1
        have eb : b1 = b2 := by omega
        have hrest := percentEncode_inj bs1 bs2
          (fun b hb => h1 b (List.mem_cons_of_mem _ hb))
          (fun b hb => h2 b (List.mem_cons_of_mem _ hb))
          h.2.2.2
        rw [eb, hrest]
      · simp only [percentEncode, hu1, hu2, Bool.false_eq_true, if_false, if_true,
          List.cons_append, List.nil_append, List.cons.injEq] at h
        have hpc : b2 = 37 := by
          have := congrArg Char.toNat h.1.symm
          rwa [char_toNat_ofNat (by omega), show ('%').toNat = 37 from rfl] at this
        rw [hpc] at hu2
        exact absurd hu2 (by decide)
      · simp only [percentEncode, hu1, hu2, Bool.false_eq_true, if_false, if_true,
          List.cons_append, List.nil_append, List.cons.injEq] at h
        have hpc : b1 = 37 := by
          have := congrArg Char.toNat h.1
          rwa [char_toNat_ofNat (by omega), show ('%').toNat = 37 from rfl] at this
        rw [hpc] at hu1
        exact absurd hu1 (by decide)
      · simp only [percentEncode, hu1, hu2, if_true,
          List.cons_append, List.nil_append, List.cons.injEq] at h
        have eb : b1 = b2 := char_ofNat_inj (by omega) (by omega) h.1
        have hrest := percentEncode_inj bs1 bs2
          (fun b hb => h1 b (List.mem_cons_of_mem _ hb))
          (fun b hb => h2 b (List.mem_cons_of_mem _ hb))
          h.2
        rw [eb, hrest]

theorem utf8Char_eq1 {c : Char} (h : c.toNat < 128) : utf8Char c = [c.toNat] := by
  simp [utf8Char, h]

theorem utf8Char_eq2 {c : Char} (h1 : ¬ c.toNat < 128) (h2 : c.toNat < 2048) :
    utf8Char c = [192 + c.toNat / 64, 128 + c.toNat % 64] := by
  simp [utf8Char, h1, h2]

theorem utf8Char_eq3 {c : Char} (h1 : ¬ c.toNat < 128) (h2 : ¬ c.toNat < 2048)
    (h3 : c.toNat < 65536) :
    utf8Char c = [224 + c.toNat / 4096, 128 + c.toNat / 64 % 64, 128 + c.toNat % 64] := by
  simp [utf8Char, h1, h2, h3]

theorem utf8Char_eq4 {c : Char} (h1 : ¬ c.toNat < 128) (h2 : ¬ c.toNat < 2048)
    (h3 : ¬ c.toNat < 65536) :
    utf8Char c = [240 + c.toNat / 262144, 128 + c.toNat / 4096 % 64,
      128 + c.toNat / 64 % 64, 128 + c.toNat % 64] := by
  simp [utf8Char, h1, h2, h3]

theorem utf8Char_ne_nil (c : Char) : utf8Char c ≠ [] := by
  by_cases p : c.toNat < 128
  · rw [utf8Char_eq1 p]
    simp
  · by_cases q : c.toNat < 2048
    · rw [utf8Char_eq2 p q]
      simp
    · by_cases r : c.toNat < 65536
      · rw [utf8Char_eq3 p q r]
        simp
      · rw [utf8Char_eq4 p q r]
        simp

/-- UTF-8 is a prefix code: equal continuations determine equal characters. -/
theorem utf8Char_split (c1 c2 : Char) (e1 e2 : List Nat)
    (h : utf8Char c1 ++ e1 = utf8Char c2 ++ e2) : c1.toNat = c2.toNat ∧ e1 = e2 := by
  by_cases p1 : c1.toNat < 128
  · by_cases p2 : c2.toNat < 128
    · rw [utf8Char_eq1 p1, utf8Char_eq1 p2] at h
      simp only [List.cons_append, List.nil_append, List.cons.injEq] at h
      exact ⟨h.1, h.2⟩
    · by_cases q2 : c2.toNat < 2048
      · rw [utf8Char_eq1 p1, utf8Char_eq2 p2 q2] at h
        simp only [List.cons_append, List.nil_append, List.cons.injEq] at h
        exact absurd h.1 (by omega)
      · by_cases r2 : c2.toNat < 65536
        · rw [utf8Char_eq1 p1, utf8Char_eq3 p2 q2 r2] at h
          simp only [List.cons_append, List.nil_append, List.cons.injEq] at h
          exact absurd h.1 (by omega)
        · rw [utf8Char_eq1 p1, utf8Char_eq4 p2 q2 r2] at h
          simp only [List.cons_append, List.nil_append, List.cons.injEq] at h
          exact absurd h.1 (by omega)
  · by_cases q1 : c1.toNat < 2048
    · by_cases p2 : c2.toNat < 128
      · rw [utf8Char_eq2 p1 q1, utf8Char_eq1 p2] at h
        simp only [List.cons_append, List.nil_append, List.cons.injEq] at h
        exact absurd h.1 (by omega)
      · by_cases q2 : c2.toNat < 2048
        · rw [utf8Char_eq2 p1 q1, utf8Char_eq2 p2 q2] at h
          simp only [List.cons_append, List.nil_append, List.cons.injEq] at h
          obtain ⟨x1, x2, x3⟩ := h
          exact ⟨by omega, x3⟩
        · by_cases r2 : c2.toNat < 65536
          · rw [utf8Char_eq2 p1 q1, utf8Char_eq3 p2 q2 r2] at h
            simp only [List.cons_append, List.nil_append, List.cons.injEq] at h
            exact absurd h.1 (by omega)
          · rw [utf8Char_eq2 p1 q1, utf8Char_eq4 p2 q2 r2] at h
            simp only [List.cons_append, List.nil_append, List.cons.injEq] at h
            exact absurd h.1 (by omega)
    · by_cases r1 : c1.toNat < 65536
      · by_cases p2 : c2.toNat < 128
        · rw [utf8Char_eq3 p1 q1 r1, utf8Char_eq1 p2] at h
          simp only [List.cons_append, List.nil_append, List.cons.injEq] at h
          exact absurd h.1 (by omega)
        · by_cases q2 : c2.toNat < 2048
          · rw [utf8Char_eq3 p1 q1 r1, utf8Char_eq2 p2 q2] at h
            simp only [List.cons_append, List.nil_append, List.cons.injEq] at h
            exact absurd h.1 (by omega)
          · by_cases r2 : c2.toNat < 65536
            · rw [utf8Char_eq3 p1 q1 r1, utf8Char_eq3 p2 q2 r2] at h
              simp only [List.cons_append, List.nil_append, List.cons.injEq] at h
              obtain ⟨x1, x2, x3, x4⟩ := h
              exact ⟨by omega, x4⟩
            · rw [utf8Char_eq3 p1 q1 r1, utf8Char_eq4 p2 q2 r2] at h
              simp only [List.cons_append, List.nil_append, List.cons.injEq] at h
              exact absurd h.1 (by omega)
      · by_cases p2 : c2.toNat < 128
        · rw [utf8Char_eq4 p1 q1 r1, utf8Char_eq1 p2] at h
          simp only [List.cons_append, List.nil_append, List.cons.injEq] at h
          exact absurd h.1 (by omega)
        · by_cases q2 : c2.toNat < 2048
          · rw [utf8Char_eq4 p1 q1 r1, utf8Char_eq2 p2 q2] at h
            simp only [List.cons_append, List.nil_append, List.cons.injEq] at h
            exact absurd h.1 (by omega)
          · by_cases r2 : c2.toNat < 65536
            · rw [utf8Char_eq4 p1 q1 r1, utf8Char_eq3 p2 q2 r2] at h
              simp only [List.cons_append, List.nil_append, List.cons.injEq] at h
              exact absurd h.1 (by omega)
            · rw [utf8Char_eq4 p1 q1 r1, utf8Char_eq4 p2 q2 r2] at h
              simp only [List.cons_append, List.nil_append, List.cons.injEq] at h
              obtain ⟨x1, x2, x3, x4, x5⟩ := h
              exact ⟨by omega, x5⟩

/-- UTF-8 encoding is injective on character lists. -/
theorem utf8Encode_inj : ∀ (cs1 cs2 : List Char),
    utf8Encode cs1 = utf8Encode cs2 → cs1 = cs2
  | [], [], _ => rfl
  | [], c :: cs, h => by
      simp only [utf8Encode] at h
      rcases List.append_eq_nil.mp h.symm with ⟨h1, _⟩
      exact absurd h1 (utf8Char_ne_nil c)
  | c :: cs, [], h => by
      simp only [utf8Encode] at h
      rcases List.append_eq_nil.mp h with ⟨h1, _⟩
      exact absurd h1 (utf8Char_ne_nil c)
  | c1 :: cs1, c2 :: cs2, h => by
      simp only [utf8Encode] at h
      obtain ⟨hn, he⟩ := utf8Char_split c1 c2 _ _ h
      rw [char_toNat_injective hn, utf8Encode_inj cs1 cs2 he]

theorem utf8Char_lt (c : Char) : ∀ b ∈ utf8Char c, b < 256 := by
  have hv := char_toNat_lt c
  by_cases p : c.toNat < 128
  · rw [utf8Char_eq1 p]
    intro b hb
    simp at hb
    omega
  · by_cases q : c.toNat < 2048
    · rw [utf8Char_eq2 p q]
      intro b hb
      simp at hb
      rcases hb with h | h <;> omega
    · by_cases r : c.toNat < 65536
      · rw [utf8Char_eq3 p q r]
        intro b hb
        simp at hb
        rcases hb with h | h | h <;> omega
      · rw [utf8Char_eq4 p q r]
        intro b hb
        simp at hb
        rcases hb with h | h | h | h <;> omega

theorem utf8Encode_lt : ∀ (cs : List Char), ∀ b ∈ utf8Encode cs, b < 256
  | [] => by simp [utf8Encode]
  | c :: cs => by
      intro b hb
      simp only [utf8Encode, List.mem_append] at hb
      rcases hb with hb | hb
      · exact utf8Char_lt c b hb
      · exact utf8Encode_lt cs b hb

theorem hexDigitChar_toNat_lt {d : Nat} (h : d < 16) : (hexDigitChar d).toNat < 256 := by
  unfold hexDigitChar
  split_ifs with h2
  · rw [char_toNat_ofNat (by omega)]
    omega
  · rw [char_toNat_ofNat (by omega)]
    omega

theorem percentEncode_toNat_lt :
    ∀ (bs : List Nat), (∀ b ∈ bs, b < 256) → ∀ c ∈ percentEncode bs, c.toNat < 256
  | [] => by simp [percentEncode]
  | b :: bs => by
      intro hb c hc
      have hbm : b < 256 := hb b (by simp)
      simp only [percentEncode, List.mem_append] at hc
      rcases hc with hc | hc
      · rcases hu : unreservedByte b
        · rw [hu] at hc
          simp at hc
          rcases hc with h | h | h
          · rw [h]
            decide
          · rw [h]
            exact hexDigitChar_toNat_lt (by omega)
          · rw [h]
            exact hexDigitChar_toNat_lt (by omega)
        · rw [hu] at hc
          simp at hc
          rw [hc, char_toNat_ofNat (by omega)]
          omega
      · exact percentEncode_toNat_lt bs (fun x hx => hb x (List.mem_cons_of_mem _ hx)) c hc

/-- Splitting at the first separator is unambiguous when the prefixes are
separator-free. -/
theorem dashFree_split :
    ∀ (u1 u2 v1 v2 : List Char), ('-' : Char) ∉ u1 → ('-' : Char) ∉ u2 →
      u1 ++ '-' :: v1 = u2 ++ '-' :: v2 → u1 = u2 ∧ v1 = v2
  | [], [], v1, v2 => by
      intro _ _ h
      simp only [List.nil_append, List.cons.injEq] at h
      exact ⟨rfl, h.2⟩
  | [], c :: u2, v1, v2 => by
      intro _ h2 h
      simp only [List.nil_append, List.cons_append, List.cons.injEq] at h
      exact absurd (show ('-' : Char) ∈ c :: u2 by rw [← h.1]; exact List.mem_cons_self _ _) h2
  | c :: u1, [], v1, v2 => by
      intro h1 _ h
      simp only [List.nil_append, List.cons_append, List.cons.injEq] at h
      exact absurd (show ('-' : Char) ∈ c :: u1 by rw [h.1]; exact List.mem_cons_self _ _) h1
  | c1 :: u1, c2 :: u2, v1, v2 => by
      intro h1 h2 h
      simp only [List.cons_append, List.cons.injEq] at h
      obtain ⟨hc, hrest⟩ := h
      obtain ⟨hu, hv⟩ := dashFree_split u1 u2 v1 v2
        (fun hm => h1 (List.mem_cons_of_mem _ hm))
        (fun hm => h2 (List.mem_cons_of_mem _ hm)) hrest
      exact ⟨by rw [hc, hu], hv⟩

/-- The triple join `t-s-g` is injective when `s` and `g` are dash-free. -/
theorem dash_triple_split (t1 s1 g1 t2 s2 g2 : List Char)
    (hs1 : ('-' : Char) ∉ s1) (hg1 : ('-' : Char) ∉ g1)
    (hs2 : ('-' : Char) ∉ s2) (hg2 : ('-' : Char) ∉ g2)
    (h : t1 ++ '-' :: (s1 ++ '-' :: g1) = t2 ++ '-' :: (s2 ++ '-' :: g2)) :
    t1 = t2 ∧ s1 = s2 ∧ g1 = g2 := by
  have hrev : g1.reverse ++ '-' :: (s1.reverse ++ '-' :: t1.reverse) =
      g2.reverse ++ '-' :: (s2.reverse ++ '-' :: t2.reverse) := by
    have h2 := congrArg List.reverse h
    simp only [List.reverse_append, List.reverse_cons, List.append_assoc,
      List.singleton_append] at h2
    simpa [List.append_assoc] using h2
  obtain ⟨hg, hrest⟩ := dashFree_split g1.reverse g2.reverse _ _
    (by simpa using hg1) (by simpa using hg2) hrev
  obtain ⟨hs, ht⟩ := dashFree_split s1.reverse s2.reverse _ _
    (by simpa using hs1) (by simpa using hs2) hrest
  refine ⟨?_, ?_, ?_⟩
  · have := congrArg List.reverse ht
    simpa using this
  · have := congrArg List.reverse hs
    simpa using this
  · have := congrArg List.reverse hg
    simpa using this

theorem map_toNat_inj : ∀ {l1 l2 : List Char},
    l1.map Char.toNat = l2.map Char.toNat → l1 = l2
  | [], [], _ => rfl
  | [], _ :: _, h => by simp at h
  | _ :: _, [], h => by simp at h
  | c :: cs, d :: ds, h => by
      simp only [List.map_cons, List.cons.injEq] at h
      rw [char_toNat_injective h.1, map_toNat_inj h.2]

/-- C4.  Corrected statement: the key is a pure function of the triple, but
it is not collision-resistant as claimed — the three components are joined
with `-` before encoding, so a dash inside any component shifts the
boundaries (see the counterexample).  Collision resistance does hold on the
triples the service actually uses: whenever the two language tags are
dash-free, equal cache keys force equal triples, because base64,
percent-escaping and UTF-8 are all injective and the two separators are
then unambiguous. -/
theorem getCacheKey_injective_dashFree
    (t1 s1 g1 t2 s2 g2 : String)
    (hs1 : ('-' : Char) ∉ s1.data) (hg1 : ('-' : Char) ∉ g1.data)
    (hs2 : ('-' : Char) ∉ s2.data) (hg2 : ('-' : Char) ∉ g2.data)
    (h : getCacheKey t1 s1 g1 = getCacheKey t2 s2 g2) :
    t1 = t2 ∧ s1 = s2 ∧ g1 = g2 := by
  have h2 : b64Encode
      ((percentEncode (utf8Encode (t1 ++ "-" ++ s1 ++ "-" ++ g1).data)).map Char.toNat) =
      b64Encode
      ((percentEncode (utf8Encode (t2 ++ "-" ++ s2 ++ "-" ++ g2).data)).map Char.toNat) :=
    congrArg String.data h
  have hB1 : ∀ b ∈ (percentEncode
      (utf8Encode (t1 ++ "-" ++ s1 ++ "-" ++ g1).data)).map Char.toNat, b < 256 := by
    intro b hb
    obtain ⟨c, hc, rfl⟩ := List.mem_map.mp hb
    exact percentEncode_toNat_lt _ (utf8Encode_lt _) c hc
  have hB2 : ∀ b ∈ (percentEncode
      (utf8Encode (t2 ++ "-" ++ s2 ++ "-" ++ g2).data)).map Char.toNat, b < 256 := by
    intro b hb
    obtain ⟨c, hc, rfl⟩ := List.mem_map.mp hb
    exact percentEncode_toNat_lt _ (utf8Encode_lt _) c hc
  have h3 := b64Encode_inj _ _ hB1 hB2 h2
  have h4 := map_toNat_inj h3
  have h5 := percentEncode_inj _ _ (fun b hb => utf8Encode_lt _ b hb)
    (fun b hb => utf8Encode_lt _ b hb) h4
  have h6 := utf8Encode_inj _ _ h5
  have h7 : t1.data ++ '-' :: (s1.data ++ '-' :: g1.data) =
      t2.data ++ '-' :: (s2.data ++ '-' :: g2.data) := by
    have h6b := h6
    simp only [String.data_append] at h6b
    simpa [List.append_assoc] using h6b
  obtain ⟨ht, hs, hg⟩ := dash_triple_split _ _ _ _ _ _ hs1 hg1 hs2 hg2 h7
  exact ⟨congrArg String.mk ht, congrArg String.mk hs, congrArg String.mk hg⟩

/-- Witness for C4: on dash-free language tags the theorem applies; equal
keys force equal triples. -/
theorem getCacheKey_injective_dashFree_witness :
    ("hola" : String) = "hola" ∧ ("en" : String) = "en" ∧ ("fr" : String) = "fr" :=
  getCacheKey_injective_dashFree "hola" "en" "fr" "hola" "en" "fr"
    (by decide) (by decide) (by decide) (by decide) rfl

/-- Counterexample to C4 as stated: the distinct triples
`("a-b", "c", "d")` and `("a", "b-c", "d")` produce the same joined string
`a-b-c-d`, hence the same cache key, so the key is not collision-resistant
on arbitrary triples. -/
theorem getCacheKey_collision :
    getCacheKey "a-b" "c" "d" = getCacheKey "a" "b-c" "d" ∧
      ¬(("a-b" : String) = "a" ∧ ("c" : String) = "b-c" ∧ ("d" : String) = "d") := by
  constructor
  · decide
  · decide

end TranslateJson
